import Mathlib

/-!
# Block cipher, Natural and wire codec

A shallow embedding of the ECB and CBC entry points of the Blowfish block cipher
(crypto/blowfish/cipher.cpp), of the operators and constructors that datum/natural.hpp defines
inline, and of the length, fixnum and natural codec declared in asn/base.hpp, together with
their properties. Member functions and codec functions of which only the declaration is
available are modelled from the specification; each such definition says so.

Conventions of the embedding of the cipher:

* a byte buffer (`const uint8*`, `uint8*`) is the map from offsets to the byte stored there;
  the source and the destination of a call are distinct buffers;
* `size_t` offsets are natural numbers: an offset into an object in memory never reaches
  `2 ^ 64`, so the additions of the loops do not wrap;
* `uint32` values are natural numbers, reduced modulo `2 ^ 32` where a value is stored into a
  `uint32` variable;
* the Feistel round function and its inverse (`bf_encrypt` / `bf_decrypt` of
  crypto/blowfish/core.hpp) are supplied with the key schedule.
-/

namespace WarGrey.SCADA

/-! ## Data model -/

/-- A caller-owned byte buffer: the byte stored at each offset. -/
abbrev Buffer := Nat → Nat

/-- Every entry of the buffer is a byte value. -/
def IsBytes (b : Buffer) : Prop := ∀ i, b i < 256

/-- Modelled from the spec: `bigendian_uint32_ref` of datum/bytes.hpp, which is not part of the
sources at hand. It reads the four bytes at `idx .. idx + 3` as one big-endian 32-bit word
("the two big-endian 32-bit halves" of a block); each byte read is a `uint8`. -/
def bigendian_uint32_ref (src : Buffer) (idx : Nat) : Nat :=
  (src idx % 256) * 16777216 + (src (idx + 1) % 256) * 65536
    + (src (idx + 2) % 256) * 256 + src (idx + 3) % 256

/-- Modelled from the spec: `bigendian_uint32_set` of datum/bytes.hpp, which is not part of the
sources at hand. It stores the 32-bit word `x` at `idx .. idx + 3`, most significant byte
first, and leaves every other byte of the buffer alone. -/
def bigendian_uint32_set (dest : Buffer) (idx : Nat) (x : Nat) : Buffer :=
  fun i =>
    if i = idx then x / 16777216 % 256
    else if i = idx + 1 then x / 65536 % 256
    else if i = idx + 2 then x / 256 % 256
    else if i = idx + 3 then x % 256
    else dest i

/-- Modelled from the spec: the key schedule `BFBox` (crypto/blowfish/core.hpp, not part of the
sources at hand), seen through the two primitives it drives: the round function
`roundFunction(L, R, key-schedule) -> (L', R')` and the inverse round function. -/
structure BFBox where
  /-- The Feistel transformation on the two halves of a block. -/
  round : Nat → Nat → Nat × Nat
  /-- The inverse transformation on the two halves of a block. -/
  unround : Nat → Nat → Nat × Nat

/-- The call `bf_encrypt(L, R, box->parray, box->sbox, &outL, &outR)`: the two results are
stored through `uint32*`. -/
def bf_encrypt (L R : Nat) (box : BFBox) : Nat × Nat :=
  ((box.round L R).1 % 4294967296, (box.round L R).2 % 4294967296)

/-- The call `bf_decrypt(L, R, box->parray, box->sbox, &outL, &outR)`: the two results are
stored through `uint32*`. -/
def bf_decrypt (L R : Nat) (box : BFBox) : Nat × Nat :=
  ((box.unround L R).1 % 4294967296, (box.unround L R).2 % 4294967296)

/-- The constant `bf_block_size`. -/
def bf_block_size : Nat := 8

/-! ## Single-block primitives -/

/-- The function `bf_long_encrypt(uint64 plain, BFBox* box)`. -/
def bf_long_encrypt (plain : Nat) (box : BFBox) : Nat :=
  let L := (plain >>> 32) % 4294967296
  let R := (plain &&& 0xFFFFFFFF) % 4294967296
  let out := bf_encrypt L R box
  ((out.1 <<< 32) % 18446744073709551616) ^^^ out.2

/-- The function `bf_long_decrypt(uint64 cipher, BFBox* box)`. -/
def bf_long_decrypt (cipher : Nat) (box : BFBox) : Nat :=
  let L := (cipher >>> 32) % 4294967296
  let R := (cipher &&& 0xFFFFFFFF) % 4294967296
  let out := bf_decrypt L R box
  ((out.1 <<< 32) % 18446744073709551616) ^^^ out.2

/-- The five-argument `bf_block_encrypt`: returns the destination buffer after the two stores
and the value `pstart + bf_block_size`. -/
def bf_block_encrypt (plainblock : Buffer) (pstart : Nat) (cipherblock : Buffer) (cstart : Nat)
    (box : BFBox) : Buffer × Nat :=
  let L := bigendian_uint32_ref plainblock pstart
  let R := bigendian_uint32_ref plainblock (pstart + 4)
  let out := bf_encrypt L R box
  (bigendian_uint32_set (bigendian_uint32_set cipherblock (cstart + 0) out.1) (cstart + 4) out.2,
    pstart + bf_block_size)

/-- The five-argument `bf_block_decrypt`: returns the destination buffer after the two stores
and the value `pstart + bf_block_size`, exactly as the source does (the caller assigns it to its
source offset). -/
def bf_block_decrypt (cipherblock : Buffer) (cstart : Nat) (plainblock : Buffer) (pstart : Nat)
    (box : BFBox) : Buffer × Nat :=
  let L := bigendian_uint32_ref cipherblock cstart
  let R := bigendian_uint32_ref cipherblock (cstart + 4)
  let out := bf_decrypt L R box
  (bigendian_uint32_set (bigendian_uint32_set plainblock (pstart + 0) out.1) (pstart + 4) out.2,
    pstart + bf_block_size)

/-- The seven-argument (CBC) `bf_block_encrypt`: returns the destination buffer after the two
stores, the value `pstart + bf_block_size`, and the feedback register `(*cbcL, *cbcR)` as the
call leaves it. -/
def bf_block_encrypt_cbc (plainblock : Buffer) (pstart : Nat) (cipherblock : Buffer)
    (cstart : Nat) (box : BFBox) (cbcL cbcR : Nat) : Buffer × Nat × Nat × Nat :=
  let pL := bigendian_uint32_ref plainblock pstart
  let pR := bigendian_uint32_ref plainblock (pstart + 4)
  let out := bf_encrypt (pL ^^^ cbcL) (pR ^^^ cbcR) box
  (bigendian_uint32_set (bigendian_uint32_set cipherblock (cstart + 0) out.1) (cstart + 4) out.2,
    pstart + bf_block_size, out.1, out.2)

/-- The seven-argument (CBC) `bf_block_decrypt`. The call of `bf_decrypt` stores its results
into the locals `L` and `R`, so the plaintext stores and the two register assignments that
follow it all see the decrypted halves. Returns the destination buffer, the value
`pstart + bf_block_size`, and the feedback register as the call leaves it. -/
def bf_block_decrypt_cbc (cipherblock : Buffer) (cstart : Nat) (plainblock : Buffer)
    (pstart : Nat) (box : BFBox) (cbcL cbcR : Nat) : Buffer × Nat × Nat × Nat :=
  let L := bigendian_uint32_ref cipherblock cstart
  let R := bigendian_uint32_ref cipherblock (cstart + 4)
  let out := bf_decrypt L R box
  (bigendian_uint32_set (bigendian_uint32_set plainblock (pstart + 0) (out.1 ^^^ cbcL))
      (pstart + 4) (out.2 ^^^ cbcR),
    pstart + bf_block_size, out.1, out.2)

/-! ## Cipher instances and their entry points -/

/-- The stateless cipher instance: it owns a key schedule. The schedule that
`blowfish_initiate_boxes(key, ksize, &box)` derives is the field `box`. -/
structure BlowfishCipher where
  /-- The key schedule. -/
  box : BFBox

/-- The chained cipher instance: a key schedule and the feedback register. -/
structure BlowfishCipherCBC where
  /-- The key schedule. -/
  box : BFBox
  /-- High half of the feedback register. -/
  cbcL : Nat
  /-- Low half of the feedback register. -/
  cbcR : Nat

/-- The variables of a `while` loop of the entry points when the loop exits. -/
structure LoopExit where
  /-- The destination buffer. -/
  buffer : Buffer
  /-- The variable `pstart`. -/
  pstart : Nat
  /-- The variable `cstart`. -/
  cstart : Nat

/-- What a call of an ECB entry point leaves behind. -/
structure Written where
  /-- The destination buffer after the call. -/
  buffer : Buffer
  /-- The value returned. -/
  next : Nat

/-- What a call of a CBC entry point leaves behind. -/
structure WrittenCBC where
  /-- The destination buffer after the call. -/
  buffer : Buffer
  /-- The value returned. -/
  next : Nat
  /-- The instance after the call. -/
  self : BlowfishCipherCBC

/-- The `while (pstart < pend)` loop of `BlowfishCipher::encrypt`. -/
def BlowfishCipher.encrypt_loop (self : BlowfishCipher) (plaintext : Buffer) (pstart pend : Nat)
    (ciphertext : Buffer) (cstart : Nat) : LoopExit :=
  if pstart < pend then
    let r := bf_block_encrypt plaintext pstart ciphertext cstart self.box
    BlowfishCipher.encrypt_loop self plaintext r.2 pend r.1 (cstart + bf_block_size)
  else ⟨ciphertext, pstart, cstart⟩
termination_by pend - pstart
decreasing_by
  simp only [bf_block_encrypt, bf_block_size]
  omega

/-- The entry point `BlowfishCipher::encrypt(plaintext, pstart, pend, ciphertext, cstart, cend)`. -/
def BlowfishCipher.encrypt (self : BlowfishCipher) (plaintext : Buffer) (pstart pend : Nat)
    (ciphertext : Buffer) (cstart _cend : Nat) : Written :=
  let s := BlowfishCipher.encrypt_loop self plaintext pstart pend ciphertext cstart
  ⟨s.buffer, s.cstart + bf_block_size⟩

/-- The `while (cstart < cend)` loop of `BlowfishCipher::decrypt`: the value that
`bf_block_decrypt` returns, `pstart + bf_block_size`, is assigned to `cstart`. -/
def BlowfishCipher.decrypt_loop (self : BlowfishCipher) (ciphertext : Buffer) (cstart cend : Nat)
    (plaintext : Buffer) (pstart : Nat) : LoopExit :=
  if cstart < cend then
    let r := bf_block_decrypt ciphertext cstart plaintext pstart self.box
    BlowfishCipher.decrypt_loop self ciphertext r.2 cend r.1 (pstart + bf_block_size)
  else ⟨plaintext, pstart, cstart⟩
termination_by if cstart < cend then cend - pstart + 1 else 0
decreasing_by
  simp only [bf_block_decrypt, bf_block_size]
  split <;> omega

/-- The entry point `BlowfishCipher::decrypt(ciphertext, cstart, cend, plaintext, pstart, pend)`. -/
def BlowfishCipher.decrypt (self : BlowfishCipher) (ciphertext : Buffer) (cstart cend : Nat)
    (plaintext : Buffer) (pstart _pend : Nat) : Written :=
  let s := BlowfishCipher.decrypt_loop self ciphertext cstart cend plaintext pstart
  ⟨s.buffer, s.pstart + bf_block_size⟩

/-- The entry point `BlowfishCipher::encrypt(uint64 plain)`. -/
def BlowfishCipher.encrypt_uint64 (self : BlowfishCipher) (plain : Nat) : Nat :=
  bf_long_encrypt plain self.box

/-- The entry point `BlowfishCipher::decrypt(uint64 cipher)`. -/
def BlowfishCipher.decrypt_uint64 (self : BlowfishCipher) (cipher : Nat) : Nat :=
  bf_long_decrypt cipher self.box

/-- The constructor `BlowfishCipherCBC(IV, key, ksize)`; `box` is the key schedule that
`blowfish_initiate_boxes(key, ksize, &box)` derives from the key. -/
def BlowfishCipherCBC.create (IV : Buffer) (box : BFBox) : BlowfishCipherCBC :=
  ⟨box, bigendian_uint32_ref IV 0, bigendian_uint32_ref IV 4⟩

/-- The `while (pstart < pend)` loop of `BlowfishCipherCBC::encrypt`; the feedback register is
threaded through the instance. -/
def BlowfishCipherCBC.encrypt_loop (self : BlowfishCipherCBC) (plaintext : Buffer)
    (pstart pend : Nat) (ciphertext : Buffer) (cstart : Nat) : LoopExit × BlowfishCipherCBC :=
  if pstart < pend then
    let r := bf_block_encrypt_cbc plaintext pstart ciphertext cstart self.box self.cbcL self.cbcR
    BlowfishCipherCBC.encrypt_loop ⟨self.box, r.2.2.1, r.2.2.2⟩ plaintext r.2.1 pend r.1
      (cstart + bf_block_size)
  else (⟨ciphertext, pstart, cstart⟩, self)
termination_by pend - pstart
decreasing_by
  simp only [bf_block_encrypt_cbc, bf_block_size]
  omega

/-- The entry point
`BlowfishCipherCBC::encrypt(plaintext, pstart, pend, ciphertext, cstart, cend)`. -/
def BlowfishCipherCBC.encrypt (self : BlowfishCipherCBC) (plaintext : Buffer)
    (pstart pend : Nat) (ciphertext : Buffer) (cstart _cend : Nat) : WrittenCBC :=
  let s := BlowfishCipherCBC.encrypt_loop self plaintext pstart pend ciphertext cstart
  ⟨s.1.buffer, s.1.cstart + bf_block_size, s.2⟩

/-- The `while (cstart < cend)` loop of `BlowfishCipherCBC::decrypt`: the value that
`bf_block_decrypt` returns, `pstart + bf_block_size`, is assigned to `cstart`. -/
def BlowfishCipherCBC.decrypt_loop (self : BlowfishCipherCBC) (ciphertext : Buffer)
    (cstart cend : Nat) (plaintext : Buffer) (pstart : Nat) : LoopExit × BlowfishCipherCBC :=
  if cstart < cend then
    let r := bf_block_decrypt_cbc ciphertext cstart plaintext pstart self.box self.cbcL self.cbcR
    BlowfishCipherCBC.decrypt_loop ⟨self.box, r.2.2.1, r.2.2.2⟩ ciphertext r.2.1 cend r.1
      (pstart + bf_block_size)
  else (⟨plaintext, pstart, cstart⟩, self)
termination_by if cstart < cend then cend - pstart + 1 else 0
decreasing_by
  simp only [bf_block_decrypt_cbc, bf_block_size]
  split <;> omega

/-- The entry point
`BlowfishCipherCBC::decrypt(ciphertext, cstart, cend, plaintext, pstart, pend)`. -/
def BlowfishCipherCBC.decrypt (self : BlowfishCipherCBC) (ciphertext : Buffer)
    (cstart cend : Nat) (plaintext : Buffer) (pstart _pend : Nat) : WrittenCBC :=
  let s := BlowfishCipherCBC.decrypt_loop self ciphertext cstart cend plaintext pstart
  ⟨s.1.buffer, s.1.pstart + bf_block_size, s.2⟩

/-! ## Block-level view used by the proofs -/

/-- The two big-endian 32-bit halves of the block at offset `off`. -/
def block_ref (b : Buffer) (off : Nat) : Nat × Nat :=
  (bigendian_uint32_ref b off, bigendian_uint32_ref b (off + 4))

/-- The two stores with which every block function writes a block at offset `off`. -/
def block_set (b : Buffer) (off : Nat) (w : Nat × Nat) : Buffer :=
  bigendian_uint32_set (bigendian_uint32_set b (off + 0) w.1) (off + 4) w.2

/-- A pair of halves as it reads back from a buffer: each half modulo `2 ^ 32`. -/
def word_wrap (w : Nat × Nat) : Nat × Nat := (w.1 % 4294967296, w.2 % 4294967296)

/-- The loop body shared by the four entry points, unrolled `n` times: `f` maps the state
carried between blocks and the halves of the source block to the halves written and the next
state; source and destination advance by `bf_block_size` per block. -/
def run_blocks {S : Type} (f : S → Nat × Nat → (Nat × Nat) × S) :
    Nat → Buffer → Nat → Buffer → Nat → S → Buffer × S
  | 0, _, _, dst, _, s => (dst, s)
  | n + 1, src, p, dst, c, s =>
    run_blocks f n src (p + 8) (block_set dst c (f s (block_ref src p)).1) (c + 8)
      (f s (block_ref src p)).2

/-- The state carried into block `i` (counted from 0) of a run that starts in state `s`. -/
def state_at {S : Type} (f : S → Nat × Nat → (Nat × Nat) × S) (src : Buffer) (p : Nat) (s : S) :
    Nat → S
  | 0 => s
  | i + 1 => (f (state_at f src p s i) (block_ref src (p + 8 * i))).2

/-- Body of the ECB encryption loop. -/
def ecb_encrypt_body (box : BFBox) (_s : Unit) (w : Nat × Nat) : (Nat × Nat) × Unit :=
  (bf_encrypt w.1 w.2 box, ())

/-- Body of the ECB decryption loop. -/
def ecb_decrypt_body (box : BFBox) (_s : Unit) (w : Nat × Nat) : (Nat × Nat) × Unit :=
  (bf_decrypt w.1 w.2 box, ())

/-- Body of the CBC encryption loop; the state is the feedback register. -/
def cbc_encrypt_body (box : BFBox) (s : Nat × Nat) (w : Nat × Nat) : (Nat × Nat) × (Nat × Nat) :=
  (bf_encrypt (w.1 ^^^ s.1) (w.2 ^^^ s.2) box, bf_encrypt (w.1 ^^^ s.1) (w.2 ^^^ s.2) box)

/-- Body of the CBC decryption loop; the state is the feedback register. -/
def cbc_decrypt_body (box : BFBox) (s : Nat × Nat) (w : Nat × Nat) : (Nat × Nat) × (Nat × Nat) :=
  (((bf_decrypt w.1 w.2 box).1 ^^^ s.1, (bf_decrypt w.1 w.2 box).2 ^^^ s.2), bf_decrypt w.1 w.2 box)

/-! ## Notions used to state the properties -/

/-- The inverse round function undoes the round function on every pair of 32-bit halves. -/
def RoundInverse (box : BFBox) : Prop :=
  ∀ L R, L < 4294967296 → R < 4294967296 →
    bf_decrypt (bf_encrypt L R box).1 (bf_encrypt L R box).2 box = (L, R)

/-- The round function is injective on 64-bit blocks, given as pairs of 32-bit halves. -/
def RoundInjective (box : BFBox) : Prop :=
  ∀ L R L' R', L < 4294967296 → R < 4294967296 → L' < 4294967296 → R' < 4294967296 →
    bf_encrypt L R box = bf_encrypt L' R' box → L = L' ∧ R = R'

/-- The ciphertext block that precedes block `i` (counted from 0) of a CBC chain written at
`cstart`: the IV for the first block, the block written just before otherwise. -/
def cbc_previous (IV out : Buffer) (cstart i : Nat) : Nat × Nat :=
  if i = 0 then block_ref IV 0 else block_ref out (cstart + 8 * (i - 1))

/-- A small key schedule on which the statements are instantiated: its round function adds one
to the high half modulo `2 ^ 32`, its inverse subtracts one. -/
def sample_box : BFBox :=
  ⟨fun L R => ((L + 1) % 4294967296, R), fun L R => ((L + 4294967295) % 4294967296, R)⟩

/-- The buffer that holds the byte 0 at every offset. -/
def zero_buffer : Buffer := fun _ => 0

/-- The buffer that holds the byte 1 at offset 4 and the byte 0 elsewhere. -/
def probe_buffer : Buffer := fun i => if i = 4 then 1 else 0

/-- The error kinds a cipher operation can report (section 7 of the specification). -/
inductive CipherError where
  | InvalidKeyError
  | BlockAlignmentError

/-- How a call of `BlowfishCipher::encrypt` ends for its caller. The body has no `throw` and no
error result: its only exit is the `return` after the loop. -/
def BlowfishCipher.encrypt_outcome (self : BlowfishCipher) (plaintext : Buffer)
    (pstart pend : Nat) (ciphertext : Buffer) (cstart cend : Nat) : Except CipherError Written :=
  Except.ok (self.encrypt plaintext pstart pend ciphertext cstart cend)

/-- How a call of `BlowfishCipher::decrypt` ends for its caller. The body has no `throw` and no
error result: its only exit is the `return` after the loop. -/
def BlowfishCipher.decrypt_outcome (self : BlowfishCipher) (ciphertext : Buffer)
    (cstart cend : Nat) (plaintext : Buffer) (pstart pend : Nat) : Except CipherError Written :=
  Except.ok (self.decrypt ciphertext cstart cend plaintext pstart pend)

/-- How a call of `BlowfishCipherCBC::encrypt` ends for its caller. The body has no `throw` and
no error result: its only exit is the `return` after the loop. -/
def BlowfishCipherCBC.encrypt_outcome (self : BlowfishCipherCBC) (plaintext : Buffer)
    (pstart pend : Nat) (ciphertext : Buffer) (cstart cend : Nat) :
    Except CipherError WrittenCBC :=
  Except.ok (self.encrypt plaintext pstart pend ciphertext cstart cend)

/-- How a call of `BlowfishCipherCBC::decrypt` ends for its caller. The body has no `throw` and
no error result: its only exit is the `return` after the loop. -/
def BlowfishCipherCBC.decrypt_outcome (self : BlowfishCipherCBC) (ciphertext : Buffer)
    (cstart cend : Nat) (plaintext : Buffer) (pstart pend : Nat) :
    Except CipherError WrittenCBC :=
  Except.ok (self.decrypt ciphertext cstart cend plaintext pstart pend)

/-- Byte `k` (counted from 0, most significant first) of the 8-byte big-endian form of a block
given by its two 32-bit halves. -/
def block_byte (w : Nat × Nat) (k : Nat) : Nat :=
  if k < 4 then w.1 / 2 ^ (8 * (3 - k)) % 256 else w.2 / 2 ^ (8 * (7 - k)) % 256

/-- Byte `k` (counted from 0, most significant first) of the 8-byte big-endian encoding of a
64-bit value. -/
def bigendian_uint64_byte (x : Nat) (k : Nat) : Nat := x / 2 ^ (8 * (7 - k)) % 256

/-- The buffer that holds the 8-byte big-endian encoding of `x` at offsets `0 .. 7`. -/
def uint64_buffer (x : Nat) : Buffer := fun i => if i < 8 then bigendian_uint64_byte x i else 0

/-! ## Cipher construction -/

/-- Modelled from the spec: `blowfish_initiate_boxes(key, ksize, &box)` of
crypto/blowfish/core.hpp, whose body is not available. The key schedule is derived from a key
of 1 to 56 bytes, and a cipher constructed with an out-of-range key length is reported as
`InvalidKeyError`; `derive` stands for the derivation of the subkeys and tables itself. -/
def blowfish_initiate_boxes (derive : Buffer → Nat → BFBox) (key : Buffer) (ksize : Nat) :
    Except CipherError BFBox :=
  if 1 ≤ ksize ∧ ksize ≤ 56 then Except.ok (derive key ksize)
  else Except.error CipherError.InvalidKeyError

/-- The constructor `BlowfishCipher(const uint8* key, size_t ksize)`: it hands the key to
`blowfish_initiate_boxes` unchanged. -/
def BlowfishCipher.create (derive : Buffer → Nat → BFBox) (key : Buffer) (ksize : Nat) :
    Except CipherError BlowfishCipher :=
  match blowfish_initiate_boxes derive key ksize with
  | Except.ok box => Except.ok ⟨box⟩
  | Except.error e => Except.error e

/-- The constructor `BlowfishCipher(bytes& key, size_t start, size_t end)`: it delegates with the
pointer `key.c_str() + start` and the size `((end <= start) ? key.size() : end) - start`,
computed in `size_t` (modulo `2 ^ 64`). -/
def BlowfishCipher.create_from_bytes (derive : Buffer → Nat → BFBox) (key : List Nat)
    (start endpos : Nat) : Except CipherError BlowfishCipher :=
  BlowfishCipher.create derive (fun i => key.getD (start + i) 0)
    (((if endpos ≤ start then key.length else endpos) + 18446744073709551616 - start) %
      18446744073709551616)

/-! ## Natural: the data model (datum/natural.hpp)

The header declares the class; the bodies of its member functions are not available. The
operators that the header defines inline are translated from it; the member functions they call
are modelled from the specification. -/

/-- The error kinds of the bignum engine and of the codec (section 7 of the specification). -/
inductive DatumError where
  | FormatError
  | UnderflowError
  | DivisionByZeroError
  | EncodingError
deriving DecidableEq

/-- Modelled from the spec: the value held by a `Natural` (fields `natural`, `capacity`,
`payload`): the `payload` significant bytes of the buffer, most significant byte first. The
unused part of the capacity carries no information and is left out. -/
structure Natural where
  /-- The payload bytes, big-endian. -/
  natural : List Nat
deriving DecidableEq

/-- The value of a byte list read least significant byte first. -/
def le_value : List Nat → Nat
  | [] => 0
  | b :: bs => b + 256 * le_value bs

/-- The magnitude: the number that the payload bytes represent. -/
def Natural.magnitude (n : Natural) : Nat := le_value n.natural.reverse

/-- The invariant of the data model: every entry is a byte, and leading zero bytes are stripped
except that the value zero is one zero byte (the payload is never less than 1). -/
def Natural.Valid (n : Natural) : Prop :=
  (∀ b ∈ n.natural, b < 256) ∧ (n.natural.length = 1 ∨ ∃ b bs, n.natural = b :: bs ∧ b ≠ 0)

/-- Modelled from the spec: `skip_leading_zeros`, the normalisation that every mutator ends with:
strip leading zero bytes, payload never less than 1. -/
def skip_leading_zeros : List Nat → List Nat
  | [] => [0]
  | [b] => [b]
  | 0 :: b :: bs => skip_leading_zeros (b :: bs)
  | (a + 1) :: b :: bs => (a + 1) :: b :: bs

/-- Modelled from the spec: the ripple-carry addition over the bytes, least significant byte
first, with incoming carry `c`; a carry out of the top byte grows the result by one byte. -/
def add_carry : List Nat → List Nat → Nat → List Nat
  | [], [], c => if c = 0 then [] else [c]
  | x :: xs, [], c => (x + c) % 256 :: add_carry xs [] ((x + c) / 256)
  | [], y :: ys, c => (y + c) % 256 :: add_carry [] ys ((y + c) / 256)
  | x :: xs, y :: ys, c => (x + y + c) % 256 :: add_carry xs ys ((x + y + c) / 256)

/-- One byte of the ripple subtraction: the difference byte and the borrow for the next byte. -/
def sub_digit (x y w : Nat) : Nat × Nat :=
  ((x + 256 - y - w) % 256, if x < y + w then 1 else 0)

/-- Modelled from the spec: the ripple subtraction over the bytes, least significant byte first,
with incoming borrow `w`; missing bytes count as zero. Returns the difference bytes and the
borrow that leaves the most significant byte. -/
def sub_borrow : List Nat → List Nat → Nat → List Nat × Nat
  | [], [], w => ([], w)
  | x :: xs, [], w =>
    ((sub_digit x 0 w).1 :: (sub_borrow xs [] (sub_digit x 0 w).2).1,
      (sub_borrow xs [] (sub_digit x 0 w).2).2)
  | [], y :: ys, w =>
    ((sub_digit 0 y w).1 :: (sub_borrow [] ys (sub_digit 0 y w).2).1,
      (sub_borrow [] ys (sub_digit 0 y w).2).2)
  | x :: xs, y :: ys, w =>
    ((sub_digit x y w).1 :: (sub_borrow xs ys (sub_digit x y w).2).1,
      (sub_borrow xs ys (sub_digit x y w).2).2)

/-- Three-way comparison of two byte lists of the same length, most significant byte first. -/
def compare_bytes : List Nat → List Nat → Int
  | x :: xs, y :: ys => if x < y then -1 else if y < x then 1 else compare_bytes xs ys
  | _, _ => 0

/-- Modelled from the spec: `Natural::compare(const Natural& rhs)`, the three-way magnitude
comparison, most significant byte first; equality requires matching payload and identical
bytes. -/
def Natural.compare (self rhs : Natural) : Int :=
  if self.natural.length < rhs.natural.length then -1
  else if rhs.natural.length < self.natural.length then 1
  else compare_bytes self.natural rhs.natural

/-- Modelled from the spec: `Natural::operator+=(const Natural& rhs)`: ripple-carry over the
byte buffer, growing on overflow, then normalisation. -/
def Natural.operator_add_assign (self rhs : Natural) : Natural :=
  ⟨skip_leading_zeros (add_carry self.natural.reverse rhs.natural.reverse 0).reverse⟩

/-- Modelled from the spec: `Natural::operator-=(const Natural& rhs)`: ripple subtraction over
the byte buffer, then normalisation; subtracting a larger value from a smaller one, which shows
as a borrow out of the most significant byte, fails with `UnderflowError`. -/
def Natural.operator_sub_assign (self rhs : Natural) : Except DatumError Natural :=
  if (sub_borrow self.natural.reverse rhs.natural.reverse 0).2 = 0 then
    Except.ok ⟨skip_leading_zeros (sub_borrow self.natural.reverse rhs.natural.reverse 0).1.reverse⟩
  else Except.error DatumError.UnderflowError

/-- The operator `operator+(Natural lhs, const Natural& rhs) { return lhs += rhs; }`. -/
def Natural.operator_add (lhs rhs : Natural) : Natural := lhs.operator_add_assign rhs

/-- The operator `operator-(Natural lhs, const Natural& rhs) { return lhs -= rhs; }`. -/
def Natural.operator_sub (lhs rhs : Natural) : Except DatumError Natural :=
  lhs.operator_sub_assign rhs

/-- Modelled from the spec: `Natural::is_zero()`: the value zero is exactly one zero byte. -/
def Natural.is_zero (self : Natural) : Bool := self.natural == [0]

/-- Modelled from the spec: the digit-by-digit long division of a byte list (given least
significant byte first, processed from the most significant byte down) by the magnitude `d`:
each step brings down one byte and takes the quotient digit of the running remainder. Returns
the quotient bytes, least significant first, and the final remainder. The left shift that
normalises the divisor changes no digit of the result and is left out. -/
def long_division (d : Nat) : List Nat → List Nat × Nat
  | [] => ([], 0)
  | x :: xs =>
    (((long_division d xs).2 * 256 + x) / d :: (long_division d xs).1,
      ((long_division d xs).2 * 256 + x) % d)

/-- The `k` low bytes of `m`, most significant byte first. -/
def be_bytes : Nat → Nat → List Nat
  | 0, _ => []
  | k + 1, m => (m / 256 ^ k % 256) :: be_bytes k m

/-- The quotient that `quotient_remainder` computes, as a normalised Natural. -/
def Natural.quotient (self divider : Natural) : Natural :=
  ⟨skip_leading_zeros (long_division divider.magnitude self.natural.reverse).1.reverse⟩

/-- The remainder that `quotient_remainder` computes, as a normalised Natural. -/
def Natural.remainder (self divider : Natural) : Natural :=
  ⟨skip_leading_zeros (be_bytes divider.natural.length
    (long_division divider.magnitude self.natural.reverse).2)⟩

/-- The Natural objects in memory, by address: `remainder` of `quotient_remainder` is a pointer
and may point at the receiver. -/
abbrev Heap := Nat → Natural

/-- Modelled from the spec: `Natural::quotient_remainder(const Natural& divider,
Natural* remainder = nullptr)`. Dividing by zero fails with `DivisionByZeroError`; otherwise the
quotient replaces the receiver and the remainder is written to the optional output parameter,
in this order. `self` is the address of the receiver, `none` is `nullptr`. -/
def Natural.quotient_remainder (heap : Heap) (self : Nat) (divider : Natural)
    (remainder : Option Nat) : Except DatumError Heap :=
  if divider.is_zero then Except.error DatumError.DivisionByZeroError
  else
    match remainder with
    | none => Except.ok (Function.update heap self ((heap self).quotient divider))
    | some out =>
      Except.ok (Function.update (Function.update heap self ((heap self).quotient divider))
        out ((heap self).remainder divider))

/-- The operator `operator/=(rhs) { return this->quotient_remainder(rhs, nullptr); }`. -/
def Natural.operator_div_assign (heap : Heap) (self : Nat) (rhs : Natural) :
    Except DatumError Heap :=
  Natural.quotient_remainder heap self rhs none

/-- The operator `operator%=(rhs) { this->quotient_remainder(rhs, this); return (*this); }`. -/
def Natural.operator_mod_assign (heap : Heap) (self : Nat) (rhs : Natural) :
    Except DatumError Heap :=
  Natural.quotient_remainder heap self rhs (some self)

/-- The operator `operator/(Natural lhs, const Natural& rhs) { return lhs /= rhs; }`; the
by-value `lhs` is an object of its own, here at address 0. -/
def Natural.operator_div (lhs rhs : Natural) : Except DatumError Natural :=
  match Natural.operator_div_assign (fun _ => lhs) 0 rhs with
  | Except.ok heap => Except.ok (heap 0)
  | Except.error e => Except.error e

/-- The operator `operator%(Natural lhs, const Natural& rhs) { return lhs %= rhs; }`; the
by-value `lhs` is an object of its own, here at address 0. -/
def Natural.operator_mod (lhs rhs : Natural) : Except DatumError Natural :=
  match Natural.operator_mod_assign (fun _ => lhs) 0 rhs with
  | Except.ok heap => Except.ok (heap 0)
  | Except.error e => Except.error e

/-! ### The ordering operators (natural.hpp, lines 57 to 75)

Each operator answers from one call of `compare`. `compare` is a parameter: it stands for
`Natural::compare(const Natural&)` when both operands are Naturals and for
`Natural::compare(unsigned long long)` when one operand is a machine integer. The `_left`
forms are the overloads with the machine integer on the left, which call `rhs.compare(lhs)`. -/

/-- The operator `operator<(lhs, rhs) { return (lhs.compare(rhs) < 0); }`. -/
def operator_lt {α β : Type} (compare : α → β → Int) (lhs : α) (rhs : β) : Bool :=
  decide (compare lhs rhs < 0)

/-- The operator `operator==(lhs, rhs) { return (lhs.compare(rhs) == 0); }`. -/
def operator_eq {α β : Type} (compare : α → β → Int) (lhs : α) (rhs : β) : Bool :=
  decide (compare lhs rhs = 0)

/-- The operator `operator>(lhs, rhs) { return (lhs.compare(rhs) > 0); }`. -/
def operator_gt {α β : Type} (compare : α → β → Int) (lhs : α) (rhs : β) : Bool :=
  decide (compare lhs rhs > 0)

/-- The operator `operator<=(lhs, rhs) { return (lhs.compare(rhs) <= 0); }`. -/
def operator_le {α β : Type} (compare : α → β → Int) (lhs : α) (rhs : β) : Bool :=
  decide (compare lhs rhs ≤ 0)

/-- The operator `operator>=(lhs, rhs) { return (lhs.compare(rhs) >= 0); }`. -/
def operator_ge {α β : Type} (compare : α → β → Int) (lhs : α) (rhs : β) : Bool :=
  decide (compare lhs rhs ≥ 0)

/-- The operator `operator!=(lhs, rhs) { return (lhs.compare(rhs) != 0); }`. -/
def operator_ne {α β : Type} (compare : α → β → Int) (lhs : α) (rhs : β) : Bool :=
  decide (compare lhs rhs ≠ 0)

/-- The operator `operator<(unsigned long long lhs, rhs) { return (rhs.compare(lhs) > 0); }`. -/
def operator_lt_left {α β : Type} (compare : α → β → Int) (lhs : β) (rhs : α) : Bool :=
  decide (compare rhs lhs > 0)

/-- The operator `operator==(unsigned long long lhs, rhs) { return (rhs.compare(lhs) == 0); }`. -/
def operator_eq_left {α β : Type} (compare : α → β → Int) (lhs : β) (rhs : α) : Bool :=
  decide (compare rhs lhs = 0)

/-- The operator `operator>(unsigned long long lhs, rhs) { return (rhs.compare(lhs) < 0); }`. -/
def operator_gt_left {α β : Type} (compare : α → β → Int) (lhs : β) (rhs : α) : Bool :=
  decide (compare rhs lhs < 0)

/-- The operator `operator<=(unsigned long long lhs, rhs) { return (rhs.compare(lhs) >= 0); }`. -/
def operator_le_left {α β : Type} (compare : α → β → Int) (lhs : β) (rhs : α) : Bool :=
  decide (compare rhs lhs ≥ 0)

/-- The operator `operator>=(unsigned long long lhs, rhs) { return (rhs.compare(lhs) <= 0); }`. -/
def operator_ge_left {α β : Type} (compare : α → β → Int) (lhs : β) (rhs : α) : Bool :=
  decide (compare rhs lhs ≤ 0)

/-- The operator `operator!=(unsigned long long lhs, rhs) { return (rhs.compare(lhs) != 0); }`. -/
def operator_ne_left {α β : Type} (compare : α → β → Int) (lhs : β) (rhs : α) : Bool :=
  decide (compare rhs lhs ≠ 0)

/-! ### Construction from a byte range (natural.hpp, lines 32 to 44) -/

/-- The private member functions `from_base16`, `from_base10`, `from_base8` and `from_memory`
(declared in the header, bodies not available), as functions of the byte array and the range;
each yields the constructed Natural or fails. -/
structure NaturalReaders where
  /-- The reader of a base-16 numeral. -/
  from_base16 : List Nat → Nat → Nat → Except DatumError Natural
  /-- The reader of a base-10 numeral. -/
  from_base10 : List Nat → Nat → Nat → Except DatumError Natural
  /-- The reader of a base-8 numeral. -/
  from_base8 : List Nat → Nat → Nat → Except DatumError Natural
  /-- The reader of a raw big-endian magnitude. -/
  from_memory : List Nat → Nat → Nat → Except DatumError Natural

/-- The constructor `Natural(uint8 base, const BYTE ns[], size_t nstart, size_t nend)`: the
`switch (base)` with the cases 16, 10, 8 and `default`. -/
def Natural.create_with_base (readers : NaturalReaders) (base : Nat) (ns : List Nat)
    (nstart nend : Nat) : Except DatumError Natural :=
  match base with
  | 16 => readers.from_base16 ns nstart nend
  | 10 => readers.from_base10 ns nstart nend
  | 8 => readers.from_base8 ns nstart nend
  | _ => readers.from_memory ns nstart nend

/-- The constructor `Natural(const BYTE ns[], size_t nstart, size_t nend)`, which delegates to
`Natural((uint8)0U, ns, nstart, nend)`. -/
def Natural.create (readers : NaturalReaders) (ns : List Nat) (nstart nend : Nat) :
    Except DatumError Natural :=
  Natural.create_with_base readers 0 ns nstart nend

/-- Modelled from the spec: `Natural::from_memory(const uint8 nbytes[], size_t nstart,
size_t nend)`: the byte range taken as the raw big-endian magnitude, normalised. -/
def Natural.from_memory (nbytes : List Nat) (nstart nend : Nat) : Natural :=
  ⟨skip_leading_zeros ((nbytes.drop nstart).take (nend - nstart))⟩

/-- Modelled from the spec: `Natural::to_bytes()`: the minimal big-endian magnitude. -/
def Natural.to_bytes (self : Natural) : List Nat := self.natural

/-! ## The wire codec (asn/base.hpp)

The header declares the functions; their bodies are not available. They are modelled from
section 4.2 of the specification. An octet sequence is a list of bytes; a cursor (`size_t*
offset`) is passed in and the advanced cursor is returned with the result. -/

/-- The type `octets` (`std::basic_string<unsigned char>`). -/
abbrev octets := List Nat

/-- Modelled from the spec: `asn_length_to_octets(size_t length)`. Lengths below 128 encode as
one byte equal to the length; lengths from 128 encode as one leading byte `0x80 | n` followed by
the `n` big-endian bytes of the length, minimal length. -/
def asn_length_to_octets (length : Nat) : octets :=
  if length < 128 then [length]
  else
    (0x80 ||| (skip_leading_zeros (be_bytes 8 length)).length) ::
      skip_leading_zeros (be_bytes 8 length)

/-- Modelled from the spec: `asn_octets_to_length(octets& length, size_t* offset)`. It reads the
leading byte at the cursor; if its top bit is clear, the length is the low 7 bits of the byte;
otherwise it consumes `n` = low 7 bits further bytes as a big-endian integer. It fails with
`EncodingError` if the declared length bytes exceed the rest of the buffer or if `n` is 0 or
above 8. Returns the length and the advanced cursor. -/
def asn_octets_to_length (blength : octets) (offset : Nat) : Except DatumError (Nat × Nat) :=
  match blength.get? offset with
  | none => Except.error DatumError.EncodingError
  | some first =>
    if first &&& 0x80 = 0 then Except.ok (first &&& 0x7F, offset + 1)
    else if first &&& 0x7F = 0 ∨ 8 < first &&& 0x7F then Except.error DatumError.EncodingError
    else if blength.length < offset + 1 + (first &&& 0x7F) then
      Except.error DatumError.EncodingError
    else
      Except.ok (Natural.magnitude ⟨(blength.drop (offset + 1)).take (first &&& 0x7F)⟩,
        offset + 1 + (first &&& 0x7F))

/-- Modelled from the spec: `asn_octets_box(uint8 tag, octets& content, size_t size)`: the
content prefixed with a one-byte tag and the encoded length of the content. -/
def asn_octets_box (tag : Nat) (content : octets) (size : Nat) : octets :=
  tag :: (asn_length_to_octets size ++ content.take size)

/-- Modelled from the spec: `asn_octets_unbox(octets& basn, size_t* offset)`: it steps over the
tag, decodes the length, checks that the declared length does not exceed the rest of the
buffer, and returns the content length with the cursor advanced past the header. -/
def asn_octets_unbox (basn : octets) (offset : Nat) : Except DatumError (Nat × Nat) :=
  match asn_octets_to_length basn (offset + 1) with
  | Except.error e => Except.error e
  | Except.ok (size, content) =>
    if basn.length < content + size then Except.error DatumError.EncodingError
    else Except.ok (size, content)

/-- The minimal two's-complement form: a leading `0x00` before a byte with the top bit clear, or
a leading `0xFF` before a byte with the top bit set, carries no information and is dropped. -/
def fixnum_strip : List Nat → List Nat
  | 0 :: b :: bs => if b < 128 then fixnum_strip (b :: bs) else 0 :: b :: bs
  | 255 :: b :: bs => if 128 ≤ b then fixnum_strip (b :: bs) else 255 :: b :: bs
  | bs => bs

/-- The integer that two's-complement big-endian content bytes represent: the unsigned value,
sign-extended from the top bit of the first content byte. -/
def fixnum_value (content : List Nat) : Int :=
  if 128 ≤ content.headD 0 then (Natural.magnitude ⟨content⟩ : Int) - 256 ^ content.length
  else Natural.magnitude ⟨content⟩

/-- Modelled from the spec: `asn_fixnum_to_octets(long long integer)`: the INTEGER (tag 2) whose
content is the two's-complement, minimal-length, big-endian form of the integer; the encoding
of 0 is a single zero byte. -/
def asn_fixnum_to_octets (integer : Int) : octets :=
  asn_octets_box 0x02 (fixnum_strip (be_bytes 8 (integer % 18446744073709551616).toNat))
    (fixnum_strip (be_bytes 8 (integer % 18446744073709551616).toNat)).length

/-- Modelled from the spec: `asn_octets_to_fixnum(octets& bint, size_t* offset)`: it unboxes
without checking the tag, reads the content and sign-extends from the top bit of the first
content byte. Returns the integer and the cursor past the content. -/
def asn_octets_to_fixnum (bint : octets) (offset : Nat) : Except DatumError (Int × Nat) :=
  match asn_octets_unbox bint offset with
  | Except.error e => Except.error e
  | Except.ok (size, content) =>
    Except.ok (fixnum_value ((bint.drop content).take size), content + size)

/-- The content bytes of an encoded Natural: the minimal big-endian magnitude, with one extra
leading zero byte whenever the top bit of the magnitude is set. -/
def asn_natural_content (integer : Natural) : octets :=
  if 128 ≤ integer.to_bytes.headD 0 then 0 :: integer.to_bytes else integer.to_bytes

/-- Modelled from the spec: `asn_natural_to_octets(Natural& integer)`: the INTEGER (tag 2) whose
content is `asn_natural_content`. -/
def asn_natural_to_octets (integer : Natural) : octets :=
  asn_octets_box 0x02 (asn_natural_content integer) (asn_natural_content integer).length

/-- Modelled from the spec: `asn_octets_to_natural(octets& bint, size_t* offset)`: it unboxes
without checking the tag, strips at most one leading zero byte and constructs the Natural from
the rest of the content. Returns the Natural and the cursor past the content. -/
def asn_octets_to_natural (bint : octets) (offset : Nat) : Except DatumError (Natural × Nat) :=
  match asn_octets_unbox bint offset with
  | Except.error e => Except.error e
  | Except.ok (size, content) =>
    if bint.getD content 1 = 0 then
      Except.ok (Natural.from_memory bint (content + 1) (content + size), content + size)
    else Except.ok (Natural.from_memory bint content (content + size), content + size)

/-! ## Text streams (datum/file.cpp, datum/char.hpp)

The readers of datum/file.cpp work on a `std::filebuf` through `sbumpc`, `sgetc`, `snextc` and
`sungetc`. The stream is modelled by the bytes of the file and the read position; a character
is read into a `char`, which is signed, and compared with `EOF`. -/

/-- The `std::filebuf` of the readers: the bytes of the file, each below 256, and the offset of
the next byte to read. -/
structure filebuf where
  data : List Nat
  pos : Nat
deriving DecidableEq

/-- The value `EOF` of the C library. -/
def EOF : Int := -1

/-- The constant `space = 0x20` of datum/char.hpp. -/
def space : Int := 0x20

/-- The constant `zero = 0x30` of datum/char.hpp. -/
def zero : Int := 0x30

/-- The constant `nine = 0x39` of datum/char.hpp. -/
def nine : Int := 0x39

/-- The constant `minus = 0x2D` of datum/char.hpp. -/
def minus : Int := 0x2D

/-- The conversion of the `int` that a stream function returns to the signed 8-bit `char` that
the readers store it in (`ch = src.sbumpc()`). -/
def to_char (c : Int) : Int := (c + 128) % 256 - 128

/-- The call `src.sgetc()`: the current byte, not consumed, or `EOF` at the end. -/
def filebuf.sgetc (src : filebuf) : Int :=
  match src.data.get? src.pos with
  | some c => c
  | none => EOF

/-- The call `src.sbumpc()`: the current byte, which is consumed, or `EOF` at the end. -/
def filebuf.sbumpc (src : filebuf) : Int × filebuf :=
  match src.data.get? src.pos with
  | some c => (c, ⟨src.data, src.pos + 1⟩)
  | none => (EOF, src)

/-- The call `src.sungetc()`: steps back by one byte. -/
def filebuf.sungetc (src : filebuf) : filebuf := ⟨src.data, src.pos - 1⟩

/-- The call `src.snextc()`: consumes the current byte and returns the one after it, not
consumed, or `EOF`. -/
def filebuf.snextc (src : filebuf) : Int × filebuf :=
  if src.sbumpc.1 = EOF then (EOF, src.sbumpc.2) else (src.sbumpc.2.sgetc, src.sbumpc.2)

/-- The function `char_end_of_word(char ch)` of datum/file.cpp: `ch == space`. -/
def char_end_of_word (ch : Int) : Bool := ch == space

/-- The function `discard_space(std::filebuf& src)` of datum/file.cpp: reads characters until
`EOF`; the first one that is not an end of word is put back and ends the loop. -/
def discard_space (src : filebuf) : filebuf :=
  if _ : to_char src.sbumpc.1 ≠ EOF then
    if !char_end_of_word (to_char src.sbumpc.1) then src.sbumpc.2.sungetc
    else discard_space src.sbumpc.2
  else src.sbumpc.2
termination_by src.data.length - src.pos
decreasing_by
  rename_i h
  simp only [filebuf.sbumpc] at h ⊢
  cases hg : src.data.get? src.pos with
  | none => rw [hg] at h; exact absurd rfl h
  | some c =>
    have hlt := (List.get?_eq_some.mp hg).1
    simp only []
    omega

/-- The loop of `read_natural`, `while ((ch = src.sbumpc()) != EOF)`, from the stream `src` and
the value `n` read so far: a character outside `zero .. nine` is put back and ends the loop, a
digit makes `n = n * 10 + (ch - zero)` in `unsigned long long`, so modulo `2 ^ 64`. -/
def read_natural_loop (src : filebuf) (n : Nat) : Nat × filebuf :=
  if h : to_char src.sbumpc.1 ≠ EOF then
    if to_char src.sbumpc.1 < zero ∨ to_char src.sbumpc.1 > nine then (n, src.sbumpc.2.sungetc)
    else
      read_natural_loop src.sbumpc.2
        ((n * 10 + (to_char src.sbumpc.1 - zero).toNat) % 18446744073709551616)
  else (n, src.sbumpc.2)
termination_by src.data.length - src.pos
decreasing_by
  simp only [filebuf.sbumpc] at h ⊢
  cases hg : src.data.get? src.pos with
  | none => rw [hg] at h; exact absurd rfl h
  | some c =>
    have hlt := (List.get?_eq_some.mp hg).1
    simp only []
    omega

/-- The function `read_natural(std::filebuf& src)` of datum/file.cpp: the value read and the
stream it leaves. -/
def read_natural (src : filebuf) : Nat × filebuf :=
  read_natural_loop (discard_space src) 0

/-- A value as it is held in a `long long`: reduced into `-2 ^ 63 .. 2 ^ 63 - 1`. -/
def int64 (x : Int) : Int := (x + 9223372036854775808) % 18446744073709551616 - 9223372036854775808

/-- The loop of `read_integer`, the one of `read_natural` with `n` a `long long`. -/
def read_integer_loop (src : filebuf) (n : Int) : Int × filebuf :=
  if h : to_char src.sbumpc.1 ≠ EOF then
    if to_char src.sbumpc.1 < zero ∨ to_char src.sbumpc.1 > nine then (n, src.sbumpc.2.sungetc)
    else read_integer_loop src.sbumpc.2 (int64 (n * 10 + (to_char src.sbumpc.1 - zero)))
  else (n, src.sbumpc.2)
termination_by src.data.length - src.pos
decreasing_by
  simp only [filebuf.sbumpc] at h ⊢
  cases hg : src.data.get? src.pos with
  | none => rw [hg] at h; exact absurd rfl h
  | some c =>
    have hlt := (List.get?_eq_some.mp hg).1
    simp only []
    omega

/-- The function `read_integer(std::filebuf& src)` of datum/file.cpp: after `discard_space`,
`if (src.sgetc() == minus) { sign = -1; src.snextc(); }`, then the digit loop, and the result is
`n * sign`. -/
def read_integer (src : filebuf) : Int × filebuf :=
  if (discard_space src).sgetc = minus then
    (int64 ((read_integer_loop (discard_space src).snextc.2 0).1 * -1),
      (read_integer_loop (discard_space src).snextc.2 0).2)
  else
    (int64 ((read_integer_loop (discard_space src) 0).1 * 1),
      (read_integer_loop (discard_space src) 0).2)

/-- The decimal value of a sequence of ASCII digits, most significant first. -/
def decimal_value (ds : List Nat) : Nat := ds.foldl (fun acc d => acc * 10 + (d - 48)) 0

/-! ## Bytes and words -/

theorem bigendian_uint32_ref_lt (b : Buffer) (i : Nat) : bigendian_uint32_ref b i < 4294967296 := by
  unfold bigendian_uint32_ref
  omega

theorem bigendian_uint32_set_of_outside (b : Buffer) (i x k : Nat) (h : k < i ∨ i + 4 ≤ k) :
    bigendian_uint32_set b i x k = b k := by
  unfold bigendian_uint32_set
  have h0 : k ≠ i := by omega
  have h1 : k ≠ i + 1 := by omega
  have h2 : k ≠ i + 2 := by omega
  have h3 : k ≠ i + 3 := by omega
  simp [h0, h1, h2, h3]

theorem bigendian_uint32_ref_congr (b b' : Buffer) (i j : Nat)
    (h : ∀ k, k < 4 → b (i + k) = b' (j + k)) :
    bigendian_uint32_ref b i = bigendian_uint32_ref b' j := by
  unfold bigendian_uint32_ref
  have h0 := h 0 (by omega)
  have h1 := h 1 (by omega)
  have h2 := h 2 (by omega)
  have h3 := h 3 (by omega)
  simp only [Nat.add_zero] at h0
  rw [h0, h1, h2, h3]

theorem bigendian_uint32_ref_set_same (b : Buffer) (i x : Nat) :
    bigendian_uint32_ref (bigendian_uint32_set b i x) i = x % 4294967296 := by
  unfold bigendian_uint32_ref bigendian_uint32_set
  simp
  omega

theorem bigendian_uint32_ref_set_of_outside (b : Buffer) (i x j : Nat)
    (h : j + 4 ≤ i ∨ i + 4 ≤ j) :
    bigendian_uint32_ref (bigendian_uint32_set b i x) j = bigendian_uint32_ref b j := by
  apply bigendian_uint32_ref_congr
  intro k hk
  apply bigendian_uint32_set_of_outside
  omega

theorem block_set_of_outside (b : Buffer) (off : Nat) (w : Nat × Nat) (k : Nat)
    (h : k < off ∨ off + 8 ≤ k) : block_set b off w k = b k := by
  unfold block_set
  rw [bigendian_uint32_set_of_outside _ _ _ _ (by omega),
    bigendian_uint32_set_of_outside _ _ _ _ (by omega)]

theorem block_ref_congr (b b' : Buffer) (i j : Nat) (h : ∀ k, k < 8 → b (i + k) = b' (j + k)) :
    block_ref b i = block_ref b' j := by
  unfold block_ref
  rw [bigendian_uint32_ref_congr b b' i j (fun k hk => h k (by omega)),
    bigendian_uint32_ref_congr b b' (i + 4) (j + 4) (fun k hk => by
      have := h (4 + k) (by omega)
      simpa [Nat.add_assoc] using this)]

theorem block_ref_set_same (b : Buffer) (off : Nat) (w : Nat × Nat) :
    block_ref (block_set b off w) off = word_wrap w := by
  unfold block_ref block_set word_wrap
  rw [bigendian_uint32_ref_set_same, bigendian_uint32_ref_set_of_outside _ _ _ _ (by omega)]
  simp only [Nat.add_zero]
  rw [bigendian_uint32_ref_set_same]

theorem block_ref_set_of_outside (b : Buffer) (off : Nat) (w : Nat × Nat) (j : Nat)
    (h : j + 8 ≤ off ∨ off + 8 ≤ j) : block_ref (block_set b off w) j = block_ref b j := by
  apply block_ref_congr
  intro k hk
  apply block_set_of_outside
  omega

theorem word_wrap_of_lt (w : Nat × Nat) (h1 : w.1 < 4294967296) (h2 : w.2 < 4294967296) :
    word_wrap w = w := by
  unfold word_wrap
  rw [Nat.mod_eq_of_lt h1, Nat.mod_eq_of_lt h2]

theorem bf_encrypt_lt (L R : Nat) (box : BFBox) :
    (bf_encrypt L R box).1 < 4294967296 ∧ (bf_encrypt L R box).2 < 4294967296 := by
  unfold bf_encrypt
  constructor <;> exact Nat.mod_lt _ (by decide)

theorem bf_decrypt_lt (L R : Nat) (box : BFBox) :
    (bf_decrypt L R box).1 < 4294967296 ∧ (bf_decrypt L R box).2 < 4294967296 := by
  unfold bf_decrypt
  constructor <;> exact Nat.mod_lt _ (by decide)

/-! ## The unrolled loop -/

theorem run_blocks_frame {S : Type} (f : S → Nat × Nat → (Nat × Nat) × S) (n : Nat) :
    ∀ (src : Buffer) (p : Nat) (dst : Buffer) (c : Nat) (s : S) (k : Nat),
      k < c ∨ c + 8 * n ≤ k → (run_blocks f n src p dst c s).1 k = dst k := by
  induction n with
  | zero => intro src p dst c s k _; rfl
  | succ n ih =>
    intro src p dst c s k hk
    simp only [run_blocks]
    rw [ih _ _ _ _ _ k (by omega), block_set_of_outside _ _ _ _ (by omega)]

theorem run_blocks_add {S : Type} (f : S → Nat × Nat → (Nat × Nat) × S) (n m : Nat) :
    ∀ (src : Buffer) (p : Nat) (dst : Buffer) (c : Nat) (s : S),
      run_blocks f (n + m) src p dst c s =
        run_blocks f m src (p + 8 * n) (run_blocks f n src p dst c s).1 (c + 8 * n)
          (run_blocks f n src p dst c s).2 := by
  induction n with
  | zero => intro src p dst c s; simp [run_blocks]
  | succ n ih =>
    intro src p dst c s
    have e : n + 1 + m = (n + m) + 1 := by omega
    rw [e]
    simp only [run_blocks]
    rw [ih]
    have e1 : p + 8 + 8 * n = p + 8 * (n + 1) := by omega
    have e2 : c + 8 + 8 * n = c + 8 * (n + 1) := by omega
    rw [e1, e2]

theorem run_blocks_succ {S : Type} (f : S → Nat × Nat → (Nat × Nat) × S) (n : Nat)
    (src : Buffer) (p : Nat) (dst : Buffer) (c : Nat) (s : S) :
    run_blocks f (n + 1) src p dst c s =
      (block_set (run_blocks f n src p dst c s).1 (c + 8 * n)
          (f (run_blocks f n src p dst c s).2 (block_ref src (p + 8 * n))).1,
        (f (run_blocks f n src p dst c s).2 (block_ref src (p + 8 * n))).2) := by
  rw [run_blocks_add f n 1]
  simp [run_blocks]

theorem run_blocks_state {S : Type} (f : S → Nat × Nat → (Nat × Nat) × S) (n : Nat)
    (src : Buffer) (p : Nat) (dst : Buffer) (c : Nat) (s : S) :
    (run_blocks f n src p dst c s).2 = state_at f src p s n := by
  induction n with
  | zero => rfl
  | succ n ih => rw [run_blocks_succ, state_at, ih]

theorem run_blocks_block {S : Type} (f : S → Nat × Nat → (Nat × Nat) × S) (n : Nat)
    (src : Buffer) (p : Nat) (dst : Buffer) (c : Nat) (s : S) :
    ∀ i, i < n → block_ref (run_blocks f n src p dst c s).1 (c + 8 * i) =
      word_wrap (f (state_at f src p s i) (block_ref src (p + 8 * i))).1 := by
  induction n with
  | zero => intro i hi; omega
  | succ n ih =>
    intro i hi
    rw [run_blocks_succ]
    by_cases h : i = n
    · subst h
      simp only
      rw [block_ref_set_same, run_blocks_state]
    · simp only
      rw [block_ref_set_of_outside _ _ _ _ (by omega)]
      exact ih i (by omega)

/-! ## The loops of the entry points, unrolled -/

theorem ecb_encrypt_loop_eq (box : BFBox) (src : Buffer) (pend n : Nat) :
    ∀ (p : Nat) (dst : Buffer) (c : Nat), pend ≤ p + 8 * n → (n = 0 ∨ p + 8 * n < pend + 8) →
      BlowfishCipher.encrypt_loop ⟨box⟩ src p pend dst c =
        ⟨(run_blocks (ecb_encrypt_body box) n src p dst c ()).1, p + 8 * n, c + 8 * n⟩ := by
  induction n with
  | zero =>
    intro p dst c h1 _
    rw [BlowfishCipher.encrypt_loop, if_neg (by omega)]
    rfl
  | succ n ih =>
    intro p dst c h1 h2
    rw [BlowfishCipher.encrypt_loop, if_pos (by omega)]
    simp only [bf_block_encrypt, bf_block_size]
    rw [ih (p + 8) _ (c + 8) (by omega) (by omega)]
    simp only [run_blocks, ecb_encrypt_body, block_set, block_ref]
    congr 1 <;> omega

theorem cbc_encrypt_loop_eq (box : BFBox) (src : Buffer) (pend n : Nat) :
    ∀ (p : Nat) (dst : Buffer) (c l r : Nat), pend ≤ p + 8 * n → (n = 0 ∨ p + 8 * n < pend + 8) →
      BlowfishCipherCBC.encrypt_loop ⟨box, l, r⟩ src p pend dst c =
        (⟨(run_blocks (cbc_encrypt_body box) n src p dst c (l, r)).1, p + 8 * n, c + 8 * n⟩,
          ⟨box, (run_blocks (cbc_encrypt_body box) n src p dst c (l, r)).2.1,
            (run_blocks (cbc_encrypt_body box) n src p dst c (l, r)).2.2⟩) := by
  induction n with
  | zero =>
    intro p dst c l r h1 _
    rw [BlowfishCipherCBC.encrypt_loop, if_neg (by omega)]
    rfl
  | succ n ih =>
    intro p dst c l r h1 h2
    rw [BlowfishCipherCBC.encrypt_loop, if_pos (by omega)]
    simp only [bf_block_encrypt_cbc, bf_block_size]
    rw [ih (p + 8) _ (c + 8) _ _ (by omega) (by omega)]
    simp only [run_blocks, cbc_encrypt_body, block_set, block_ref]
    congr 2 <;> omega

theorem ecb_decrypt_loop_eq (box : BFBox) (src : Buffer) (cend n : Nat) :
    ∀ (p : Nat) (dst : Buffer), cend ≤ p + 8 * n → (n = 0 ∨ p + 8 * n < cend + 8) →
      BlowfishCipher.decrypt_loop ⟨box⟩ src p cend dst p =
        ⟨(run_blocks (ecb_decrypt_body box) n src p dst p ()).1, p + 8 * n, p + 8 * n⟩ := by
  induction n with
  | zero =>
    intro p dst h1 _
    rw [BlowfishCipher.decrypt_loop, if_neg (by omega)]
    rfl
  | succ n ih =>
    intro p dst h1 h2
    rw [BlowfishCipher.decrypt_loop, if_pos (by omega)]
    simp only [bf_block_decrypt, bf_block_size]
    rw [ih (p + 8) _ (by omega) (by omega)]
    simp only [run_blocks, ecb_decrypt_body, block_set, block_ref]
    congr 1 <;> omega

theorem cbc_decrypt_loop_eq (box : BFBox) (src : Buffer) (cend n : Nat) :
    ∀ (p : Nat) (dst : Buffer) (l r : Nat), cend ≤ p + 8 * n → (n = 0 ∨ p + 8 * n < cend + 8) →
      BlowfishCipherCBC.decrypt_loop ⟨box, l, r⟩ src p cend dst p =
        (⟨(run_blocks (cbc_decrypt_body box) n src p dst p (l, r)).1, p + 8 * n, p + 8 * n⟩,
          ⟨box, (run_blocks (cbc_decrypt_body box) n src p dst p (l, r)).2.1,
            (run_blocks (cbc_decrypt_body box) n src p dst p (l, r)).2.2⟩) := by
  induction n with
  | zero =>
    intro p dst l r h1 _
    rw [BlowfishCipherCBC.decrypt_loop, if_neg (by omega)]
    rfl
  | succ n ih =>
    intro p dst l r h1 h2
    rw [BlowfishCipherCBC.decrypt_loop, if_pos (by omega)]
    simp only [bf_block_decrypt_cbc, bf_block_size]
    rw [ih (p + 8) _ _ _ (by omega) (by omega)]
    simp only [run_blocks, cbc_decrypt_body, block_set, block_ref]
    congr 2 <;> omega

theorem cbc_encrypt_eq (self : BlowfishCipherCBC) (src : Buffer) (p n : Nat)
    (dst : Buffer) (c cend : Nat) :
    self.encrypt src p (p + 8 * n) dst c cend =
      ⟨(run_blocks (cbc_encrypt_body self.box) n src p dst c (self.cbcL, self.cbcR)).1,
        c + 8 * n + 8,
        ⟨self.box, (run_blocks (cbc_encrypt_body self.box) n src p dst c (self.cbcL, self.cbcR)).2.1,
          (run_blocks (cbc_encrypt_body self.box) n src p dst c (self.cbcL, self.cbcR)).2.2⟩⟩ := by
  cases self with
  | mk box l r =>
    simp only [BlowfishCipherCBC.encrypt, bf_block_size]
    rw [cbc_encrypt_loop_eq box src (p + 8 * n) n p dst c l r (by omega) (by omega)]

theorem cbc_decrypt_eq (self : BlowfishCipherCBC) (src : Buffer) (p n : Nat)
    (dst : Buffer) (pend : Nat) :
    self.decrypt src p (p + 8 * n) dst p pend =
      ⟨(run_blocks (cbc_decrypt_body self.box) n src p dst p (self.cbcL, self.cbcR)).1,
        p + 8 * n + 8,
        ⟨self.box, (run_blocks (cbc_decrypt_body self.box) n src p dst p (self.cbcL, self.cbcR)).2.1,
          (run_blocks (cbc_decrypt_body self.box) n src p dst p (self.cbcL, self.cbcR)).2.2⟩⟩ := by
  cases self with
  | mk box l r =>
    simp only [BlowfishCipherCBC.decrypt, bf_block_size]
    rw [cbc_decrypt_loop_eq box src (p + 8 * n) n p dst l r (by omega) (by omega)]

theorem ecb_encrypt_eq (self : BlowfishCipher) (src : Buffer) (p n : Nat)
    (dst : Buffer) (c cend : Nat) :
    self.encrypt src p (p + 8 * n) dst c cend =
      ⟨(run_blocks (ecb_encrypt_body self.box) n src p dst c ()).1, c + 8 * n + 8⟩ := by
  cases self with
  | mk box =>
    simp only [BlowfishCipher.encrypt, bf_block_size]
    rw [ecb_encrypt_loop_eq box src (p + 8 * n) n p dst c (by omega) (by omega)]

theorem ecb_decrypt_eq (self : BlowfishCipher) (src : Buffer) (p n : Nat)
    (dst : Buffer) (pend : Nat) :
    self.decrypt src p (p + 8 * n) dst p pend =
      ⟨(run_blocks (ecb_decrypt_body self.box) n src p dst p ()).1, p + 8 * n + 8⟩ := by
  cases self with
  | mk box =>
    simp only [BlowfishCipher.decrypt, bf_block_size]
    rw [ecb_decrypt_loop_eq box src (p + 8 * n) n p dst (by omega) (by omega)]

/-! ## Exclusive or on 32-bit halves -/

theorem xor_lt_word {a b : Nat} (ha : a < 4294967296) (hb : b < 4294967296) :
    a ^^^ b < 4294967296 := by
  have h : a ^^^ b < 2 ^ 32 := Nat.xor_lt_two_pow (by simpa using ha) (by simpa using hb)
  simpa using h

theorem xor_xor_eq_left_iff (a b c : Nat) : a ^^^ b ^^^ c = a ↔ b = c := by
  constructor
  · intro h
    have h1 : a ^^^ (b ^^^ c) = a ^^^ 0 := by rw [← Nat.xor_assoc, h, Nat.xor_zero]
    have h2 : b ^^^ c = 0 := Nat.xor_right_injective h1
    exact Nat.xor_eq_zero.mp h2
  · intro h
    subst h
    rw [Nat.xor_assoc, Nat.xor_self, Nat.xor_zero]

theorem xor_left_cancel_iff (a b c : Nat) : a ^^^ b = a ^^^ c ↔ b = c :=
  ⟨fun h => Nat.xor_right_injective h, fun h => by rw [h]⟩

theorem sample_box_inverse : RoundInverse sample_box := by
  intro L R hL hR
  simp only [bf_decrypt, bf_encrypt, sample_box, Prod.mk.injEq]
  omega

theorem sample_box_injective : RoundInjective sample_box := by
  intro L R L' R' hL hR hL' hR' h
  simp only [bf_encrypt, sample_box, Prod.mk.injEq] at h
  omega

/-! ## The CBC chain -/

theorem cbc_encrypt_state_succ (box : BFBox) (src : Buffer) (p : Nat) (s : Nat × Nat) (i : Nat) :
    state_at (cbc_encrypt_body box) src p s (i + 1) =
      bf_encrypt ((block_ref src (p + 8 * i)).1 ^^^ (state_at (cbc_encrypt_body box) src p s i).1)
        ((block_ref src (p + 8 * i)).2 ^^^ (state_at (cbc_encrypt_body box) src p s i).2) box := by
  simp only [state_at, cbc_encrypt_body]

theorem cbc_encrypt_block (box : BFBox) (src : Buffer) (p : Nat) (dst : Buffer) (c : Nat)
    (s : Nat × Nat) (n i : Nat) (hi : i < n) :
    block_ref (run_blocks (cbc_encrypt_body box) n src p dst c s).1 (c + 8 * i) =
      state_at (cbc_encrypt_body box) src p s (i + 1) := by
  rw [run_blocks_block _ _ _ _ _ _ _ i hi, cbc_encrypt_state_succ]
  simp only [cbc_encrypt_body]
  exact word_wrap_of_lt _ (bf_encrypt_lt _ _ _).1 (bf_encrypt_lt _ _ _).2

theorem cbc_previous_eq_state (box : BFBox) (IV src : Buffer) (p : Nat) (dst : Buffer) (c : Nat)
    (n i : Nat) (hi : i ≤ n) :
    cbc_previous IV (run_blocks (cbc_encrypt_body box) n src p dst c (block_ref IV 0)).1 c i =
      state_at (cbc_encrypt_body box) src p (block_ref IV 0) i := by
  unfold cbc_previous
  cases i with
  | zero => simp [state_at]
  | succ j =>
    rw [if_neg (by omega)]
    simp only [Nat.add_sub_cancel]
    exact cbc_encrypt_block box src p dst c _ n j (by omega)

theorem cbc_create_register (IV : Buffer) (box : BFBox) :
    ((BlowfishCipherCBC.create IV box).cbcL, (BlowfishCipherCBC.create IV box).cbcR) =
      block_ref IV 0 := by
  simp [BlowfishCipherCBC.create, block_ref]

theorem cbc_decrypt_state_succ (box : BFBox) (src : Buffer) (p : Nat) (s : Nat × Nat) (i : Nat) :
    state_at (cbc_decrypt_body box) src p s (i + 1) =
      bf_decrypt (block_ref src (p + 8 * i)).1 (block_ref src (p + 8 * i)).2 box := by
  simp only [state_at, cbc_decrypt_body]

theorem block_ref_lt (b : Buffer) (off : Nat) :
    (block_ref b off).1 < 4294967296 ∧ (block_ref b off).2 < 4294967296 :=
  ⟨bigendian_uint32_ref_lt _ _, bigendian_uint32_ref_lt _ _⟩

theorem cbc_encrypt_state_lt (box : BFBox) (src : Buffer) (p : Nat) (s : Nat × Nat)
    (hs : s.1 < 4294967296 ∧ s.2 < 4294967296) (i : Nat) :
    (state_at (cbc_encrypt_body box) src p s i).1 < 4294967296 ∧
      (state_at (cbc_encrypt_body box) src p s i).2 < 4294967296 := by
  cases i with
  | zero => exact hs
  | succ j =>
    rw [cbc_encrypt_state_succ]
    exact bf_encrypt_lt _ _ _

theorem block_ref_bytes_eq (b b' : Buffer) (hb : IsBytes b) (hb' : IsBytes b') (i j : Nat)
    (h : block_ref b i = block_ref b' j) : ∀ k, k < 8 → b (i + k) = b' (j + k) := by
  unfold block_ref bigendian_uint32_ref at h
  simp only [Prod.mk.injEq, Nat.add_assoc, Nat.reduceAdd] at h
  obtain ⟨h1, h2⟩ := h
  have a0 := hb i
  have a1 := hb (i + 1)
  have a2 := hb (i + 2)
  have a3 := hb (i + 3)
  have a4 := hb (i + 4)
  have a5 := hb (i + 5)
  have a6 := hb (i + 6)
  have a7 := hb (i + 7)
  have c0 := hb' j
  have c1 := hb' (j + 1)
  have c2 := hb' (j + 2)
  have c3 := hb' (j + 3)
  have c4 := hb' (j + 4)
  have c5 := hb' (j + 5)
  have c6 := hb' (j + 6)
  have c7 := hb' (j + 7)
  intro k hk
  interval_cases k
  · simp only [Nat.add_zero]; omega
  all_goals omega

theorem cbc_encrypt_states_differ (box : BFBox) (hinj : RoundInjective box) (src : Buffer)
    (p : Nat) (s s' : Nat × Nat) (hs : s.1 < 4294967296 ∧ s.2 < 4294967296)
    (hs' : s'.1 < 4294967296 ∧ s'.2 < 4294967296) (hne : s ≠ s') :
    ∀ i, state_at (cbc_encrypt_body box) src p s i ≠ state_at (cbc_encrypt_body box) src p s' i := by
  intro i
  induction i with
  | zero => exact hne
  | succ i ih =>
    rw [cbc_encrypt_state_succ, cbc_encrypt_state_succ]
    intro h
    have b := cbc_encrypt_state_lt box src p s hs i
    have b' := cbc_encrypt_state_lt box src p s' hs' i
    have hp := block_ref_lt src (p + 8 * i)
    have hx := hinj _ _ _ _ (xor_lt_word hp.1 b.1) (xor_lt_word hp.2 b.2)
      (xor_lt_word hp.1 b'.1) (xor_lt_word hp.2 b'.2) h
    exact ih (Prod.ext ((xor_left_cancel_iff _ _ _).mp hx.1) ((xor_left_cancel_iff _ _ _).mp hx.2))

theorem bigendian_uint32_set_apply (b : Buffer) (i x j : Nat) (hj : j < 4) :
    bigendian_uint32_set b i x (i + j) = x / 2 ^ (8 * (3 - j)) % 256 := by
  unfold bigendian_uint32_set
  interval_cases j
  · rw [if_pos (by omega)]
    norm_num
  · rw [if_neg (by omega), if_pos (by omega)]
    norm_num
  · rw [if_neg (by omega), if_neg (by omega), if_pos (by omega)]
    norm_num
  · rw [if_neg (by omega), if_neg (by omega), if_neg (by omega), if_pos (by omega)]
    norm_num

theorem block_set_apply (b : Buffer) (off : Nat) (w : Nat × Nat) (k : Nat) (hk : k < 8) :
    block_set b off w (off + k) = block_byte w k := by
  unfold block_set block_byte
  by_cases h : k < 4
  · rw [if_pos h, bigendian_uint32_set_of_outside _ _ _ _ (by omega)]
    exact bigendian_uint32_set_apply b (off + 0) w.1 k h
  · rw [if_neg h]
    have e : off + k = off + 4 + (k - 4) := by omega
    rw [e, bigendian_uint32_set_apply _ (off + 4) w.2 (k - 4) (by omega)]
    have e' : 3 - (k - 4) = 7 - k := by omega
    rw [e']

theorem run_blocks_byte {S : Type} (f : S → Nat × Nat → (Nat × Nat) × S) (n : Nat)
    (src : Buffer) (p : Nat) (dst : Buffer) (c : Nat) (s : S) :
    ∀ i k, i < n → k < 8 → (run_blocks f n src p dst c s).1 (c + 8 * i + k) =
      block_byte (f (state_at f src p s i) (block_ref src (p + 8 * i))).1 k := by
  induction n with
  | zero => intro i k hi; omega
  | succ n ih =>
    intro i k hi hk
    rw [run_blocks_succ]
    by_cases h : i = n
    · subst h
      simp only
      rw [block_set_apply _ _ _ _ hk, run_blocks_state]
    · simp only
      rw [block_set_of_outside _ _ _ _ (by omega)]
      exact ih i k (by omega) hk

theorem zero_buffer_isBytes : IsBytes zero_buffer := by
  intro i
  show (0 : Nat) < 256
  decide

theorem probe_buffer_isBytes : IsBytes probe_buffer := by
  intro i
  unfold probe_buffer
  split <;> decide

/-! ## The 64-bit entry points -/

theorem two_pow_mul_xor (a b : Nat) (hb : b < 2 ^ 32) : (2 ^ 32 * a) ^^^ b = 2 ^ 32 * a + b := by
  apply Nat.eq_of_testBit_eq
  intro j
  rw [Nat.testBit_xor, Nat.testBit_mul_pow_two_add a hb j, Nat.testBit_mul_pow_two]
  by_cases h : j < 32
  · simp [h, Nat.not_le_of_lt h]
  · have hb' : b.testBit j = false :=
      Nat.testBit_lt_two_pow (lt_of_lt_of_le hb (Nat.pow_le_pow_right (by decide) (not_lt.mp h)))
    simp [h, hb', not_lt.mp h]

theorem long_join (L R : Nat) (hL : L < 4294967296) (hR : R < 4294967296) :
    ((L <<< 32) % 18446744073709551616) ^^^ R = L * 4294967296 + R := by
  rw [Nat.shiftLeft_eq]
  have h1 : L * 2 ^ 32 % 18446744073709551616 = 2 ^ 32 * L := by
    rw [Nat.mod_eq_of_lt (by norm_num; omega), Nat.mul_comm]
  rw [h1, two_pow_mul_xor L R (by norm_num; exact hR)]
  norm_num
  omega

theorem long_split (x : Nat) (hx : x < 18446744073709551616) :
    (x >>> 32) % 4294967296 = x / 4294967296 ∧
      (x &&& 0xFFFFFFFF) % 4294967296 = x % 4294967296 := by
  constructor
  · rw [Nat.shiftRight_eq_div_pow]
    norm_num
    omega
  · have h : x &&& 0xFFFFFFFF = x % 2 ^ 32 := Nat.and_pow_two_sub_one_eq_mod x 32
    rw [h]
    norm_num

theorem bf_long_encrypt_eq (x : Nat) (hx : x < 18446744073709551616) (box : BFBox) :
    bf_long_encrypt x box =
      (bf_encrypt (x / 4294967296) (x % 4294967296) box).1 * 4294967296 +
        (bf_encrypt (x / 4294967296) (x % 4294967296) box).2 := by
  unfold bf_long_encrypt
  simp only [(long_split x hx).1, (long_split x hx).2]
  exact long_join _ _ (bf_encrypt_lt _ _ _).1 (bf_encrypt_lt _ _ _).2

theorem bf_long_decrypt_eq (x : Nat) (hx : x < 18446744073709551616) (box : BFBox) :
    bf_long_decrypt x box =
      (bf_decrypt (x / 4294967296) (x % 4294967296) box).1 * 4294967296 +
        (bf_decrypt (x / 4294967296) (x % 4294967296) box).2 := by
  unfold bf_long_decrypt
  simp only [(long_split x hx).1, (long_split x hx).2]
  exact long_join _ _ (bf_decrypt_lt _ _ _).1 (bf_decrypt_lt _ _ _).2

theorem bigendian_uint64_byte_inj (a b : Nat) (ha : a < 18446744073709551616)
    (hb : b < 18446744073709551616)
    (h : ∀ k, k < 8 → bigendian_uint64_byte a k = bigendian_uint64_byte b k) : a = b := by
  unfold bigendian_uint64_byte at h
  have h0 := h 0 (by decide)
  have h1 := h 1 (by decide)
  have h2 := h 2 (by decide)
  have h3 := h 3 (by decide)
  have h4 := h 4 (by decide)
  have h5 := h 5 (by decide)
  have h6 := h 6 (by decide)
  have h7 := h 7 (by decide)
  norm_num at h0 h1 h2 h3 h4 h5 h6 h7
  omega

theorem uint64_high_half (x : Nat) (hx : x < 18446744073709551616) :
    (x / 72057594037927936 % 256) * 16777216 + (x / 281474976710656 % 256) * 65536
      + (x / 1099511627776 % 256) * 256 + x / 4294967296 % 256 = x / 4294967296 := by
  omega

theorem uint64_low_half (x : Nat) :
    (x / 16777216 % 256) * 16777216 + (x / 65536 % 256) * 65536
      + (x / 256 % 256) * 256 + x % 256 = x % 4294967296 := by
  omega

theorem bigendian_uint64_byte_values (x : Nat) :
    bigendian_uint64_byte x 0 = x / 72057594037927936 % 256 ∧
    bigendian_uint64_byte x 1 = x / 281474976710656 % 256 ∧
    bigendian_uint64_byte x 2 = x / 1099511627776 % 256 ∧
    bigendian_uint64_byte x 3 = x / 4294967296 % 256 ∧
    bigendian_uint64_byte x 4 = x / 16777216 % 256 ∧
    bigendian_uint64_byte x 5 = x / 65536 % 256 ∧
    bigendian_uint64_byte x 6 = x / 256 % 256 ∧
    bigendian_uint64_byte x 7 = x % 256 := by
  unfold bigendian_uint64_byte
  norm_num

theorem block_ref_of_uint64 (src : Buffer) (p x : Nat) (hx : x < 18446744073709551616)
    (hsrc : ∀ k, k < 8 → src (p + k) = bigendian_uint64_byte x k) :
    block_ref src p = (x / 4294967296, x % 4294967296) := by
  obtain ⟨v0, v1, v2, v3, v4, v5, v6, v7⟩ := bigendian_uint64_byte_values x
  have h0 : src p = x / 72057594037927936 % 256 := (hsrc 0 (by decide)).trans v0
  have h1 : src (p + 1) = x / 281474976710656 % 256 := (hsrc 1 (by decide)).trans v1
  have h2 : src (p + 2) = x / 1099511627776 % 256 := (hsrc 2 (by decide)).trans v2
  have h3 : src (p + 3) = x / 4294967296 % 256 := (hsrc 3 (by decide)).trans v3
  have h4 : src (p + 4) = x / 16777216 % 256 := (hsrc 4 (by decide)).trans v4
  have h5 : src (p + 4 + 1) = x / 65536 % 256 := (hsrc 5 (by decide)).trans v5
  have h6 : src (p + 4 + 2) = x / 256 % 256 := (hsrc 6 (by decide)).trans v6
  have h7 : src (p + 4 + 3) = x % 256 := (hsrc 7 (by decide)).trans v7
  unfold block_ref bigendian_uint32_ref
  rw [h0, h1, h2, h3, h4, h5, h6, h7, Prod.mk.injEq]
  simp only [Nat.mod_mod]
  exact ⟨uint64_high_half x hx, uint64_low_half x⟩

theorem block_byte_eq_uint64_byte (w : Nat × Nat) (h2 : w.2 < 4294967296) (k : Nat)
    (hk : k < 8) :
    block_byte w k = bigendian_uint64_byte (w.1 * 4294967296 + w.2) k := by
  unfold block_byte bigendian_uint64_byte
  interval_cases k <;> norm_num <;> omega

theorem ecb_encrypt_first_block (box : BFBox) (src : Buffer) (p : Nat) (dst : Buffer)
    (c cend k : Nat) (hk : k < 8) :
    (BlowfishCipher.encrypt ⟨box⟩ src p (p + 8) dst c cend).buffer (c + k) =
      block_byte (bf_encrypt (block_ref src p).1 (block_ref src p).2 box) k := by
  have e : p + 8 = p + 8 * 1 := by omega
  rw [e, ecb_encrypt_eq]
  simp only
  have hb := run_blocks_byte (ecb_encrypt_body box) 1 src p dst c () 0 k (by decide) hk
  simpa [ecb_encrypt_body] using hb

theorem ecb_decrypt_first_block (box : BFBox) (src : Buffer) (cs cend : Nat) (dst : Buffer)
    (p pend k : Nat) (hc : cs < cend) (hk : k < 8) :
    (BlowfishCipher.decrypt ⟨box⟩ src cs cend dst p pend).buffer (p + k) =
      block_byte (bf_decrypt (block_ref src cs).1 (block_ref src cs).2 box) k := by
  simp only [BlowfishCipher.decrypt]
  rw [BlowfishCipher.decrypt_loop, if_pos hc]
  simp only [bf_block_decrypt, bf_block_size]
  rw [ecb_decrypt_loop_eq box src cend ((cend + 7 - (p + 8)) / 8) (p + 8) _ (by omega) (by omega)]
  simp only
  rw [run_blocks_frame (ecb_decrypt_body box) _ src (p + 8) _ (p + 8) () (p + k)
    (Or.inl (by omega))]
  exact block_set_apply dst p _ k hk

theorem bf_long_encrypt_lt (x : Nat) (hx : x < 18446744073709551616) (box : BFBox) :
    bf_long_encrypt x box < 18446744073709551616 := by
  rw [bf_long_encrypt_eq x hx]
  have h := bf_encrypt_lt (x / 4294967296) (x % 4294967296) box
  omega

theorem bf_long_decrypt_lt (x : Nat) (hx : x < 18446744073709551616) (box : BFBox) :
    bf_long_decrypt x box < 18446744073709551616 := by
  rw [bf_long_decrypt_eq x hx]
  have h := bf_decrypt_lt (x / 4294967296) (x % 4294967296) box
  omega

theorem uint64_buffer_apply (x k : Nat) (hk : k < 8) :
    uint64_buffer x (0 + k) = bigendian_uint64_byte x k := by
  simp [uint64_buffer, hk]

/-! ## The claims -/

/-- C1: with an inverse round function, CBC decryption of a CBC encryption of two or more whole
blocks (same key schedule, same IV) returns the first plaintext block, but it returns the second
plaintext block exactly when the round function leaves the first chained input
`P_1 xor IV` fixed; so the round trip fails whenever the first ciphertext block differs from
`P_1 xor IV`. -/
theorem cbc_round_trip_second_block (box : BFBox) (hinv : RoundInverse box)
    (IV plaintext ciphertext recovered : Buffer) (off n cend pend : Nat) (hn : 2 ≤ n) :
    block_ref
        ((BlowfishCipherCBC.create IV box).decrypt
          ((BlowfishCipherCBC.create IV box).encrypt plaintext off (off + 8 * n)
            ciphertext off cend).buffer
          off (off + 8 * n) recovered off pend).buffer off = block_ref plaintext off ∧
    (block_ref
        ((BlowfishCipherCBC.create IV box).decrypt
          ((BlowfishCipherCBC.create IV box).encrypt plaintext off (off + 8 * n)
            ciphertext off cend).buffer
          off (off + 8 * n) recovered off pend).buffer (off + 8) = block_ref plaintext (off + 8) ↔
      bf_encrypt ((block_ref plaintext off).1 ^^^ (block_ref IV 0).1)
          ((block_ref plaintext off).2 ^^^ (block_ref IV 0).2) box =
        ((block_ref plaintext off).1 ^^^ (block_ref IV 0).1,
          (block_ref plaintext off).2 ^^^ (block_ref IV 0).2)) := by
  rw [cbc_encrypt_eq, cbc_decrypt_eq]
  simp only [BlowfishCipherCBC.create]
  have hiv := block_ref_lt IV 0
  have hp0 := block_ref_lt plaintext off
  have hp1 := block_ref_lt plaintext (off + 8)
  have hx0 : bigendian_uint32_ref IV 0 = (block_ref IV 0).1 := rfl
  have hx4 : bigendian_uint32_ref IV 4 = (block_ref IV 0).2 := rfl
  rw [hx0, hx4]
  generalize block_ref IV 0 = iv at hiv ⊢
  -- the two ciphertext blocks
  have hc0 := cbc_encrypt_block box plaintext off ciphertext off (iv.1, iv.2) n 0 (by omega)
  have hc1 := cbc_encrypt_block box plaintext off ciphertext off (iv.1, iv.2) n 1 (by omega)
  rw [cbc_encrypt_state_succ] at hc0 hc1
  rw [cbc_encrypt_state_succ] at hc1
  simp only [state_at, Nat.mul_zero, Nat.add_zero, Nat.mul_one] at hc0 hc1
  -- the two recovered blocks
  have hd0 := run_blocks_block (cbc_decrypt_body box) n
    (run_blocks (cbc_encrypt_body box) n plaintext off ciphertext off (iv.1, iv.2)).1 off
    recovered off (iv.1, iv.2) 0 (by omega)
  have hd1 := run_blocks_block (cbc_decrypt_body box) n
    (run_blocks (cbc_encrypt_body box) n plaintext off ciphertext off (iv.1, iv.2)).1 off
    recovered off (iv.1, iv.2) 1 (by omega)
  rw [cbc_decrypt_state_succ] at hd1
  simp only [state_at, Nat.mul_zero, Nat.add_zero, Nat.mul_one] at hd0 hd1
  rw [hd0, hd1, hc0, hc1]
  simp only [cbc_decrypt_body]
  have e0 := hinv _ _ (xor_lt_word hp0.1 hiv.1) (xor_lt_word hp0.2 hiv.2)
  have hC := bf_encrypt_lt ((block_ref plaintext off).1 ^^^ iv.1)
    ((block_ref plaintext off).2 ^^^ iv.2) box
  have e1 := hinv _ _ (xor_lt_word hp1.1 hC.1) (xor_lt_word hp1.2 hC.2)
  rw [e0, e1]
  simp only
  constructor
  · rw [word_wrap_of_lt _ (by
      simp only [Nat.xor_assoc, Nat.xor_self, Nat.xor_zero]; exact hp0.1) (by
      simp only [Nat.xor_assoc, Nat.xor_self, Nat.xor_zero]; exact hp0.2)]
    simp only [Nat.xor_assoc, Nat.xor_self, Nat.xor_zero]
  · rw [word_wrap_of_lt _
      (xor_lt_word (xor_lt_word hp1.1 hC.1) (xor_lt_word hp0.1 hiv.1))
      (xor_lt_word (xor_lt_word hp1.2 hC.2) (xor_lt_word hp0.2 hiv.2))]
    rw [Prod.ext_iff, Prod.ext_iff]
    simp only
    rw [xor_xor_eq_left_iff, xor_xor_eq_left_iff]

/-- Instance of C1 (sample key schedule, all-zero IV and plaintext, two blocks): the round
function has an inverse, and the second block that the round trip recovers is not the second
plaintext block. -/
theorem cbc_round_trip_second_block_witness :
    RoundInverse sample_box ∧ 2 ≤ 2 ∧
      block_ref
        ((BlowfishCipherCBC.create zero_buffer sample_box).decrypt
          ((BlowfishCipherCBC.create zero_buffer sample_box).encrypt zero_buffer 0 (0 + 8 * 2)
            zero_buffer 0 16).buffer
          0 (0 + 8 * 2) zero_buffer 0 16).buffer (0 + 8) ≠ block_ref zero_buffer (0 + 8) :=
  ⟨sample_box_inverse, by decide, fun h =>
    absurd ((cbc_round_trip_second_block sample_box sample_box_inverse zero_buffer zero_buffer
      zero_buffer zero_buffer 0 2 16 16 (by decide)).2.mp h) (by decide)⟩

/-- C2: the CBC block decryption leaves in the feedback register the output of the inverse
round function on the ciphertext block it consumed, for one block and for the last block of a
whole call; on the sample key schedule and an all-zero ciphertext block the register after the
block differs from the two halves of that ciphertext block. -/
theorem cbc_decrypt_register_feed :
    (∀ (box : BFBox) (c : Buffer) (cs : Nat) (p : Buffer) (ps l r : Nat),
      (bf_block_decrypt_cbc c cs p ps box l r).2.2 =
        bf_decrypt (block_ref c cs).1 (block_ref c cs).2 box) ∧
    (∀ (self : BlowfishCipherCBC) (c : Buffer) (off n : Nat) (p : Buffer) (pend : Nat),
      ((self.decrypt c off (off + 8 * (n + 1)) p off pend).self.cbcL,
        (self.decrypt c off (off + 8 * (n + 1)) p off pend).self.cbcR) =
        bf_decrypt (block_ref c (off + 8 * n)).1 (block_ref c (off + 8 * n)).2 self.box) ∧
    (bf_block_decrypt_cbc zero_buffer 0 zero_buffer 0 sample_box 0 0).2.2 ≠
      block_ref zero_buffer 0 := by
  refine ⟨fun box c cs p ps l r => rfl, ?_, by decide⟩
  intro self c off n p pend
  rw [cbc_decrypt_eq]
  simp only [Prod.mk.eta]
  rw [run_blocks_state, cbc_decrypt_state_succ]

/-- C3: CBC encryption of `n` whole blocks with an instance constructed from `IV` writes, for
every block `i` (counted from 0), `C_i = E(P_i xor C_(i-1))`, where the block before the first
is the IV, and the feedback register after the call is the last block written (the IV when
`n = 0`). -/
theorem cbc_encrypt_chain (box : BFBox) (IV plaintext ciphertext : Buffer)
    (pstart cstart cend n : Nat) :
    (∀ i, i < n →
      block_ref ((BlowfishCipherCBC.create IV box).encrypt plaintext pstart (pstart + 8 * n)
          ciphertext cstart cend).buffer (cstart + 8 * i) =
        bf_encrypt
          ((block_ref plaintext (pstart + 8 * i)).1 ^^^
            (cbc_previous IV ((BlowfishCipherCBC.create IV box).encrypt plaintext pstart
              (pstart + 8 * n) ciphertext cstart cend).buffer cstart i).1)
          ((block_ref plaintext (pstart + 8 * i)).2 ^^^
            (cbc_previous IV ((BlowfishCipherCBC.create IV box).encrypt plaintext pstart
              (pstart + 8 * n) ciphertext cstart cend).buffer cstart i).2) box) ∧
    (((BlowfishCipherCBC.create IV box).encrypt plaintext pstart (pstart + 8 * n)
          ciphertext cstart cend).self.cbcL,
      ((BlowfishCipherCBC.create IV box).encrypt plaintext pstart (pstart + 8 * n)
          ciphertext cstart cend).self.cbcR) =
      cbc_previous IV ((BlowfishCipherCBC.create IV box).encrypt plaintext pstart
        (pstart + 8 * n) ciphertext cstart cend).buffer cstart n := by
  rw [cbc_encrypt_eq]
  simp only [cbc_create_register, Prod.mk.eta]
  have hbox : (BlowfishCipherCBC.create IV box).box = box := rfl
  rw [hbox]
  constructor
  · intro i hi
    rw [cbc_encrypt_block box plaintext pstart ciphertext cstart _ n i hi,
      cbc_previous_eq_state box IV plaintext pstart ciphertext cstart n i (by omega),
      cbc_encrypt_state_succ]
  · rw [cbc_previous_eq_state box IV plaintext pstart ciphertext cstart n n (le_refl n),
      run_blocks_state]

/-- Instance of C3 (sample key schedule, all-zero IV and plaintext, two blocks): the second
ciphertext block is the round function of the second plaintext block combined with the first
ciphertext block. -/
theorem cbc_encrypt_chain_witness :
    1 < 2 ∧
    block_ref ((BlowfishCipherCBC.create zero_buffer sample_box).encrypt zero_buffer 0
        (0 + 8 * 2) zero_buffer 0 16).buffer (0 + 8 * 1) =
      bf_encrypt
        ((block_ref zero_buffer (0 + 8 * 1)).1 ^^^
          (cbc_previous zero_buffer ((BlowfishCipherCBC.create zero_buffer sample_box).encrypt
            zero_buffer 0 (0 + 8 * 2) zero_buffer 0 16).buffer 0 1).1)
        ((block_ref zero_buffer (0 + 8 * 1)).2 ^^^
          (cbc_previous zero_buffer ((BlowfishCipherCBC.create zero_buffer sample_box).encrypt
            zero_buffer 0 (0 + 8 * 2) zero_buffer 0 16).buffer 0 1).2) sample_box :=
  ⟨by decide,
    (cbc_encrypt_chain sample_box zero_buffer zero_buffer zero_buffer 0 0 16 2).1 1 (by decide)⟩

/-- C4: over a source span of `n` whole blocks, each of the four entry points returns the
destination start plus `8 * n + 8`, one block past the last byte written (for the decrypt entry
points: when source and destination offsets coincide); on an empty span every entry point
returns the destination start plus 8. -/
theorem returned_offset_one_block_late :
    (∀ (self : BlowfishCipher) (src : Buffer) (p n : Nat) (dst : Buffer) (c cend : Nat),
      (self.encrypt src p (p + 8 * n) dst c cend).next = c + 8 * n + 8) ∧
    (∀ (self : BlowfishCipherCBC) (src : Buffer) (p n : Nat) (dst : Buffer) (c cend : Nat),
      (self.encrypt src p (p + 8 * n) dst c cend).next = c + 8 * n + 8) ∧
    (∀ (self : BlowfishCipher) (src : Buffer) (p n : Nat) (dst : Buffer) (pend : Nat),
      (self.decrypt src p (p + 8 * n) dst p pend).next = p + 8 * n + 8) ∧
    (∀ (self : BlowfishCipherCBC) (src : Buffer) (p n : Nat) (dst : Buffer) (pend : Nat),
      (self.decrypt src p (p + 8 * n) dst p pend).next = p + 8 * n + 8) ∧
    (∀ (self : BlowfishCipher) (src : Buffer) (c : Nat) (dst : Buffer) (p pend : Nat),
      (self.decrypt src c c dst p pend).next = p + 8) ∧
    (∀ (self : BlowfishCipherCBC) (src : Buffer) (c : Nat) (dst : Buffer) (p pend : Nat),
      (self.decrypt src c c dst p pend).next = p + 8) := by
  refine ⟨?_, ?_, ?_, ?_, ?_, ?_⟩
  · intro self src p n dst c cend
    rw [ecb_encrypt_eq]
  · intro self src p n dst c cend
    rw [cbc_encrypt_eq]
  · intro self src p n dst pend
    rw [ecb_decrypt_eq]
  · intro self src p n dst pend
    rw [cbc_decrypt_eq]
  · intro self src c dst p pend
    simp only [BlowfishCipher.decrypt, bf_block_size]
    rw [BlowfishCipher.decrypt_loop, if_neg (by omega)]
  · intro self src c dst p pend
    simp only [BlowfishCipherCBC.decrypt, bf_block_size]
    rw [BlowfishCipherCBC.decrypt_loop, if_neg (by omega)]

/-- Counterexample to C5: on the span `[0, 4)`, whose length is not a multiple of 8, none of
the four entry points ends with `BlockAlignmentError`. -/
theorem block_alignment_error_not_raised :
    (4 - 0) % 8 ≠ 0 ∧
    BlowfishCipher.encrypt_outcome ⟨sample_box⟩ zero_buffer 0 4 zero_buffer 0 4 ≠
      Except.error CipherError.BlockAlignmentError ∧
    BlowfishCipher.decrypt_outcome ⟨sample_box⟩ zero_buffer 0 4 zero_buffer 0 4 ≠
      Except.error CipherError.BlockAlignmentError ∧
    BlowfishCipherCBC.encrypt_outcome (BlowfishCipherCBC.create zero_buffer sample_box)
        zero_buffer 0 4 zero_buffer 0 4 ≠ Except.error CipherError.BlockAlignmentError ∧
    BlowfishCipherCBC.decrypt_outcome (BlowfishCipherCBC.create zero_buffer sample_box)
        zero_buffer 0 4 zero_buffer 0 4 ≠ Except.error CipherError.BlockAlignmentError := by
  refine ⟨by decide, ?_, ?_, ?_, ?_⟩ <;> intro h <;> cases h

/-- C5, amended: every call of the four entry points, whatever the length of its source span,
ends by returning; none ends with an error. -/
theorem entry_points_always_return :
    (∀ (self : BlowfishCipher) (src : Buffer) (s e : Nat) (dst : Buffer) (d de : Nat),
      ∃ w, BlowfishCipher.encrypt_outcome self src s e dst d de = Except.ok w) ∧
    (∀ (self : BlowfishCipher) (src : Buffer) (s e : Nat) (dst : Buffer) (d de : Nat),
      ∃ w, BlowfishCipher.decrypt_outcome self src s e dst d de = Except.ok w) ∧
    (∀ (self : BlowfishCipherCBC) (src : Buffer) (s e : Nat) (dst : Buffer) (d de : Nat),
      ∃ w, BlowfishCipherCBC.encrypt_outcome self src s e dst d de = Except.ok w) ∧
    (∀ (self : BlowfishCipherCBC) (src : Buffer) (s e : Nat) (dst : Buffer) (d de : Nat),
      ∃ w, BlowfishCipherCBC.decrypt_outcome self src s e dst d de = Except.ok w) :=
  ⟨fun _ _ _ _ _ _ _ => ⟨_, rfl⟩, fun _ _ _ _ _ _ _ => ⟨_, rfl⟩,
    fun _ _ _ _ _ _ _ => ⟨_, rfl⟩, fun _ _ _ _ _ _ _ => ⟨_, rfl⟩⟩

/-- Counterexample to C6: on the span `[0, 4)` of an all-zero source, whose length is not a
multiple of 8, ECB encryption processes one block, not `4 / 8 = 0` blocks; it writes output for
that block, and the output depends on the source byte at offset 4, which lies past the end of
the span. -/
theorem trailing_block_not_skipped :
    (4 - 0) % 8 ≠ 0 ∧
    ((BlowfishCipher.encrypt_loop ⟨sample_box⟩ zero_buffer 0 4 zero_buffer 0).pstart - 0) / 8 ≠
      (4 - 0) / 8 ∧
    (BlowfishCipher.encrypt ⟨sample_box⟩ zero_buffer 0 4 zero_buffer 0 4).buffer 3 ≠
      zero_buffer 3 ∧
    (∀ i, i < 4 → probe_buffer i = zero_buffer i) ∧
    (BlowfishCipher.encrypt ⟨sample_box⟩ probe_buffer 0 4 zero_buffer 0 4).buffer 4 ≠
      (BlowfishCipher.encrypt ⟨sample_box⟩ zero_buffer 0 4 zero_buffer 0 4).buffer 4 := by
  have hz := ecb_encrypt_loop_eq sample_box zero_buffer 4 1 0 zero_buffer 0 (by decide)
    (by decide)
  have hp := ecb_encrypt_loop_eq sample_box probe_buffer 4 1 0 zero_buffer 0 (by decide)
    (by decide)
  refine ⟨by decide, ?_, ?_, by decide, ?_⟩
  · rw [hz]
    decide
  · simp only [BlowfishCipher.encrypt]
    rw [hz]
    decide
  · simp only [BlowfishCipher.encrypt]
    rw [hz, hp]
    decide

/-- C6, amended: on a source span whose length is not a multiple of 8, every encrypt call, and
every decrypt call whose source and destination offsets coincide, processes
`(end - start) / 8 + 1` blocks: the loop leaves both offsets advanced by `8` times that number.
ECB encryption and decryption treat the trailing block as a whole block: its two halves are
read at `start + 8 * ((end - start) / 8)` and `+ 4`, and the halves written at the matching
destination offset are the round function (or its inverse) of them. -/
theorem trailing_block_processed_whole (box : BFBox) (l r : Nat) (src dst : Buffer)
    (s e d cend : Nat) (h : (e - s) % 8 ≠ 0) :
    ((BlowfishCipher.encrypt_loop ⟨box⟩ src s e dst d).pstart = s + 8 * ((e - s) / 8 + 1) ∧
      (BlowfishCipher.encrypt_loop ⟨box⟩ src s e dst d).cstart = d + 8 * ((e - s) / 8 + 1)) ∧
    ((BlowfishCipherCBC.encrypt_loop ⟨box, l, r⟩ src s e dst d).1.pstart =
        s + 8 * ((e - s) / 8 + 1) ∧
      (BlowfishCipherCBC.encrypt_loop ⟨box, l, r⟩ src s e dst d).1.cstart =
        d + 8 * ((e - s) / 8 + 1)) ∧
    ((BlowfishCipher.decrypt_loop ⟨box⟩ src s e dst s).cstart = s + 8 * ((e - s) / 8 + 1) ∧
      (BlowfishCipher.decrypt_loop ⟨box⟩ src s e dst s).pstart = s + 8 * ((e - s) / 8 + 1)) ∧
    ((BlowfishCipherCBC.decrypt_loop ⟨box, l, r⟩ src s e dst s).1.cstart =
        s + 8 * ((e - s) / 8 + 1) ∧
      (BlowfishCipherCBC.decrypt_loop ⟨box, l, r⟩ src s e dst s).1.pstart =
        s + 8 * ((e - s) / 8 + 1)) ∧
    block_ref (BlowfishCipher.encrypt ⟨box⟩ src s e dst d cend).buffer (d + 8 * ((e - s) / 8)) =
      bf_encrypt (block_ref src (s + 8 * ((e - s) / 8))).1
        (block_ref src (s + 8 * ((e - s) / 8))).2 box ∧
    block_ref (BlowfishCipher.decrypt ⟨box⟩ src s e dst s cend).buffer (s + 8 * ((e - s) / 8)) =
      bf_decrypt (block_ref src (s + 8 * ((e - s) / 8))).1
        (block_ref src (s + 8 * ((e - s) / 8))).2 box := by
  have h1 : e ≤ s + 8 * ((e - s) / 8 + 1) := by omega
  have h2 : s + 8 * ((e - s) / 8 + 1) < e + 8 := by omega
  have he := ecb_encrypt_loop_eq box src e ((e - s) / 8 + 1) s dst d h1 (Or.inr h2)
  have hc := cbc_encrypt_loop_eq box src e ((e - s) / 8 + 1) s dst d l r h1 (Or.inr h2)
  have hd := ecb_decrypt_loop_eq box src e ((e - s) / 8 + 1) s dst h1 (Or.inr h2)
  have hcd := cbc_decrypt_loop_eq box src e ((e - s) / 8 + 1) s dst l r h1 (Or.inr h2)
  refine ⟨?_, ?_, ?_, ?_, ?_, ?_⟩
  · rw [he]
    exact ⟨rfl, rfl⟩
  · rw [hc]
    exact ⟨rfl, rfl⟩
  · rw [hd]
    exact ⟨rfl, rfl⟩
  · rw [hcd]
    exact ⟨rfl, rfl⟩
  · simp only [BlowfishCipher.encrypt]
    rw [he]
    simp only
    rw [run_blocks_block _ _ _ _ _ _ _ ((e - s) / 8) (by omega)]
    simp only [ecb_encrypt_body]
    exact word_wrap_of_lt _ (bf_encrypt_lt _ _ _).1 (bf_encrypt_lt _ _ _).2
  · simp only [BlowfishCipher.decrypt]
    rw [hd]
    simp only
    rw [run_blocks_block _ _ _ _ _ _ _ ((e - s) / 8) (by omega)]
    simp only [ecb_decrypt_body]
    exact word_wrap_of_lt _ (bf_decrypt_lt _ _ _).1 (bf_decrypt_lt _ _ _).2

/-- Instance of C6, amended, on the span `[0, 4)`. -/
theorem trailing_block_processed_whole_witness :
    (4 - 0) % 8 ≠ 0 ∧
    (BlowfishCipher.encrypt_loop ⟨sample_box⟩ zero_buffer 0 4 zero_buffer 0).pstart =
      0 + 8 * ((4 - 0) / 8 + 1) :=
  ⟨by decide, (trailing_block_processed_whole sample_box 0 0 zero_buffer zero_buffer 0 4 0 4
    (by decide)).1.1⟩

/-- C7: with a round function that is injective on 64-bit blocks, two CBC encryptions of the
same `n` plaintext blocks under the same key schedule whose IVs differ in some byte produce
ciphertexts that differ, in some byte, in every one of the `n` blocks. -/
theorem cbc_iv_diffusion (box : BFBox) (hinj : RoundInjective box) (IV IV' : Buffer)
    (hIV : IsBytes IV) (hIV' : IsBytes IV') (hdiff : ∃ k, k < 8 ∧ IV k ≠ IV' k)
    (plaintext dst dst' : Buffer) (pstart cstart cend n : Nat) :
    ∀ i, i < n → ∃ k, k < 8 ∧
      ((BlowfishCipherCBC.create IV box).encrypt plaintext pstart (pstart + 8 * n)
          dst cstart cend).buffer (cstart + 8 * i + k) ≠
        ((BlowfishCipherCBC.create IV' box).encrypt plaintext pstart (pstart + 8 * n)
          dst' cstart cend).buffer (cstart + 8 * i + k) := by
  intro i hi
  by_contra hall
  simp only [not_exists, not_and, not_not] at hall
  rw [cbc_encrypt_eq, cbc_encrypt_eq] at hall
  simp only [cbc_create_register] at hall
  have hbox : ∀ iv, (BlowfishCipherCBC.create iv box).box = box := fun _ => rfl
  rw [hbox, hbox] at hall
  have hblock := block_ref_congr _ _ (cstart + 8 * i) (cstart + 8 * i) hall
  rw [cbc_encrypt_block box plaintext pstart dst cstart _ n i hi,
    cbc_encrypt_block box plaintext pstart dst' cstart _ n i hi] at hblock
  have hne : block_ref IV 0 ≠ block_ref IV' 0 := by
    intro heq
    obtain ⟨k, hk, hkne⟩ := hdiff
    have := block_ref_bytes_eq IV IV' hIV hIV' 0 0 heq k hk
    simp only [Nat.zero_add] at this
    exact hkne this
  exact cbc_encrypt_states_differ box hinj plaintext pstart _ _ (block_ref_lt IV 0)
    (block_ref_lt IV' 0) hne (i + 1) hblock

/-- Instance of C7 (sample key schedule, one all-zero plaintext block, the all-zero IV against
an IV with byte 4 set to 1): the first ciphertext blocks differ in some byte. -/
theorem cbc_iv_diffusion_witness :
    RoundInjective sample_box ∧ IsBytes zero_buffer ∧ IsBytes probe_buffer ∧
    (∃ k, k < 8 ∧ zero_buffer k ≠ probe_buffer k) ∧ 0 < 1 ∧
    ∃ k, k < 8 ∧
      ((BlowfishCipherCBC.create zero_buffer sample_box).encrypt zero_buffer 0 (0 + 8 * 1)
          zero_buffer 0 8).buffer (0 + 8 * 0 + k) ≠
        ((BlowfishCipherCBC.create probe_buffer sample_box).encrypt zero_buffer 0 (0 + 8 * 1)
          zero_buffer 0 8).buffer (0 + 8 * 0 + k) :=
  ⟨sample_box_injective, zero_buffer_isBytes, probe_buffer_isBytes, ⟨4, by decide, by decide⟩,
    by decide,
    cbc_iv_diffusion sample_box sample_box_injective zero_buffer probe_buffer
      zero_buffer_isBytes probe_buffer_isBytes ⟨4, by decide, by decide⟩ zero_buffer zero_buffer
      zero_buffer 0 0 8 1 0 (by decide)⟩

/-- C8: the ciphertext block that ECB encryption writes for a plaintext block is determined by
the bytes of that plaintext block alone: whenever block `i` of one plaintext and block `j` of
another (or of the same one) hold the same bytes, the two ciphertext blocks written for them
under the same key schedule hold the same bytes. -/
theorem ecb_block_independence (box : BFBox) (src src' dst dst' : Buffer)
    (p p' c c' cend cend' n n' i j : Nat) (hi : i < n) (hj : j < n')
    (h : ∀ k, k < 8 → src (p + 8 * i + k) = src' (p' + 8 * j + k)) :
    ∀ k, k < 8 →
      (BlowfishCipher.encrypt ⟨box⟩ src p (p + 8 * n) dst c cend).buffer (c + 8 * i + k) =
        (BlowfishCipher.encrypt ⟨box⟩ src' p' (p' + 8 * n') dst' c' cend').buffer
          (c' + 8 * j + k) := by
  intro k hk
  rw [ecb_encrypt_eq, ecb_encrypt_eq]
  simp only
  rw [run_blocks_byte _ _ _ _ _ _ _ i k hi hk, run_blocks_byte _ _ _ _ _ _ _ j k hj hk]
  simp only [ecb_encrypt_body]
  rw [block_ref_congr src src' (p + 8 * i) (p' + 8 * j) h]

/-- Instance of C8: an all-zero plaintext of two blocks; blocks 0 and 1 are equal, and so are
the two ciphertext blocks. -/
theorem ecb_block_independence_witness :
    0 < 2 ∧ 1 < 2 ∧ (∀ k, k < 8 → zero_buffer (0 + 8 * 0 + k) = zero_buffer (0 + 8 * 1 + k)) ∧
    ∀ k, k < 8 →
      (BlowfishCipher.encrypt ⟨sample_box⟩ zero_buffer 0 (0 + 8 * 2) zero_buffer 0 16).buffer
          (0 + 8 * 0 + k) =
        (BlowfishCipher.encrypt ⟨sample_box⟩ zero_buffer 0 (0 + 8 * 2) zero_buffer 0 16).buffer
          (0 + 8 * 1 + k) :=
  ⟨by decide, by decide, fun _ _ => rfl,
    ecb_block_independence sample_box zero_buffer zero_buffer zero_buffer zero_buffer
      0 0 0 0 16 16 2 2 0 1 (by decide) (by decide) (fun _ _ => rfl)⟩

/-- C9: for a 64-bit value `x` whose 8-byte big-endian encoding lies at the source offset, the
one-block call of `BlowfishCipher::encrypt` writes at the destination offset the 8-byte
big-endian encoding of `BlowfishCipher::encrypt(uint64 x)`, and likewise for decrypt; hence an
expected 64-bit answer `y` matches the 64-bit entry point exactly when its encoding matches the
bytes written by the buffer entry point. -/
theorem entry_point_agreement (box : BFBox) (x : Nat) (hx : x < 18446744073709551616)
    (src : Buffer) (p : Nat) (hsrc : ∀ k, k < 8 → src (p + k) = bigendian_uint64_byte x k)
    (dst : Buffer) (c cend : Nat) :
    (∀ k, k < 8 → (BlowfishCipher.encrypt ⟨box⟩ src p (p + 8) dst c cend).buffer (c + k) =
      bigendian_uint64_byte (BlowfishCipher.encrypt_uint64 ⟨box⟩ x) k) ∧
    (∀ k, k < 8 → (BlowfishCipher.decrypt ⟨box⟩ src p (p + 8) dst c cend).buffer (c + k) =
      bigendian_uint64_byte (BlowfishCipher.decrypt_uint64 ⟨box⟩ x) k) ∧
    (∀ y, y < 18446744073709551616 →
      (BlowfishCipher.encrypt_uint64 ⟨box⟩ x = y ↔
        ∀ k, k < 8 → (BlowfishCipher.encrypt ⟨box⟩ src p (p + 8) dst c cend).buffer (c + k) =
          bigendian_uint64_byte y k)) ∧
    (∀ y, y < 18446744073709551616 →
      (BlowfishCipher.decrypt_uint64 ⟨box⟩ x = y ↔
        ∀ k, k < 8 → (BlowfishCipher.decrypt ⟨box⟩ src p (p + 8) dst c cend).buffer (c + k) =
          bigendian_uint64_byte y k)) := by
  have hblock := block_ref_of_uint64 src p x hx hsrc
  have henc : ∀ k, k < 8 →
      (BlowfishCipher.encrypt ⟨box⟩ src p (p + 8) dst c cend).buffer (c + k) =
        bigendian_uint64_byte (BlowfishCipher.encrypt_uint64 ⟨box⟩ x) k := by
    intro k hk
    rw [ecb_encrypt_first_block box src p dst c cend k hk, hblock]
    simp only [BlowfishCipher.encrypt_uint64]
    rw [bf_long_encrypt_eq x hx]
    exact block_byte_eq_uint64_byte _ (bf_encrypt_lt _ _ _).2 k hk
  have hdec : ∀ k, k < 8 →
      (BlowfishCipher.decrypt ⟨box⟩ src p (p + 8) dst c cend).buffer (c + k) =
        bigendian_uint64_byte (BlowfishCipher.decrypt_uint64 ⟨box⟩ x) k := by
    intro k hk
    rw [ecb_decrypt_first_block box src p (p + 8) dst c cend k (by omega) hk, hblock]
    simp only [BlowfishCipher.decrypt_uint64]
    rw [bf_long_decrypt_eq x hx]
    exact block_byte_eq_uint64_byte _ (bf_decrypt_lt _ _ _).2 k hk
  refine ⟨henc, hdec, ?_, ?_⟩
  · intro y hy
    constructor
    · intro h k hk
      rw [henc k hk, h]
    · intro h
      apply bigendian_uint64_byte_inj _ _ (bf_long_encrypt_lt x hx box) hy
      intro k hk
      have := henc k hk
      simp only [BlowfishCipher.encrypt_uint64] at this
      rw [← this, h k hk]
  · intro y hy
    constructor
    · intro h k hk
      rw [hdec k hk, h]
    · intro h
      apply bigendian_uint64_byte_inj _ _ (bf_long_decrypt_lt x hx box) hy
      intro k hk
      have := hdec k hk
      simp only [BlowfishCipher.decrypt_uint64] at this
      rw [← this, h k hk]

/-- Instance of C9 for the value `0x0123456789ABCDEF` and the sample key schedule, read from
offset 0 and written at offset 0. -/
theorem entry_point_agreement_witness :
    81985529216486895 < 18446744073709551616 ∧
    (∀ k, k < 8 →
      uint64_buffer 81985529216486895 (0 + k) = bigendian_uint64_byte 81985529216486895 k) ∧
    ∀ k, k < 8 →
      (BlowfishCipher.encrypt ⟨sample_box⟩ (uint64_buffer 81985529216486895) 0 (0 + 8)
          zero_buffer 0 8).buffer (0 + k) =
        bigendian_uint64_byte (BlowfishCipher.encrypt_uint64 ⟨sample_box⟩ 81985529216486895) k :=
  ⟨by decide, uint64_buffer_apply 81985529216486895,
    (entry_point_agreement sample_box 81985529216486895 (by decide)
      (uint64_buffer 81985529216486895) 0 (uint64_buffer_apply 81985529216486895)
      zero_buffer 0 8).1⟩

/-- C10: on one CBC instance, encrypting the first `k` blocks of a plaintext in one call and
the remaining `m` blocks in a second call, which continues at the next source and destination
offsets, leaves the same ciphertext buffer and the same instance (key schedule and feedback
register) as encrypting all `k + m` blocks in a single call. -/
theorem cbc_streaming_equivalence (self : BlowfishCipherCBC) (plaintext ciphertext : Buffer)
    (pstart cstart k m cend cend1 cend2 : Nat) :
    ((self.encrypt plaintext pstart (pstart + 8 * k) ciphertext cstart cend1).self.encrypt
        plaintext (pstart + 8 * k) (pstart + 8 * k + 8 * m)
        (self.encrypt plaintext pstart (pstart + 8 * k) ciphertext cstart cend1).buffer
        (cstart + 8 * k) cend2).buffer =
      (self.encrypt plaintext pstart (pstart + 8 * (k + m)) ciphertext cstart cend).buffer ∧
    ((self.encrypt plaintext pstart (pstart + 8 * k) ciphertext cstart cend1).self.encrypt
        plaintext (pstart + 8 * k) (pstart + 8 * k + 8 * m)
        (self.encrypt plaintext pstart (pstart + 8 * k) ciphertext cstart cend1).buffer
        (cstart + 8 * k) cend2).self =
      (self.encrypt plaintext pstart (pstart + 8 * (k + m)) ciphertext cstart cend).self := by
  rw [cbc_encrypt_eq self plaintext pstart k, cbc_encrypt_eq self plaintext pstart (k + m),
    cbc_encrypt_eq]
  simp only [Prod.mk.eta]
  rw [run_blocks_add]
  exact ⟨rfl, rfl⟩

/-! ## Natural arithmetic and the wire codec: lemmas -/

theorem le_value_add_carry (xs : List Nat) : ∀ (ys : List Nat) (c : Nat),
    le_value (add_carry xs ys c) = le_value xs + le_value ys + c := by
  induction xs with
  | nil =>
    intro ys
    induction ys with
    | nil => intro c; simp only [add_carry]; split <;> simp [le_value, *]
    | cons y ys ih => intro c; simp only [add_carry, le_value, ih]; omega
  | cons x xs ih =>
    intro ys c
    cases ys with
    | nil => simp only [add_carry, le_value, ih]; omega
    | cons y ys => simp only [add_carry, le_value, ih]; omega

theorem sub_digit_le_one (x y w : Nat) : (sub_digit x y w).2 ≤ 1 := by
  unfold sub_digit
  simp only
  split <;> omega

theorem sub_digit_step (x y w X Y P bo r : Nat) (hx : x < 256) (hy : y < 256) (hw : w ≤ 1)
    (h1 : X + P * bo = Y + (sub_digit x y w).2 + r) :
    x + 256 * X + P * 256 * bo = y + 256 * Y + w + ((sub_digit x y w).1 + 256 * r) := by
  unfold sub_digit at h1 ⊢
  simp only at h1 ⊢
  have e : P * 256 * bo = 256 * (P * bo) := by ring
  rw [e]
  split at h1 <;> omega

theorem le_value_sub_borrow (xs : List Nat) : ∀ (ys : List Nat) (w : Nat),
    (∀ b ∈ xs, b < 256) → (∀ b ∈ ys, b < 256) → w ≤ 1 →
    le_value xs + 256 ^ (max xs.length ys.length) * (sub_borrow xs ys w).2 =
      le_value ys + w + le_value (sub_borrow xs ys w).1 ∧ (sub_borrow xs ys w).2 ≤ 1 := by
  induction xs with
  | nil =>
    intro ys
    induction ys with
    | nil => intro w _ _ hw; simp [sub_borrow, le_value, hw]
    | cons y ys ih =>
      intro w hx hy hw
      have hy0 : y < 256 := hy y (List.mem_cons_self _ _)
      have hys : ∀ b ∈ ys, b < 256 := fun b hb => hy b (List.mem_cons_of_mem _ hb)
      have h := ih (sub_digit 0 y w).2 hx hys (sub_digit_le_one _ _ _)
      simp only [sub_borrow, le_value, List.length_nil, List.length_cons, Nat.zero_max,
        Nat.zero_add] at h ⊢
      refine ⟨?_, h.2⟩
      rw [Nat.pow_succ]
      have := sub_digit_step 0 y w 0 _ _ _ _ (by decide) hy0 hw (by simpa using h.1)
      simpa using this
  | cons x xs ih =>
    intro ys w hx hy hw
    have hx0 : x < 256 := hx x (List.mem_cons_self _ _)
    have hxs : ∀ b ∈ xs, b < 256 := fun b hb => hx b (List.mem_cons_of_mem _ hb)
    cases ys with
    | nil =>
      have h := ih [] (sub_digit x 0 w).2 hxs hy (sub_digit_le_one _ _ _)
      simp only [sub_borrow, le_value, List.length_nil, List.length_cons, Nat.max_zero,
        Nat.add_zero] at h ⊢
      refine ⟨?_, h.2⟩
      rw [Nat.pow_succ]
      have := sub_digit_step x 0 w _ 0 _ _ _ hx0 (by decide) hw (by simpa using h.1)
      simpa using this
    | cons y ys =>
      have hy0 : y < 256 := hy y (List.mem_cons_self _ _)
      have hys : ∀ b ∈ ys, b < 256 := fun b hb => hy b (List.mem_cons_of_mem _ hb)
      have h := ih ys (sub_digit x y w).2 hxs hys (sub_digit_le_one _ _ _)
      simp only [sub_borrow, le_value, List.length_cons] at h ⊢
      refine ⟨?_, h.2⟩
      rw [Nat.succ_max_succ, Nat.pow_succ]
      exact sub_digit_step x y w _ _ _ _ _ hx0 hy0 hw h.1

theorem le_value_append (xs ys : List Nat) :
    le_value (xs ++ ys) = le_value xs + 256 ^ xs.length * le_value ys := by
  induction xs with
  | nil => simp [le_value]
  | cons x xs ih =>
    show le_value (x :: (xs ++ ys)) = _
    rw [le_value, ih, le_value, List.length_cons, Nat.pow_succ]
    ring

theorem le_value_lt (xs : List Nat) (h : ∀ b ∈ xs, b < 256) : le_value xs < 256 ^ xs.length := by
  induction xs with
  | nil => simp [le_value]
  | cons x xs ih =>
    have hx : x < 256 := h x (List.mem_cons_self _ _)
    have := ih (fun b hb => h b (List.mem_cons_of_mem _ hb))
    simp only [le_value, List.length_cons, Nat.pow_succ]
    omega

theorem magnitude_cons (x : Nat) (xs : List Nat) :
    Natural.magnitude ⟨x :: xs⟩ = x * 256 ^ xs.length + Natural.magnitude ⟨xs⟩ := by
  simp only [Natural.magnitude, List.reverse_cons, le_value_append, List.length_reverse, le_value]
  ring

theorem magnitude_lt (xs : List Nat) (h : ∀ b ∈ xs, b < 256) :
    Natural.magnitude ⟨xs⟩ < 256 ^ xs.length := by
  have := le_value_lt xs.reverse (fun b hb => h b (List.mem_reverse.mp hb))
  simpa [Natural.magnitude] using this

theorem add_carry_bytes (xs : List Nat) : ∀ (ys : List Nat) (c : Nat),
    (∀ b ∈ xs, b < 256) → (∀ b ∈ ys, b < 256) → c ≤ 1 →
    ∀ d ∈ add_carry xs ys c, d < 256 := by
  induction xs with
  | nil =>
    intro ys
    induction ys with
    | nil =>
      intro c _ _ hc d hd
      simp only [add_carry] at hd
      split at hd
      · simp at hd
      · simp only [List.mem_singleton] at hd
        omega
    | cons y ys ih =>
      intro c hx hy hc d hd
      have hy0 : y < 256 := hy y (List.mem_cons_self _ _)
      simp only [add_carry, List.mem_cons] at hd
      rcases hd with hd | hd
      · omega
      · exact ih _ hx (fun b hb => hy b (List.mem_cons_of_mem _ hb)) (by omega) d hd
  | cons x xs ih =>
    intro ys c hx hy hc d hd
    have hx0 : x < 256 := hx x (List.mem_cons_self _ _)
    have hxs : ∀ b ∈ xs, b < 256 := fun b hb => hx b (List.mem_cons_of_mem _ hb)
    cases ys with
    | nil =>
      simp only [add_carry, List.mem_cons] at hd
      rcases hd with hd | hd
      · omega
      · exact ih [] _ hxs hy (by omega) d hd
    | cons y ys =>
      have hy0 : y < 256 := hy y (List.mem_cons_self _ _)
      simp only [add_carry, List.mem_cons] at hd
      rcases hd with hd | hd
      · omega
      · exact ih ys _ hxs (fun b hb => hy b (List.mem_cons_of_mem _ hb)) (by omega) d hd

theorem sub_borrow_bytes (xs : List Nat) : ∀ (ys : List Nat) (w : Nat),
    ∀ d ∈ (sub_borrow xs ys w).1, d < 256 := by
  induction xs with
  | nil =>
    intro ys
    induction ys with
    | nil => intro w d hd; simp [sub_borrow] at hd
    | cons y ys ih =>
      intro w d hd
      simp only [sub_borrow, List.mem_cons] at hd
      rcases hd with hd | hd
      · rw [hd]; exact Nat.mod_lt _ (by decide)
      · exact ih _ d hd
  | cons x xs ih =>
    intro ys w d hd
    cases ys with
    | nil =>
      simp only [sub_borrow, List.mem_cons] at hd
      rcases hd with hd | hd
      · rw [hd]; exact Nat.mod_lt _ (by decide)
      · exact ih [] _ d hd
    | cons y ys =>
      simp only [sub_borrow, List.mem_cons] at hd
      rcases hd with hd | hd
      · rw [hd]; exact Nat.mod_lt _ (by decide)
      · exact ih ys _ d hd

theorem sub_borrow_length (xs : List Nat) : ∀ (ys : List Nat) (w : Nat),
    (sub_borrow xs ys w).1.length = max xs.length ys.length := by
  induction xs with
  | nil =>
    intro ys
    induction ys with
    | nil => intro w; simp [sub_borrow]
    | cons y ys ih => intro w; simp [sub_borrow, ih]
  | cons x xs ih =>
    intro ys w
    cases ys with
    | nil => simp [sub_borrow, ih]
    | cons y ys => simp [sub_borrow, ih, Nat.succ_max_succ]

theorem skip_leading_zeros_magnitude (bs : List Nat) :
    Natural.magnitude ⟨skip_leading_zeros bs⟩ = Natural.magnitude ⟨bs⟩ := by
  induction bs with
  | nil => simp [skip_leading_zeros, Natural.magnitude, le_value]
  | cons a bs ih =>
    cases bs with
    | nil => simp [skip_leading_zeros]
    | cons b bs =>
      cases a with
      | zero =>
        simp only [skip_leading_zeros]
        rw [ih, magnitude_cons 0]
        simp
      | succ a => simp [skip_leading_zeros]

theorem skip_leading_zeros_bytes (bs : List Nat) (h : ∀ b ∈ bs, b < 256) :
    ∀ b ∈ skip_leading_zeros bs, b < 256 := by
  induction bs with
  | nil => simp [skip_leading_zeros]
  | cons a bs ih =>
    cases bs with
    | nil => simpa [skip_leading_zeros] using h
    | cons b bs =>
      cases a with
      | zero =>
        simp only [skip_leading_zeros]
        exact ih (fun x hx => h x (List.mem_cons_of_mem _ hx))
      | succ a => simpa [skip_leading_zeros] using h

theorem skip_leading_zeros_shape (bs : List Nat) :
    (skip_leading_zeros bs).length = 1 ∨
      ∃ b rest, skip_leading_zeros bs = b :: rest ∧ b ≠ 0 := by
  induction bs with
  | nil => simp [skip_leading_zeros]
  | cons a bs ih =>
    cases bs with
    | nil => simp [skip_leading_zeros]
    | cons b bs =>
      cases a with
      | zero => simpa only [skip_leading_zeros] using ih
      | succ a => right; exact ⟨a + 1, b :: bs, by simp [skip_leading_zeros], by omega⟩

theorem skip_leading_zeros_valid (bs : List Nat) (h : ∀ b ∈ bs, b < 256) :
    Natural.Valid ⟨skip_leading_zeros bs⟩ :=
  ⟨skip_leading_zeros_bytes bs h, skip_leading_zeros_shape bs⟩

theorem skip_leading_zeros_of_valid (n : Natural) (h : n.Valid) :
    skip_leading_zeros n.natural = n.natural := by
  obtain ⟨_, h1 | ⟨b, bs, e, hb⟩⟩ := h
  · match n, h1 with
    | ⟨[b]⟩, _ => simp [skip_leading_zeros]
  · rw [e]
    cases bs with
    | nil => simp [skip_leading_zeros]
    | cons c cs =>
      cases b with
      | zero => exact absurd rfl hb
      | succ a => simp [skip_leading_zeros]

theorem digit_order (x y P mx my : Nat) (hmx : mx < P) (hxy : x < y) :
    x * P + mx < y * P + my := by
  have h1 : (x + 1) * P = x * P + P := by ring
  have h2 : (x + 1) * P ≤ y * P := Nat.mul_le_mul_right P hxy
  omega

theorem compare_bytes_eq_zero (xs : List Nat) : ∀ ys : List Nat, xs.length = ys.length →
    compare_bytes xs ys = 0 → xs = ys := by
  induction xs with
  | nil =>
    intro ys hl _
    cases ys with
    | nil => rfl
    | cons y ys => simp at hl
  | cons x xs ih =>
    intro ys hl h
    cases ys with
    | nil => simp at hl
    | cons y ys =>
      simp only [compare_bytes] at h
      split at h
      · simp at h
      · split at h
        · simp at h
        · have hxy : x = y := by omega
          rw [hxy, ih ys (by simpa using hl) h]

theorem compare_bytes_spec (xs : List Nat) : ∀ ys : List Nat, xs.length = ys.length →
    (∀ b ∈ xs, b < 256) → (∀ b ∈ ys, b < 256) →
    compare_bytes xs ys =
      if Natural.magnitude ⟨xs⟩ < Natural.magnitude ⟨ys⟩ then -1
      else if Natural.magnitude ⟨ys⟩ < Natural.magnitude ⟨xs⟩ then 1 else 0 := by
  induction xs with
  | nil =>
    intro ys hl _ _
    cases ys with
    | nil => simp [compare_bytes, Natural.magnitude]
    | cons y ys => simp at hl
  | cons x xs ih =>
    intro ys hl hx hy
    cases ys with
    | nil => simp at hl
    | cons y ys =>
      have hl' : xs.length = ys.length := by simpa using hl
      have hxs : ∀ b ∈ xs, b < 256 := fun b hb => hx b (List.mem_cons_of_mem _ hb)
      have hys : ∀ b ∈ ys, b < 256 := fun b hb => hy b (List.mem_cons_of_mem _ hb)
      have bx := magnitude_lt xs hxs
      have b_y := magnitude_lt ys hys
      rw [hl'] at bx
      simp only [compare_bytes, magnitude_cons, hl']
      by_cases h1 : x < y
      · have := digit_order x y (256 ^ ys.length) _ (Natural.magnitude ⟨ys⟩) bx h1
        rw [if_pos h1, if_pos this]
      · rw [if_neg h1]
        by_cases h2 : y < x
        · have := digit_order y x (256 ^ ys.length) _ (Natural.magnitude ⟨xs⟩) b_y h2
          rw [if_pos h2, if_neg (by omega), if_pos this]
        · have hxy : x = y := by omega
          subst hxy
          rw [if_neg h2, ih ys hl' hxs hys]
          simp only [Nat.add_lt_add_iff_left]

theorem valid_magnitude_lower (n : Natural) (h : n.Valid) (hl : 1 < n.natural.length) :
    256 ^ (n.natural.length - 1) ≤ n.magnitude := by
  obtain ⟨_, h1 | ⟨b, bs, e, hb⟩⟩ := h
  · omega
  · have e' : n = ⟨b :: bs⟩ := by cases n; simpa using e
    rw [e', magnitude_cons]
    simp only [List.length_cons, Nat.add_sub_cancel]
    have : 1 * 256 ^ bs.length ≤ b * 256 ^ bs.length := Nat.mul_le_mul_right _ (by omega)
    omega

theorem valid_length_pos (n : Natural) (h : n.Valid) : 0 < n.natural.length := by
  obtain ⟨_, h1 | ⟨b, bs, e, hb⟩⟩ := h
  · omega
  · rw [e]; simp

theorem magnitude_lt_of_length_lt (a b : Natural) (ha : a.Valid) (hb : b.Valid)
    (hl : a.natural.length < b.natural.length) : a.magnitude < b.magnitude := by
  have h1 := magnitude_lt a.natural ha.1
  have h2 := valid_magnitude_lower b hb (by have := valid_length_pos a ha; omega)
  have h3 : 256 ^ a.natural.length ≤ 256 ^ (b.natural.length - 1) :=
    Nat.pow_le_pow_right (by decide) (by omega)
  have e : (⟨a.natural⟩ : Natural) = a := rfl
  rw [e] at h1
  omega

theorem compare_spec (a b : Natural) (ha : a.Valid) (hb : b.Valid) :
    a.compare b =
      if a.magnitude < b.magnitude then -1 else if b.magnitude < a.magnitude then 1 else 0 := by
  unfold Natural.compare
  by_cases h1 : a.natural.length < b.natural.length
  · rw [if_pos h1, if_pos (magnitude_lt_of_length_lt a b ha hb h1)]
  · rw [if_neg h1]
    by_cases h2 : b.natural.length < a.natural.length
    · have := magnitude_lt_of_length_lt b a hb ha h2
      rw [if_pos h2, if_neg (by omega), if_pos this]
    · rw [if_neg h2]
      exact compare_bytes_spec a.natural b.natural (by omega) ha.1 hb.1

theorem compare_eq_zero (a b : Natural) (h : a.compare b = 0) : a = b := by
  unfold Natural.compare at h
  split at h
  · simp at h
  · split at h
    · simp at h
    · have := compare_bytes_eq_zero a.natural b.natural (by omega) h
      cases a; cases b; simpa using this

theorem valid_eq_of_magnitude_eq (a b : Natural) (ha : a.Valid) (hb : b.Valid)
    (h : a.magnitude = b.magnitude) : a = b := by
  apply compare_eq_zero
  rw [compare_spec a b ha hb, if_neg (by omega), if_neg (by omega)]

theorem magnitude_reverse (xs : List Nat) : Natural.magnitude ⟨xs.reverse⟩ = le_value xs := by
  simp [Natural.magnitude]

theorem add_assign_magnitude (a b : Natural) :
    (a.operator_add_assign b).magnitude = a.magnitude + b.magnitude := by
  unfold Natural.operator_add_assign
  rw [skip_leading_zeros_magnitude, magnitude_reverse, le_value_add_carry]
  rfl

theorem add_assign_valid (a b : Natural) (ha : a.Valid) (hb : b.Valid) :
    (a.operator_add_assign b).Valid := by
  unfold Natural.operator_add_assign
  apply skip_leading_zeros_valid
  intro d hd
  rw [List.mem_reverse] at hd
  exact add_carry_bytes _ _ 0 (fun x hx => ha.1 x (List.mem_reverse.mp hx))
    (fun x hx => hb.1 x (List.mem_reverse.mp hx)) (by omega) d hd

theorem sub_borrow_final (a b : Natural) (ha : a.Valid) (hb : b.Valid) :
    ((sub_borrow a.natural.reverse b.natural.reverse 0).2 = 0 ∧
        b.magnitude ≤ a.magnitude ∧
        le_value (sub_borrow a.natural.reverse b.natural.reverse 0).1 =
          a.magnitude - b.magnitude) ∨
      ((sub_borrow a.natural.reverse b.natural.reverse 0).2 = 1 ∧ a.magnitude < b.magnitude) := by
  have hra : ∀ x ∈ a.natural.reverse, x < 256 := fun x hx => ha.1 x (List.mem_reverse.mp hx)
  have hrb : ∀ x ∈ b.natural.reverse, x < 256 := fun x hx => hb.1 x (List.mem_reverse.mp hx)
  obtain ⟨h1, h2⟩ := le_value_sub_borrow a.natural.reverse b.natural.reverse 0 hra hrb (by omega)
  have h3 := le_value_lt _ (sub_borrow_bytes a.natural.reverse b.natural.reverse 0)
  rw [sub_borrow_length] at h3
  have h4 := le_value_lt _ hrb
  have h5 : 256 ^ b.natural.reverse.length ≤
      256 ^ (max a.natural.reverse.length b.natural.reverse.length) :=
    Nat.pow_le_pow_right (by decide) (le_max_right _ _)
  show _ ∨ (_ ∧ le_value a.natural.reverse < le_value b.natural.reverse)
  unfold Natural.magnitude
  generalize (sub_borrow a.natural.reverse b.natural.reverse 0).2 = bo at *
  generalize le_value (sub_borrow a.natural.reverse b.natural.reverse 0).1 = r at *
  generalize 256 ^ (max a.natural.reverse.length b.natural.reverse.length) = P at *
  have hbo : bo = 0 ∨ bo = 1 := by omega
  rcases hbo with hbo | hbo
  · subst hbo
    left
    simp only [Nat.mul_zero] at h1
    omega
  · subst hbo
    right
    simp only [Nat.mul_one] at h1
    omega

theorem sub_assign_of_le (a b : Natural) (ha : a.Valid) (hb : b.Valid)
    (h : b.magnitude ≤ a.magnitude) :
    ∃ s, a.operator_sub_assign b = Except.ok s ∧ s.Valid ∧
      s.magnitude = a.magnitude - b.magnitude := by
  rcases sub_borrow_final a b ha hb with ⟨h0, _, hv⟩ | ⟨_, hlt⟩
  · refine ⟨_, by unfold Natural.operator_sub_assign; rw [if_pos h0], ?_, ?_⟩
    · apply skip_leading_zeros_valid
      intro d hd
      exact sub_borrow_bytes _ _ 0 d (List.mem_reverse.mp hd)
    · rw [skip_leading_zeros_magnitude, magnitude_reverse, hv]
  · omega

theorem sub_assign_of_lt (a b : Natural) (ha : a.Valid) (hb : b.Valid)
    (h : a.magnitude < b.magnitude) :
    a.operator_sub_assign b = Except.error DatumError.UnderflowError := by
  rcases sub_borrow_final a b ha hb with ⟨_, hle, _⟩ | ⟨h1, _⟩
  · omega
  · unfold Natural.operator_sub_assign
    rw [if_neg (by omega)]

theorem long_division_spec (d : Nat) (hd : 0 < d) (xs : List Nat) (hx : ∀ b ∈ xs, b < 256) :
    le_value (long_division d xs).1 = le_value xs / d ∧
      (long_division d xs).2 = le_value xs % d ∧
      ∀ b ∈ (long_division d xs).1, b < 256 := by
  induction xs with
  | nil => simp [long_division, le_value]
  | cons x xs ih =>
    have hx0 : x < 256 := hx x (List.mem_cons_self _ _)
    obtain ⟨h1, h2, h3⟩ := ih (fun b hb => hx b (List.mem_cons_of_mem _ hb))
    have hr : le_value xs % d < d := Nat.mod_lt _ hd
    have hsplit : x + 256 * le_value xs =
        (le_value xs % d * 256 + x) + d * (256 * (le_value xs / d)) := by
      have := Nat.div_add_mod (le_value xs) d
      calc x + 256 * le_value xs
          = x + 256 * (d * (le_value xs / d) + le_value xs % d) := by rw [this]
        _ = (le_value xs % d * 256 + x) + d * (256 * (le_value xs / d)) := by ring
    simp only [long_division, le_value, h1, h2]
    refine ⟨?_, ?_, ?_⟩
    · rw [hsplit, Nat.add_mul_div_left _ _ hd]
    · rw [hsplit, Nat.add_mul_mod_self_left]
    · intro b hb
      rcases List.mem_cons.mp hb with hb | hb
      · rw [hb]
        apply Nat.div_lt_of_lt_mul
        have : (le_value xs % d + 1) * 256 ≤ d * 256 := Nat.mul_le_mul_right _ hr
        have e : (le_value xs % d + 1) * 256 = le_value xs % d * 256 + 256 := by ring
        omega
      · exact h3 b hb

theorem be_bytes_length (k m : Nat) : (be_bytes k m).length = k := by
  induction k with
  | zero => rfl
  | succ k ih => simp [be_bytes, ih]

theorem be_bytes_lt (k m : Nat) : ∀ b ∈ be_bytes k m, b < 256 := by
  induction k with
  | zero => simp [be_bytes]
  | succ k ih =>
    intro b hb
    rcases List.mem_cons.mp hb with hb | hb
    · rw [hb]; exact Nat.mod_lt _ (by decide)
    · exact ih b hb

theorem be_bytes_magnitude (k m : Nat) : Natural.magnitude ⟨be_bytes k m⟩ = m % 256 ^ k := by
  induction k with
  | zero => simp [be_bytes, Natural.magnitude, le_value, Nat.mod_one]
  | succ k ih =>
    rw [be_bytes, magnitude_cons, ih, be_bytes_length, Nat.mod_pow_succ]
    ring

theorem valid_magnitude_pos (b : Natural) (hb : b.Valid) (hz : b.is_zero = false) :
    0 < b.magnitude := by
  obtain ⟨hbytes, h1 | ⟨c, cs, e, hc⟩⟩ := hb
  · match b, h1, hz with
    | ⟨[c]⟩, _, hz =>
      have : c ≠ 0 := by
        intro h0
        subst h0
        simp [Natural.is_zero] at hz
      simp only [Natural.magnitude, List.reverse_singleton, le_value]
      omega
  · have e' : b = ⟨c :: cs⟩ := by cases b; simpa using e
    rw [e', magnitude_cons]
    have : 1 * 256 ^ cs.length ≤ c * 256 ^ cs.length := Nat.mul_le_mul_right _ (by omega)
    have : 0 < 256 ^ cs.length := Nat.pos_pow_of_pos _ (by decide)
    omega

theorem quotient_spec (a b : Natural) (ha : a.Valid) (hpos : 0 < b.magnitude) :
    (a.quotient b).Valid ∧ (a.quotient b).magnitude = a.magnitude / b.magnitude := by
  have hra : ∀ x ∈ a.natural.reverse, x < 256 := fun x hx => ha.1 x (List.mem_reverse.mp hx)
  obtain ⟨h1, _, h3⟩ := long_division_spec b.magnitude hpos a.natural.reverse hra
  unfold Natural.quotient
  constructor
  · apply skip_leading_zeros_valid
    intro d hd
    exact h3 d (List.mem_reverse.mp hd)
  · rw [skip_leading_zeros_magnitude, magnitude_reverse, h1]
    rfl

theorem remainder_spec (a b : Natural) (ha : a.Valid) (hb : b.Valid) (hpos : 0 < b.magnitude) :
    (a.remainder b).Valid ∧ (a.remainder b).magnitude = a.magnitude % b.magnitude := by
  have hra : ∀ x ∈ a.natural.reverse, x < 256 := fun x hx => ha.1 x (List.mem_reverse.mp hx)
  obtain ⟨_, h2, _⟩ := long_division_spec b.magnitude hpos a.natural.reverse hra
  unfold Natural.remainder
  constructor
  · exact skip_leading_zeros_valid _ (be_bytes_lt _ _)
  · rw [skip_leading_zeros_magnitude, be_bytes_magnitude, h2]
    have hlt : le_value a.natural.reverse % b.magnitude < 256 ^ b.natural.length :=
      lt_trans (Nat.mod_lt _ hpos) (magnitude_lt b.natural hb.1)
    rw [Nat.mod_eq_of_lt hlt]
    rfl

theorem and_128 (x : Nat) : x &&& 128 = x / 128 % 2 * 128 := by
  have h := Nat.and_two_pow x 7
  rw [Nat.testBit_to_div_mod] at h
  norm_num at h
  rw [h]
  by_cases hx : x / 128 % 2 = 1
  · simp [hx]
  · have : x / 128 % 2 = 0 := by omega
    simp [this]

theorem and_127 (x : Nat) : x &&& 127 = x % 128 := Nat.and_pow_two_sub_one_eq_mod x 7

theorem or_128 (n : Nat) (h : n < 128) : 128 ||| n = 128 + n := by
  have := Nat.mul_add_lt_is_or (show n < 2 ^ 7 by simpa using h) 1
  simpa using this.symm

theorem skip_leading_zeros_length_pos (bs : List Nat) : 0 < (skip_leading_zeros bs).length := by
  rcases skip_leading_zeros_shape bs with h | ⟨b, rest, e, _⟩
  · omega
  · rw [e]; simp

theorem skip_leading_zeros_length_le (bs : List Nat) (h : 0 < bs.length) :
    (skip_leading_zeros bs).length ≤ bs.length := by
  induction bs with
  | nil => simp at h
  | cons a bs ih =>
    cases bs with
    | nil => simp [skip_leading_zeros]
    | cons b bs =>
      cases a with
      | zero =>
        simp only [skip_leading_zeros]
        have := ih (by simp)
        simp only [List.length_cons] at this ⊢
        omega
      | succ a => simp [skip_leading_zeros]

theorem getElem_append_cons (before : List Nat) (x : Nat) (rest : List Nat) :
    (before ++ x :: rest).get? before.length = some x := by
  induction before with
  | nil => rfl
  | cons b bs ih => simpa using ih

theorem length_round_trip (n : Nat) (hn : n < 18446744073709551616) (before after : octets) :
    asn_octets_to_length (before ++ asn_length_to_octets n ++ after) before.length =
      Except.ok (n, before.length + (asn_length_to_octets n).length) := by
  unfold asn_length_to_octets
  by_cases h : n < 128
  · rw [if_pos h]
    unfold asn_octets_to_length
    have hget : (before ++ [n] ++ after).get? before.length = some n := by
      have := getElem_append_cons before n after
      simpa using this
    rw [hget]
    simp only
    have h1 : n &&& 128 = 0 := by rw [and_128]; omega
    have h2 : n &&& 127 = n := by rw [and_127]; omega
    rw [if_pos h1, h2]
    simp
  · rw [if_neg h]
    unfold asn_octets_to_length
    generalize hc : skip_leading_zeros (be_bytes 8 n) = content
    have hpos : 0 < content.length := by rw [← hc]; exact skip_leading_zeros_length_pos _
    have hle : content.length ≤ 8 := by
      rw [← hc]
      have := skip_leading_zeros_length_le (be_bytes 8 n) (by rw [be_bytes_length]; decide)
      rwa [be_bytes_length] at this
    have hmag : Natural.magnitude ⟨content⟩ = n := by
      rw [← hc, skip_leading_zeros_magnitude, be_bytes_magnitude]
      exact Nat.mod_eq_of_lt (by norm_num; exact hn)
    have hfirst : 128 ||| content.length = 128 + content.length := or_128 _ (by omega)
    rw [hfirst]
    have hget : (before ++ (128 + content.length) :: content ++ after).get? before.length =
        some (128 + content.length) := by
      have := getElem_append_cons before (128 + content.length) (content ++ after)
      simpa using this
    rw [hget]
    simp only
    have h1 : (128 + content.length) &&& 128 ≠ 0 := by rw [and_128]; omega
    have h2 : (128 + content.length) &&& 127 = content.length := by rw [and_127]; omega
    rw [if_neg h1, h2, if_neg (by omega), if_neg (by simp; omega)]
    have hdrop : List.take content.length
        (List.drop (before.length + 1) (before ++ (128 + content.length) :: content ++ after)) =
        content := by
      have e : before ++ (128 + content.length) :: content ++ after =
          (before ++ [128 + content.length]) ++ (content ++ after) := by simp
      rw [e, List.drop_append_of_le_length (by simp)]
      simp
    rw [hdrop, hmag]
    simp only [List.length_cons]
    congr 2
    omega

theorem unbox_box (tag : Nat) (content : octets) (h : content.length < 18446744073709551616) :
    asn_octets_unbox (asn_octets_box tag content content.length) 0 =
      Except.ok (content.length, 1 + (asn_length_to_octets content.length).length) ∧
    (asn_octets_box tag content content.length).drop
        (1 + (asn_length_to_octets content.length).length) = content ∧
    (asn_octets_box tag content content.length).length =
      1 + (asn_length_to_octets content.length).length + content.length := by
  have hl := length_round_trip content.length h [tag] content
  simp only [List.length_singleton, List.singleton_append, List.cons_append,
    List.nil_append] at hl
  unfold asn_octets_unbox asn_octets_box
  simp only [List.take_length, Nat.zero_add]
  rw [hl]
  refine ⟨?_, ?_, ?_⟩
  · simp only
    rw [if_neg (by simp; omega)]
  · rw [Nat.add_comm 1, List.drop_succ_cons, List.drop_left]
  · simp only [List.length_cons, List.length_append]
    omega

theorem fixnum_strip_value (l : List Nat) (h : ∀ b ∈ l, b < 256) :
    fixnum_value (fixnum_strip l) = fixnum_value l := by
  induction l with
  | nil => rfl
  | cons a l ih =>
    cases l with
    | nil => unfold fixnum_strip; split <;> simp_all
    | cons b bs =>
      have hb : b < 256 := h b (by simp)
      have ih' := ih (fun x hx => h x (List.mem_cons_of_mem _ hx))
      by_cases h0 : a = 0
      · subst h0
        rw [fixnum_strip]
        split
        · rename_i hlt
          rw [ih']
          unfold fixnum_value
          simp only [List.headD_cons, List.length_cons]
          rw [if_neg (by omega), if_neg (by omega), magnitude_cons 0]
          simp
        · rfl
      · by_cases h255 : a = 255
        · subst h255
          rw [fixnum_strip]
          split
          · rename_i hge
            rw [ih']
            unfold fixnum_value
            simp only [List.headD_cons, List.length_cons]
            rw [if_pos hge, if_pos (by omega), magnitude_cons 255]
            simp only [List.length_cons]
            push_cast
            ring
          · rfl
        · rw [fixnum_strip]
          · intro b' bs' e
            simp only [List.cons.injEq] at e
            omega
          · intro b' bs' e
            simp only [List.cons.injEq] at e
            omega

theorem fixnum_value_be_bytes (n : Int) (h1 : -9223372036854775808 ≤ n)
    (h2 : n < 9223372036854775808) :
    fixnum_value (be_bytes 8 (n % 18446744073709551616).toNat) = n := by
  unfold fixnum_value
  rw [be_bytes_magnitude, be_bytes_length]
  have hh : (be_bytes 8 (n % 18446744073709551616).toNat).headD 0 =
      (n % 18446744073709551616).toNat / 256 ^ 7 % 256 := rfl
  rw [hh]
  norm_num
  split <;> omega

theorem fixnum_strip_length_le (l : List Nat) : (fixnum_strip l).length ≤ l.length := by
  induction l with
  | nil => simp [fixnum_strip]
  | cons a l ih =>
    cases l with
    | nil => unfold fixnum_strip; split <;> simp_all
    | cons b bs =>
      by_cases h0 : a = 0
      · subst h0
        rw [fixnum_strip]
        split
        · exact Nat.le_succ_of_le ih
        · exact Nat.le_refl _
      · by_cases h255 : a = 255
        · subst h255
          rw [fixnum_strip]
          split
          · exact Nat.le_succ_of_le ih
          · exact Nat.le_refl _
        · rw [fixnum_strip]
          · intro b' bs' e
            simp only [List.cons.injEq] at e
            omega
          · intro b' bs' e
            simp only [List.cons.injEq] at e
            omega

theorem valid_cons (b : Nat) (bs : List Nat) (hb : b ≠ 0) (h : ∀ x ∈ b :: bs, x < 256) :
    Natural.Valid ⟨b :: bs⟩ :=
  ⟨h, Or.inr ⟨b, bs, rfl, hb⟩⟩

theorem valid_single (b : Nat) (h : b < 256) : Natural.Valid ⟨[b]⟩ :=
  ⟨fun x hx => by rw [List.mem_singleton.mp hx]; exact h, Or.inl rfl⟩

theorem compare_self (a : Natural) (ha : a.Valid) : a.compare a = 0 := by
  rw [compare_spec a a ha ha, if_neg (Nat.lt_irrefl _), if_neg (Nat.lt_irrefl _)]

theorem compare_neg (a b : Natural) (ha : a.Valid) (hb : b.Valid) (h : a.compare b < 0) :
    a.magnitude < b.magnitude := by
  rw [compare_spec a b ha hb] at h
  by_contra hlt
  rw [if_neg hlt] at h
  split at h <;> omega

theorem is_zero_of_magnitude (z : Natural) (hz : z.Valid) (h0 : z.magnitude = 0) :
    z.is_zero = true := by
  have e : z = ⟨[0]⟩ :=
    valid_eq_of_magnitude_eq z ⟨[0]⟩ hz (valid_single 0 (by decide)) (by rw [h0]; rfl)
  rw [e]
  rfl

/-! ## The claims on the constructors, the Natural and the codec -/

/-- C11: with the key schedule modelled from the specification, constructing a `BlowfishCipher`
from a pointer and the size zero fails with `InvalidKeyError`, and so does constructing it from
a byte string and offsets for which the key length the constructor computes,
`((end <= start) ? key.size() : end) - start`, is zero (an empty string with both offsets 0 in
particular). -/
theorem invalid_key_error (derive : Buffer → Nat → BFBox) :
    (∀ key : Buffer,
      BlowfishCipher.create derive key 0 = Except.error CipherError.InvalidKeyError) ∧
    ∀ (key : List Nat) (start endpos : Nat),
      ((if endpos ≤ start then key.length else endpos) + 18446744073709551616 - start) %
        18446744073709551616 = 0 →
      BlowfishCipher.create_from_bytes derive key start endpos =
        Except.error CipherError.InvalidKeyError := by
  constructor
  · intro key
    simp [BlowfishCipher.create, blowfish_initiate_boxes]
  · intro key start endpos h
    unfold BlowfishCipher.create_from_bytes
    rw [h]
    simp [BlowfishCipher.create, blowfish_initiate_boxes]

/-- Instance of C11: the empty byte string with both offsets 0. -/
theorem invalid_key_error_witness :
    ((if (0 : Nat) ≤ 0 then ([] : List Nat).length else 0) + 18446744073709551616 - 0) %
      18446744073709551616 = 0 ∧
    BlowfishCipher.create_from_bytes (fun _ _ => sample_box) [] 0 0 =
      Except.error CipherError.InvalidKeyError :=
  ⟨by decide, (invalid_key_error (fun _ _ => sample_box)).2 [] 0 0 (by decide)⟩

/-- C12: for every Natural `a` and every non-zero Natural `b`, `a / b` and `a % b` succeed and
are the quotient and the remainder of the magnitudes: `(a / b) * b + (a % b)` has the magnitude
of `a`, and `a % b` is below `b`. `operator%=`, which calls `quotient_remainder` with the
receiver as the remainder output, leaves the receiver equal to that remainder. -/
theorem quotient_and_remainder (a b : Natural) (ha : a.Valid) (hb : b.Valid)
    (hz : b.is_zero = false) :
    ∃ q r, a.operator_div b = Except.ok q ∧ a.operator_mod b = Except.ok r ∧
      q.Valid ∧ r.Valid ∧
      q.magnitude * b.magnitude + r.magnitude = a.magnitude ∧ r.magnitude < b.magnitude ∧
      ∀ (heap : Heap) (self : Nat), heap self = a →
        ∃ heap', Natural.operator_mod_assign heap self b = Except.ok heap' ∧ heap' self = r := by
  have hpos := valid_magnitude_pos b hb hz
  obtain ⟨hqv, hqm⟩ := quotient_spec a b ha hpos
  obtain ⟨hrv, hrm⟩ := remainder_spec a b ha hb hpos
  refine ⟨a.quotient b, a.remainder b, ?_, ?_, hqv, hrv, ?_, ?_, ?_⟩
  · simp [Natural.operator_div, Natural.operator_div_assign, Natural.quotient_remainder, hz]
  · simp [Natural.operator_mod, Natural.operator_mod_assign, Natural.quotient_remainder, hz]
  · rw [hqm, hrm]
    exact Nat.div_add_mod' _ _
  · rw [hrm]
    exact Nat.mod_lt _ hpos
  · intro heap self hself
    refine ⟨Function.update (Function.update heap self ((heap self).quotient b)) self
      ((heap self).remainder b), ?_, ?_⟩
    · unfold Natural.operator_mod_assign Natural.quotient_remainder
      rw [if_neg (by simp [hz])]
    · rw [Function.update_same, hself]

/-- Instance of C12: 65536 divided by 7. -/
theorem quotient_and_remainder_witness :
    Natural.Valid ⟨[1, 0, 0]⟩ ∧ Natural.Valid ⟨[7]⟩ ∧ Natural.is_zero ⟨[7]⟩ = false ∧
    ∃ q r, Natural.operator_div ⟨[1, 0, 0]⟩ ⟨[7]⟩ = Except.ok q ∧
      Natural.operator_mod ⟨[1, 0, 0]⟩ ⟨[7]⟩ = Except.ok r ∧
      q.Valid ∧ r.Valid ∧
      q.magnitude * Natural.magnitude ⟨[7]⟩ + r.magnitude = Natural.magnitude ⟨[1, 0, 0]⟩ ∧
      r.magnitude < Natural.magnitude ⟨[7]⟩ ∧
      ∀ (heap : Heap) (self : Nat), heap self = ⟨[1, 0, 0]⟩ →
        ∃ heap', Natural.operator_mod_assign heap self ⟨[7]⟩ = Except.ok heap' ∧
          heap' self = r :=
  ⟨valid_cons 1 [0, 0] (by decide) (by decide), valid_single 7 (by decide), rfl,
    quotient_and_remainder ⟨[1, 0, 0]⟩ ⟨[7]⟩ (valid_cons 1 [0, 0] (by decide) (by decide))
      (valid_single 7 (by decide)) rfl⟩

/-- C13: whatever `compare` answers for a pair of operands, exactly one of `a < b`, `a == b`,
`a > b` holds, `a <= b` iff not `a > b`, `a >= b` iff not `a < b`, `a != b` iff not `a == b`;
the same holds for the overloads with the machine integer on the left, and each of these gives
the answer of the mirrored overload with the Natural on the left (`n < a` iff `a > n`). -/
theorem ordering_operators {α β : Type} (compare : α → β → Int) (a : α) (b : β) :
    ((operator_lt compare a b = true ∨ operator_eq compare a b = true ∨
        operator_gt compare a b = true) ∧
      ¬(operator_lt compare a b = true ∧ operator_eq compare a b = true) ∧
      ¬(operator_lt compare a b = true ∧ operator_gt compare a b = true) ∧
      ¬(operator_eq compare a b = true ∧ operator_gt compare a b = true)) ∧
    (operator_le compare a b = true ↔ ¬operator_gt compare a b = true) ∧
    (operator_ge compare a b = true ↔ ¬operator_lt compare a b = true) ∧
    (operator_ne compare a b = true ↔ ¬operator_eq compare a b = true) ∧
    ((operator_lt_left compare b a = true ∨ operator_eq_left compare b a = true ∨
        operator_gt_left compare b a = true) ∧
      ¬(operator_lt_left compare b a = true ∧ operator_eq_left compare b a = true) ∧
      ¬(operator_lt_left compare b a = true ∧ operator_gt_left compare b a = true) ∧
      ¬(operator_eq_left compare b a = true ∧ operator_gt_left compare b a = true)) ∧
    (operator_le_left compare b a = true ↔ ¬operator_gt_left compare b a = true) ∧
    (operator_ge_left compare b a = true ↔ ¬operator_lt_left compare b a = true) ∧
    (operator_ne_left compare b a = true ↔ ¬operator_eq_left compare b a = true) ∧
    operator_lt_left compare b a = operator_gt compare a b ∧
    operator_gt_left compare b a = operator_lt compare a b ∧
    operator_eq_left compare b a = operator_eq compare a b ∧
    operator_le_left compare b a = operator_ge compare a b ∧
    operator_ge_left compare b a = operator_le compare a b ∧
    operator_ne_left compare b a = operator_ne compare a b := by
  refine ⟨⟨?_, ?_, ?_, ?_⟩, ?_, ?_, ?_, ⟨?_, ?_, ?_, ?_⟩, ?_, ?_, ?_,
    rfl, rfl, rfl, rfl, rfl, rfl⟩ <;>
  simp only [operator_lt, operator_eq, operator_gt, operator_le, operator_ge, operator_ne,
    operator_lt_left, operator_eq_left, operator_gt_left, operator_le_left, operator_ge_left,
    operator_ne_left, decide_eq_true_eq] <;>
  omega

/-- C14: for every length `n` that fits `size_t`, so for every length representable in 32 bits,
decoding the encoding of `n` returns `n`, and the cursor advances by exactly the number of
encoded bytes, from offset 0 of the encoding alone and from any offset at which the encoding
lies inside a longer octet sequence. -/
theorem length_codec_round_trip (n : Nat) (hn : n < 18446744073709551616) :
    asn_octets_to_length (asn_length_to_octets n) 0 =
      Except.ok (n, (asn_length_to_octets n).length) ∧
    ∀ before after : octets,
      asn_octets_to_length (before ++ asn_length_to_octets n ++ after) before.length =
        Except.ok (n, before.length + (asn_length_to_octets n).length) := by
  refine ⟨?_, length_round_trip n hn⟩
  have h := length_round_trip n hn [] []
  simpa using h

/-- Instance of C14: the length 65535. -/
theorem length_codec_round_trip_witness :
    (65535 : Nat) < 18446744073709551616 ∧
    asn_octets_to_length (asn_length_to_octets 65535) 0 =
      Except.ok (65535, (asn_length_to_octets 65535).length) :=
  ⟨by decide, (length_codec_round_trip 65535 (by decide)).1⟩

/-- C15: for every 64-bit signed integer `n`, the minimum and the maximum included,
`asn_octets_to_fixnum(asn_fixnum_to_octets(n))` returns `n`, with the cursor at the end of the
encoding. -/
theorem fixnum_round_trip (n : Int) (h1 : -9223372036854775808 ≤ n)
    (h2 : n < 9223372036854775808) :
    asn_octets_to_fixnum (asn_fixnum_to_octets n) 0 =
      Except.ok (n, (asn_fixnum_to_octets n).length) := by
  unfold asn_octets_to_fixnum asn_fixnum_to_octets
  generalize hc : fixnum_strip (be_bytes 8 (n % 18446744073709551616).toNat) = content
  have hlen : content.length < 18446744073709551616 := by
    have := fixnum_strip_length_le (be_bytes 8 (n % 18446744073709551616).toNat)
    rw [hc, be_bytes_length] at this
    omega
  obtain ⟨hu, hd, hl⟩ := unbox_box 2 content hlen
  rw [hu]
  simp only
  rw [hd, List.take_length, hl, ← hc, fixnum_strip_value _ (be_bytes_lt _ _),
    fixnum_value_be_bytes n h1 h2]

/-- Instance of C15: the minimum 64-bit signed integer. -/
theorem fixnum_round_trip_witness :
    (-9223372036854775808 : Int) ≤ -9223372036854775808 ∧
    (-9223372036854775808 : Int) < 9223372036854775808 ∧
    asn_octets_to_fixnum (asn_fixnum_to_octets (-9223372036854775808)) 0 =
      Except.ok (-9223372036854775808, (asn_fixnum_to_octets (-9223372036854775808)).length) :=
  ⟨by decide, by decide, fixnum_round_trip (-9223372036854775808) (by decide) (by decide)⟩

/-- C16: for every Natural `n` whose most significant magnitude bit is set, the encoding is the
tag, the length of the content and the content made of one extra zero byte followed by the
bytes of `n`, and decoding that encoding returns `n`, with the cursor at the end of the
encoding. -/
theorem natural_round_trip (n : Natural) (hv : n.Valid) (htop : 128 ≤ n.natural.headD 0)
    (hlen : n.natural.length + 1 < 18446744073709551616) :
    asn_natural_to_octets n =
      2 :: (asn_length_to_octets (n.natural.length + 1) ++ 0 :: n.natural) ∧
    asn_octets_to_natural (asn_natural_to_octets n) 0 =
      Except.ok (n, (asn_natural_to_octets n).length) := by
  have hcontent : asn_natural_content n = 0 :: n.natural := by
    unfold asn_natural_content Natural.to_bytes
    rw [if_pos htop]
  have hclen : (asn_natural_content n).length = n.natural.length + 1 := by
    rw [hcontent]; rfl
  constructor
  · unfold asn_natural_to_octets asn_octets_box
    rw [List.take_length, hclen, hcontent]
  · unfold asn_octets_to_natural asn_natural_to_octets
    obtain ⟨hu, hd, hl⟩ := unbox_box 2 (asn_natural_content n) (by rw [hclen]; exact hlen)
    rw [hu]
    simp only
    have hget : (asn_octets_box 2 (asn_natural_content n) (asn_natural_content n).length).getD
        (1 + (asn_length_to_octets (asn_natural_content n).length).length) 1 = 0 := by
      rw [List.getD_eq_getElem?_getD, ← List.head?_drop, hd, hcontent]
      rfl
    rw [if_pos hget, hl]
    congr 2
    unfold Natural.from_memory
    have hdrop : (asn_octets_box 2 (asn_natural_content n) (asn_natural_content n).length).drop
        (1 + (asn_length_to_octets (asn_natural_content n).length).length + 1) = n.natural := by
      rw [← List.drop_drop, hd, hcontent]
      rfl
    rw [hdrop]
    have htake : List.take (1 + (asn_length_to_octets (asn_natural_content n).length).length +
        (asn_natural_content n).length -
        (1 + (asn_length_to_octets (asn_natural_content n).length).length + 1)) n.natural =
        n.natural := by
      apply List.take_of_length_le
      rw [hclen]
      omega
    rw [htake, skip_leading_zeros_of_valid n hv]

/-- Instance of C16: the Natural with the bytes `FF 01`. -/
theorem natural_round_trip_witness :
    Natural.Valid ⟨[255, 1]⟩ ∧ 128 ≤ (Natural.mk [255, 1]).natural.headD 0 ∧
    (Natural.mk [255, 1]).natural.length + 1 < 18446744073709551616 ∧
    asn_natural_to_octets ⟨[255, 1]⟩ =
      2 :: (asn_length_to_octets ((Natural.mk [255, 1]).natural.length + 1) ++
        0 :: (Natural.mk [255, 1]).natural) ∧
    asn_octets_to_natural (asn_natural_to_octets ⟨[255, 1]⟩) 0 =
      Except.ok (⟨[255, 1]⟩, (asn_natural_to_octets ⟨[255, 1]⟩).length) :=
  ⟨valid_cons 255 [1] (by decide) (by decide), by decide, by decide,
    natural_round_trip ⟨[255, 1]⟩ (valid_cons 255 [1] (by decide) (by decide)) (by decide)
      (by decide)⟩

/-- C17: for all Naturals `a` and `b`, `(a + b) - b` succeeds and its result compares equal
to `a`. -/
theorem add_then_sub_cancels (a b : Natural) (ha : a.Valid) (hb : b.Valid) :
    ∃ s, (a.operator_add b).operator_sub b = Except.ok s ∧
      operator_eq Natural.compare s a = true := by
  have hv := add_assign_valid a b ha hb
  have hm := add_assign_magnitude a b
  obtain ⟨s, hs, hsv, hsm⟩ := sub_assign_of_le (a.operator_add_assign b) b hv hb (by omega)
  refine ⟨s, hs, ?_⟩
  have e : s = a := valid_eq_of_magnitude_eq s a hsv ha (by omega)
  rw [e]
  simp [operator_eq, compare_self a ha]

/-- Instance of C17: `(65535 + 1) - 1`. -/
theorem add_then_sub_cancels_witness :
    Natural.Valid ⟨[255, 255]⟩ ∧ Natural.Valid ⟨[1]⟩ ∧
    ∃ s, (Natural.operator_add ⟨[255, 255]⟩ ⟨[1]⟩).operator_sub ⟨[1]⟩ = Except.ok s ∧
      operator_eq Natural.compare s ⟨[255, 255]⟩ = true :=
  ⟨valid_cons 255 [255] (by decide) (by decide), valid_single 1 (by decide),
    add_then_sub_cancels ⟨[255, 255]⟩ ⟨[1]⟩ (valid_cons 255 [255] (by decide) (by decide))
      (valid_single 1 (by decide))⟩

/-- C18: for all Naturals `a` and `b` with `a < b`, `a - b` and `a -= b` fail with
`UnderflowError`. -/
theorem sub_underflow (a b : Natural) (ha : a.Valid) (hb : b.Valid)
    (hlt : operator_lt Natural.compare a b = true) :
    a.operator_sub b = Except.error DatumError.UnderflowError ∧
      a.operator_sub_assign b = Except.error DatumError.UnderflowError := by
  have h : a.compare b < 0 := by simpa [operator_lt] using hlt
  have hm := compare_neg a b ha hb h
  exact ⟨sub_assign_of_lt a b ha hb hm, sub_assign_of_lt a b ha hb hm⟩

/-- Instance of C18: `1 - 256`. -/
theorem sub_underflow_witness :
    Natural.Valid ⟨[1]⟩ ∧ Natural.Valid ⟨[1, 0]⟩ ∧
    operator_lt Natural.compare (Natural.mk [1]) (Natural.mk [1, 0]) = true ∧
    Natural.operator_sub ⟨[1]⟩ ⟨[1, 0]⟩ = Except.error DatumError.UnderflowError ∧
    Natural.operator_sub_assign ⟨[1]⟩ ⟨[1, 0]⟩ = Except.error DatumError.UnderflowError :=
  ⟨valid_single 1 (by decide), valid_cons 1 [0] (by decide) (by decide), by decide,
    sub_underflow ⟨[1]⟩ ⟨[1, 0]⟩ (valid_single 1 (by decide))
      (valid_cons 1 [0] (by decide) (by decide)) (by decide)⟩

/-- C19: for every Natural `a` and every Natural `z` of magnitude zero, `a / z`, `a % z` and
every call of `quotient_remainder` with the divider `z` fail with `DivisionByZeroError`. -/
theorem division_by_zero (a z : Natural) (hz : z.Valid) (h0 : z.magnitude = 0) :
    a.operator_div z = Except.error DatumError.DivisionByZeroError ∧
    a.operator_mod z = Except.error DatumError.DivisionByZeroError ∧
    ∀ (heap : Heap) (self : Nat) (r : Option Nat),
      Natural.quotient_remainder heap self z r =
        Except.error DatumError.DivisionByZeroError := by
  have hzero := is_zero_of_magnitude z hz h0
  refine ⟨?_, ?_, ?_⟩
  · simp [Natural.operator_div, Natural.operator_div_assign, Natural.quotient_remainder, hzero]
  · simp [Natural.operator_mod, Natural.operator_mod_assign, Natural.quotient_remainder, hzero]
  · intro heap self r
    simp [Natural.quotient_remainder, hzero]

/-- Instance of C19: 65536 divided by the Natural zero. -/
theorem division_by_zero_witness :
    Natural.Valid ⟨[0]⟩ ∧ Natural.magnitude ⟨[0]⟩ = 0 ∧
    Natural.operator_div ⟨[1, 0, 0]⟩ ⟨[0]⟩ = Except.error DatumError.DivisionByZeroError ∧
    Natural.operator_mod ⟨[1, 0, 0]⟩ ⟨[0]⟩ = Except.error DatumError.DivisionByZeroError ∧
    ∀ (heap : Heap) (self : Nat) (r : Option Nat),
      Natural.quotient_remainder heap self ⟨[0]⟩ r =
        Except.error DatumError.DivisionByZeroError :=
  ⟨valid_single 0 (by decide), rfl,
    division_by_zero ⟨[1, 0, 0]⟩ ⟨[0]⟩ (valid_single 0 (by decide)) rfl⟩

/-- C20: the constructor with a base reads the range with `from_base16`, `from_base10` or
`from_base8` exactly for the bases 16, 10 and 8 and with `from_memory` for every other base,
base 0 included; the constructor without a base argument is the base-0 case. -/
theorem constructor_base_dispatch (readers : NaturalReaders) (ns : List Nat)
    (nstart nend : Nat) :
    Natural.create_with_base readers 16 ns nstart nend = readers.from_base16 ns nstart nend ∧
    Natural.create_with_base readers 10 ns nstart nend = readers.from_base10 ns nstart nend ∧
    Natural.create_with_base readers 8 ns nstart nend = readers.from_base8 ns nstart nend ∧
    Natural.create_with_base readers 0 ns nstart nend = readers.from_memory ns nstart nend ∧
    Natural.create readers ns nstart nend = Natural.create_with_base readers 0 ns nstart nend ∧
    ∀ base, Natural.create_with_base readers base ns nstart nend =
      if base = 16 then readers.from_base16 ns nstart nend
      else if base = 10 then readers.from_base10 ns nstart nend
      else if base = 8 then readers.from_base8 ns nstart nend
      else readers.from_memory ns nstart nend := by
  refine ⟨rfl, rfl, rfl, rfl, rfl, ?_⟩
  intro base
  unfold Natural.create_with_base
  split <;> simp_all

/-! ## The claim on the ECB round trip -/

theorem block_byte_block_ref (b : Buffer) (hb : IsBytes b) (off k : Nat) (hk : k < 8) :
    block_byte (block_ref b off) k = b (off + k) := by
  unfold block_byte block_ref bigendian_uint32_ref
  simp only [Nat.add_assoc, Nat.reduceAdd]
  have a0 := hb off
  have a1 := hb (off + 1)
  have a2 := hb (off + 2)
  have a3 := hb (off + 3)
  have a4 := hb (off + 4)
  have a5 := hb (off + 5)
  have a6 := hb (off + 6)
  have a7 := hb (off + 7)
  interval_cases k
  · norm_num
    omega
  all_goals
    norm_num
    omega

theorem ecb_decrypt_one_block_ahead (box : BFBox) (src : Buffer) (d n : Nat) (dst : Buffer)
    (pend : Nat) (hn : 0 < n) :
    BlowfishCipher.decrypt ⟨box⟩ src (d + 8) (d + 8 + 8 * n) dst d pend =
      ⟨(run_blocks (ecb_decrypt_body box) n src (d + 8)
          (block_set dst d (bf_decrypt (block_ref src (d + 8)).1 (block_ref src (d + 8)).2 box))
          (d + 8) ()).1, d + 8 + 8 * n + 8⟩ := by
  simp only [BlowfishCipher.decrypt, bf_block_size]
  rw [BlowfishCipher.decrypt_loop, if_pos (by omega)]
  simp only [bf_block_decrypt, bf_block_size]
  rw [ecb_decrypt_loop_eq box src (d + 8 + 8 * n) n (d + 8) _ (by omega) (by omega)]
  rfl

theorem ecb_cipher_block (box : BFBox) (hinv : RoundInverse box) (plaintext c0 : Buffer)
    (ps c n j : Nat) (hj : j < n) :
    bf_decrypt
        (block_ref (run_blocks (ecb_encrypt_body box) n plaintext ps c0 c ()).1 (c + 8 * j)).1
        (block_ref (run_blocks (ecb_encrypt_body box) n plaintext ps c0 c ()).1 (c + 8 * j)).2
        box = block_ref plaintext (ps + 8 * j) := by
  rw [run_blocks_block _ _ _ _ _ _ _ j hj]
  simp only [ecb_encrypt_body]
  rw [word_wrap_of_lt _ (bf_encrypt_lt _ _ _).1 (bf_encrypt_lt _ _ _).2,
    hinv _ _ (block_ref_lt _ _).1 (block_ref_lt _ _).2]

theorem ecb_round_trip_in_place (box : BFBox) (hinv : RoundInverse box) (plaintext : Buffer)
    (hp : IsBytes plaintext) (c0 r0 : Buffer) (ps off cend pend n : Nat) :
    ∀ i, i < 8 * n →
      (BlowfishCipher.decrypt ⟨box⟩
          (BlowfishCipher.encrypt ⟨box⟩ plaintext ps (ps + 8 * n) c0 off cend).buffer
          off (off + 8 * n) r0 off pend).buffer (off + i) = plaintext (ps + i) := by
  intro i hi
  rw [ecb_decrypt_eq, ecb_encrypt_eq]
  simp only
  have e1 : off + i = off + 8 * (i / 8) + i % 8 := by omega
  have e2 : ps + i = ps + 8 * (i / 8) + i % 8 := by omega
  have hk : i % 8 < 8 := Nat.mod_lt _ (by decide)
  rw [e1, e2, run_blocks_byte _ _ _ _ _ _ _ (i / 8) (i % 8) (by omega) hk]
  simp only [ecb_decrypt_body]
  rw [ecb_cipher_block box hinv plaintext c0 ps off n (i / 8) (by omega)]
  exact block_byte_block_ref plaintext hp _ _ hk

theorem ecb_round_trip_one_block_ahead (box : BFBox) (hinv : RoundInverse box)
    (plaintext : Buffer) (hp : IsBytes plaintext) (c0 r0 : Buffer) (ps d cend pend n : Nat)
    (hn : 0 < n) :
    (∀ k, k < 8 →
      (BlowfishCipher.decrypt ⟨box⟩
          (BlowfishCipher.encrypt ⟨box⟩ plaintext ps (ps + 8 * n) c0 (d + 8) cend).buffer
          (d + 8) (d + 8 + 8 * n) r0 d pend).buffer (d + k) = plaintext (ps + k)) ∧
    ∀ i, i < 8 * n →
      (BlowfishCipher.decrypt ⟨box⟩
          (BlowfishCipher.encrypt ⟨box⟩ plaintext ps (ps + 8 * n) c0 (d + 8) cend).buffer
          (d + 8) (d + 8 + 8 * n) r0 d pend).buffer (d + 8 + i) = plaintext (ps + i) := by
  rw [ecb_decrypt_one_block_ahead _ _ _ _ _ _ hn, ecb_encrypt_eq]
  simp only
  constructor
  · intro k hk
    rw [run_blocks_frame _ _ _ _ _ _ _ _ (Or.inl (by omega)), block_set_apply _ _ _ _ hk]
    have h0 := ecb_cipher_block box hinv plaintext c0 ps (d + 8) n 0 hn
    simp only [Nat.mul_zero, Nat.add_zero] at h0
    rw [h0]
    exact block_byte_block_ref plaintext hp _ _ hk
  · intro i hi
    have e1 : d + 8 + i = d + 8 + 8 * (i / 8) + i % 8 := by omega
    have e2 : ps + i = ps + 8 * (i / 8) + i % 8 := by omega
    have hk : i % 8 < 8 := Nat.mod_lt _ (by decide)
    rw [e1, e2, run_blocks_byte _ _ _ _ _ _ _ (i / 8) (i % 8) (by omega) hk]
    simp only [ecb_decrypt_body]
    rw [ecb_cipher_block box hinv plaintext c0 ps (d + 8) n (i / 8) (by omega)]
    exact block_byte_block_ref plaintext hp _ _ hk

/-- C21: with `bf_decrypt` the inverse of `bf_encrypt` for the key schedule, the ECB round trip
over a plaintext of `n` whole blocks of bytes returns the original bytes when decrypt reads the
ciphertext at the offset at which it writes its result; when the ciphertext lies one block
ahead of the destination offset, decrypt writes the first plaintext block twice and every
later block one block late, so a byte of the span is recovered exactly when it equals the
plaintext byte one block before it. -/
theorem ecb_round_trip (box : BFBox) (hinv : RoundInverse box) (plaintext : Buffer)
    (hp : IsBytes plaintext) (c0 r0 : Buffer) (ps off cend pend n : Nat) (hn : 0 < n) :
    (∀ i, i < 8 * n →
      (BlowfishCipher.decrypt ⟨box⟩
          (BlowfishCipher.encrypt ⟨box⟩ plaintext ps (ps + 8 * n) c0 off cend).buffer
          off (off + 8 * n) r0 off pend).buffer (off + i) = plaintext (ps + i)) ∧
    (∀ k, k < 8 →
      (BlowfishCipher.decrypt ⟨box⟩
          (BlowfishCipher.encrypt ⟨box⟩ plaintext ps (ps + 8 * n) c0 (off + 8) cend).buffer
          (off + 8) (off + 8 + 8 * n) r0 off pend).buffer (off + k) = plaintext (ps + k)) ∧
    (∀ i, i < 8 * n →
      (BlowfishCipher.decrypt ⟨box⟩
          (BlowfishCipher.encrypt ⟨box⟩ plaintext ps (ps + 8 * n) c0 (off + 8) cend).buffer
          (off + 8) (off + 8 + 8 * n) r0 off pend).buffer (off + 8 + i) = plaintext (ps + i)) ∧
    ∀ i, 8 + i < 8 * n →
      ((BlowfishCipher.decrypt ⟨box⟩
          (BlowfishCipher.encrypt ⟨box⟩ plaintext ps (ps + 8 * n) c0 (off + 8) cend).buffer
          (off + 8) (off + 8 + 8 * n) r0 off pend).buffer (off + 8 + i) =
          plaintext (ps + 8 + i) ↔
        plaintext (ps + i) = plaintext (ps + 8 + i)) := by
  have h := ecb_round_trip_one_block_ahead box hinv plaintext hp c0 r0 ps off cend pend n hn
  refine ⟨ecb_round_trip_in_place box hinv plaintext hp c0 r0 ps off cend pend n, h.1, h.2, ?_⟩
  intro i hi
  rw [h.2 i (by omega)]

/-- Instance of C21: a plaintext of two blocks that differ in byte 4, encrypted to offset 8 and
decrypted from there to offset 0: byte 12 of the result is byte 4 of the plaintext, not its
byte 12. -/
theorem ecb_round_trip_witness :
    RoundInverse sample_box ∧ IsBytes probe_buffer ∧ 0 < 2 ∧
    (BlowfishCipher.decrypt ⟨sample_box⟩
        (BlowfishCipher.encrypt ⟨sample_box⟩ probe_buffer 0 (0 + 8 * 2) zero_buffer (0 + 8)
          24).buffer
        (0 + 8) (0 + 8 + 8 * 2) zero_buffer 0 16).buffer (0 + 8 + 4) = probe_buffer (0 + 4) ∧
    (BlowfishCipher.decrypt ⟨sample_box⟩
        (BlowfishCipher.encrypt ⟨sample_box⟩ probe_buffer 0 (0 + 8 * 2) zero_buffer (0 + 8)
          24).buffer
        (0 + 8) (0 + 8 + 8 * 2) zero_buffer 0 16).buffer (0 + 8 + 4) ≠ probe_buffer (0 + 8 + 4) :=
  ⟨sample_box_inverse, probe_buffer_isBytes, by decide,
    (ecb_round_trip sample_box sample_box_inverse probe_buffer probe_buffer_isBytes zero_buffer
      zero_buffer 0 0 24 16 2 (by decide)).2.2.1 4 (by decide),
    fun e => absurd
      (((ecb_round_trip sample_box sample_box_inverse probe_buffer probe_buffer_isBytes
        zero_buffer zero_buffer 0 0 24 16 2 (by decide)).2.2.2 4 (by decide)).mp e)
      (by decide)⟩

/-! ## Reading numbers from a stream: lemmas -/

theorem sbumpc_at (pre : List Nat) (c : Nat) (post : List Nat) :
    filebuf.sbumpc ⟨pre ++ c :: post, pre.length⟩ = ((c : Int), ⟨pre ++ c :: post, pre.length + 1⟩) := by
  unfold filebuf.sbumpc
  simp only [getElem_append_cons]

theorem sbumpc_end (pre : List Nat) :
    filebuf.sbumpc ⟨pre, pre.length⟩ = (EOF, ⟨pre, pre.length⟩) := by
  unfold filebuf.sbumpc
  have : pre.get? pre.length = none := List.get?_eq_none.mpr (Nat.le_refl _)
  simp only [this]

theorem sgetc_at (pre : List Nat) (c : Nat) (post : List Nat) :
    filebuf.sgetc ⟨pre ++ c :: post, pre.length⟩ = (c : Int) := by
  unfold filebuf.sgetc
  simp only [getElem_append_cons]

theorem sgetc_end (pre : List Nat) : filebuf.sgetc ⟨pre, pre.length⟩ = EOF := by
  unfold filebuf.sgetc
  have : pre.get? pre.length = none := List.get?_eq_none.mpr (Nat.le_refl _)
  simp only [this]

theorem to_char_ascii (c : Nat) (h : c < 128) : to_char (c : Int) = (c : Int) := by
  unfold to_char
  omega

theorem to_char_EOF : to_char EOF = EOF := by decide

theorem discard_space_at_end (pre : List Nat) :
    discard_space ⟨pre, pre.length⟩ = ⟨pre, pre.length⟩ := by
  rw [discard_space, sbumpc_end]
  simp only [to_char_EOF, ne_eq, not_true_eq_false, dite_false]

theorem discard_space_at_other (pre : List Nat) (c : Nat) (post : List Nat) (hc : c < 128)
    (hs : c ≠ 32) :
    discard_space ⟨pre ++ c :: post, pre.length⟩ = ⟨pre ++ c :: post, pre.length⟩ := by
  rw [discard_space, sbumpc_at]
  simp only [to_char_ascii c hc]
  have h1 : (c : Int) ≠ EOF := by unfold EOF; omega
  have h2 : char_end_of_word (c : Int) = false := by
    unfold char_end_of_word space
    simp only [beq_eq_false_iff_ne, ne_eq]
    omega
  simp [h1, h2, filebuf.sungetc]

theorem discard_space_at_space (pre : List Nat) (post : List Nat) :
    discard_space ⟨pre ++ 32 :: post, pre.length⟩ =
      discard_space ⟨pre ++ 32 :: post, pre.length + 1⟩ := by
  rw [discard_space, sbumpc_at]
  simp only [to_char_ascii 32 (by decide)]
  norm_num [EOF, char_end_of_word, space]

theorem discard_space_spec (s : Nat) : ∀ (pre tail : List Nat),
    (∀ c, tail.head? = some c → c < 128 ∧ c ≠ 32) →
    discard_space ⟨pre ++ (List.replicate s 32 ++ tail), pre.length⟩ =
      ⟨pre ++ (List.replicate s 32 ++ tail), pre.length + s⟩ := by
  induction s with
  | zero =>
    intro pre tail h
    simp only [List.replicate_zero, List.nil_append, Nat.add_zero]
    cases tail with
    | nil => simpa using discard_space_at_end pre
    | cons c t =>
      obtain ⟨hc, hs⟩ := h c rfl
      exact discard_space_at_other pre c t hc hs
  | succ s ih =>
    intro pre tail h
    have e : pre ++ (List.replicate (s + 1) 32 ++ tail) =
        pre ++ 32 :: (List.replicate s 32 ++ tail) := by
      simp [List.replicate_succ]
    rw [e, discard_space_at_space]
    have e2 : pre ++ 32 :: (List.replicate s 32 ++ tail) =
        (pre ++ [32]) ++ (List.replicate s 32 ++ tail) := by simp
    have e3 : pre.length + 1 = (pre ++ [32]).length := by simp
    rw [e2, e3, ih (pre ++ [32]) tail h]
    simp only [List.length_append, List.length_singleton]
    congr 1
    omega

theorem read_natural_loop_at_end (pre : List Nat) (n : Nat) :
    read_natural_loop ⟨pre, pre.length⟩ n = (n, ⟨pre, pre.length⟩) := by
  rw [read_natural_loop, sbumpc_end]
  simp only [to_char_EOF, ne_eq, not_true_eq_false, dite_false]

theorem read_natural_loop_at_other (pre : List Nat) (c : Nat) (post : List Nat) (n : Nat)
    (hc : c < 128) (hd : c < 48 ∨ 57 < c) :
    read_natural_loop ⟨pre ++ c :: post, pre.length⟩ n = (n, ⟨pre ++ c :: post, pre.length⟩) := by
  rw [read_natural_loop, sbumpc_at]
  simp only [to_char_ascii c hc]
  have h1 : (c : Int) ≠ EOF := by unfold EOF; omega
  have h2 : (c : Int) < zero ∨ (c : Int) > nine := by unfold zero nine; omega
  simp [h1, h2, filebuf.sungetc]

theorem read_natural_loop_at_digit (pre : List Nat) (d : Nat) (post : List Nat) (n : Nat)
    (h48 : 48 ≤ d) (h57 : d ≤ 57) :
    read_natural_loop ⟨pre ++ d :: post, pre.length⟩ n =
      read_natural_loop ⟨pre ++ d :: post, pre.length + 1⟩
        ((n * 10 + (d - 48)) % 18446744073709551616) := by
  rw [read_natural_loop, sbumpc_at]
  simp only [to_char_ascii d (by omega)]
  have h1 : (d : Int) ≠ EOF := by unfold EOF; omega
  have h2 : ¬((d : Int) < zero ∨ (d : Int) > nine) := by unfold zero nine; omega
  have h3 : ((d : Int) - zero).toNat = d - 48 := by unfold zero; omega
  simp only [ne_eq, h1, not_false_eq_true, dite_true, h2, if_false, h3]

theorem read_natural_loop_spec (ds : List Nat) : ∀ (pre rest : List Nat) (n : Nat),
    (∀ d ∈ ds, 48 ≤ d ∧ d ≤ 57) →
    (∀ c, rest.head? = some c → c < 128 ∧ (c < 48 ∨ 57 < c)) →
    read_natural_loop ⟨pre ++ (ds ++ rest), pre.length⟩ n =
      (ds.foldl (fun acc d => (acc * 10 + (d - 48)) % 18446744073709551616) n,
        ⟨pre ++ (ds ++ rest), pre.length + ds.length⟩) := by
  induction ds with
  | nil =>
    intro pre rest n _ hr
    simp only [List.nil_append, List.foldl_nil, List.length_nil, Nat.add_zero]
    cases rest with
    | nil => simpa using read_natural_loop_at_end pre n
    | cons c t =>
      obtain ⟨hc, hd⟩ := hr c rfl
      exact read_natural_loop_at_other pre c t n hc hd
  | cons d ds ih =>
    intro pre rest n hds hr
    obtain ⟨h48, h57⟩ := hds d (List.mem_cons_self _ _)
    have e : pre ++ (d :: ds ++ rest) = pre ++ d :: (ds ++ rest) := by simp
    rw [e, read_natural_loop_at_digit pre d (ds ++ rest) n h48 h57]
    have e2 : pre ++ d :: (ds ++ rest) = (pre ++ [d]) ++ (ds ++ rest) := by simp
    have e3 : pre.length + 1 = (pre ++ [d]).length := by simp
    have e4 : (pre ++ [d]).length + ds.length = pre.length + (d :: ds).length := by
      simp only [List.length_append, List.length_cons, List.length_nil]
      ring
    rw [e2, e3, ih (pre ++ [d]) rest _ (fun x hx => hds x (List.mem_cons_of_mem _ hx)) hr, e4]
    rfl

theorem foldl_decimal_mod (ds : List Nat) : ∀ n : Nat,
    ds.foldl (fun acc d => (acc * 10 + (d - 48)) % 18446744073709551616)
        (n % 18446744073709551616) =
      ds.foldl (fun acc d => acc * 10 + (d - 48)) n % 18446744073709551616 := by
  induction ds with
  | nil => intro n; rfl
  | cons d ds ih =>
    intro n
    simp only [List.foldl_cons]
    rw [← ih (n * 10 + (d - 48))]
    congr 1
    omega

theorem foldl_decimal_ge (ds : List Nat) : ∀ n : Nat,
    n ≤ ds.foldl (fun acc d => acc * 10 + (d - 48)) n := by
  induction ds with
  | nil => intro n; exact Nat.le_refl _
  | cons d ds ih =>
    intro n
    simp only [List.foldl_cons]
    have := ih (n * 10 + (d - 48))
    omega

theorem int64_of_small (x : Int) (h0 : 0 ≤ x) (h1 : x < 9223372036854775808) : int64 x = x := by
  unfold int64
  omega

theorem read_integer_loop_at_end (pre : List Nat) (n : Int) :
    read_integer_loop ⟨pre, pre.length⟩ n = (n, ⟨pre, pre.length⟩) := by
  rw [read_integer_loop, sbumpc_end]
  simp only [to_char_EOF, ne_eq, not_true_eq_false, dite_false]

theorem read_integer_loop_at_other (pre : List Nat) (c : Nat) (post : List Nat) (n : Int)
    (hc : c < 128) (hd : c < 48 ∨ 57 < c) :
    read_integer_loop ⟨pre ++ c :: post, pre.length⟩ n = (n, ⟨pre ++ c :: post, pre.length⟩) := by
  rw [read_integer_loop, sbumpc_at]
  simp only [to_char_ascii c hc]
  have h1 : (c : Int) ≠ EOF := by unfold EOF; omega
  have h2 : (c : Int) < zero ∨ (c : Int) > nine := by unfold zero nine; omega
  simp [h1, h2, filebuf.sungetc]

theorem read_integer_loop_at_digit (pre : List Nat) (d : Nat) (post : List Nat) (n : Int)
    (h48 : 48 ≤ d) (h57 : d ≤ 57) :
    read_integer_loop ⟨pre ++ d :: post, pre.length⟩ n =
      read_integer_loop ⟨pre ++ d :: post, pre.length + 1⟩
        (int64 (n * 10 + ((d : Int) - zero))) := by
  rw [read_integer_loop, sbumpc_at]
  simp only [to_char_ascii d (by omega)]
  have h1 : (d : Int) ≠ EOF := by unfold EOF; omega
  have h2 : ¬((d : Int) < zero ∨ (d : Int) > nine) := by unfold zero nine; omega
  simp only [ne_eq, h1, not_false_eq_true, dite_true, h2, if_false]

theorem read_integer_loop_spec (ds : List Nat) : ∀ (pre rest : List Nat) (n : Nat),
    (∀ d ∈ ds, 48 ≤ d ∧ d ≤ 57) →
    (∀ c, rest.head? = some c → c < 128 ∧ (c < 48 ∨ 57 < c)) →
    ds.foldl (fun acc d => acc * 10 + (d - 48)) n < 9223372036854775808 →
    read_integer_loop ⟨pre ++ (ds ++ rest), pre.length⟩ (n : Int) =
      (((ds.foldl (fun acc d => acc * 10 + (d - 48)) n : Nat) : Int),
        ⟨pre ++ (ds ++ rest), pre.length + ds.length⟩) := by
  induction ds with
  | nil =>
    intro pre rest n _ hr _
    simp only [List.nil_append, List.foldl_nil, List.length_nil, Nat.add_zero]
    cases rest with
    | nil => simpa using read_integer_loop_at_end pre n
    | cons c t =>
      obtain ⟨hc, hd⟩ := hr c rfl
      exact read_integer_loop_at_other pre c t n hc hd
  | cons d ds ih =>
    intro pre rest n hds hr hlt
    obtain ⟨h48, h57⟩ := hds d (List.mem_cons_self _ _)
    have e : pre ++ (d :: ds ++ rest) = pre ++ d :: (ds ++ rest) := by simp
    rw [e, read_integer_loop_at_digit pre d (ds ++ rest) n h48 h57]
    simp only [List.foldl_cons] at hlt ⊢
    have hge := foldl_decimal_ge ds (n * 10 + (d - 48))
    have hstep : int64 ((n : Int) * 10 + ((d : Int) - zero)) = ((n * 10 + (d - 48) : Nat) : Int) := by
      rw [int64_of_small _ (by unfold zero; omega) (by unfold zero; omega)]
      unfold zero
      omega
    rw [hstep]
    have e2 : pre ++ d :: (ds ++ rest) = (pre ++ [d]) ++ (ds ++ rest) := by simp
    have e3 : pre.length + 1 = (pre ++ [d]).length := by simp
    have e4 : (pre ++ [d]).length + ds.length = pre.length + (d :: ds).length := by
      simp only [List.length_append, List.length_cons, List.length_nil]
      ring
    rw [e2, e3, ih (pre ++ [d]) rest _ (fun x hx => hds x (List.mem_cons_of_mem _ hx)) hr hlt, e4]

theorem snextc_at (pre : List Nat) (c : Nat) (post : List Nat) :
    (filebuf.snextc ⟨pre ++ c :: post, pre.length⟩).2 = ⟨pre ++ c :: post, pre.length + 1⟩ := by
  unfold filebuf.snextc
  rw [sbumpc_at]
  split <;> rfl

theorem decimal_head (ds rest : List Nat) (hds : ∀ d ∈ ds, 48 ≤ d ∧ d ≤ 57)
    (hr : ∀ c, rest.head? = some c → c < 128 ∧ (c < 48 ∨ 57 < c))
    (hs : ds = [] → ∀ c, rest.head? = some c → c ≠ 32) :
    ∀ c, (ds ++ rest).head? = some c → c < 128 ∧ c ≠ 32 := by
  intro c hc
  cases ds with
  | nil =>
    rw [List.nil_append] at hc
    exact ⟨(hr c hc).1, hs rfl c hc⟩
  | cons d t =>
    have hd := hds d (List.mem_cons_self _ _)
    have e : d = c := by simpa using hc
    omega

theorem read_natural_run (pre : List Nat) (s : Nat) (ds rest : List Nat)
    (hds : ∀ d ∈ ds, 48 ≤ d ∧ d ≤ 57)
    (hr : ∀ c, rest.head? = some c → c < 128 ∧ (c < 48 ∨ 57 < c))
    (hs : ds = [] → ∀ c, rest.head? = some c → c ≠ 32) :
    read_natural ⟨pre ++ (List.replicate s 32 ++ (ds ++ rest)), pre.length⟩ =
      (decimal_value ds % 18446744073709551616,
        ⟨pre ++ (List.replicate s 32 ++ (ds ++ rest)), pre.length + s + ds.length⟩) := by
  unfold read_natural
  rw [discard_space_spec s pre (ds ++ rest) (decimal_head ds rest hds hr hs)]
  have e1 : pre ++ (List.replicate s 32 ++ (ds ++ rest)) =
      (pre ++ List.replicate s 32) ++ (ds ++ rest) := by simp
  have e2 : pre.length + s = (pre ++ List.replicate s 32).length := by simp
  rw [e1, e2, read_natural_loop_spec ds _ rest 0 hds hr]
  have e3 := foldl_decimal_mod ds 0
  rw [Nat.zero_mod] at e3
  rw [e3]
  rfl

theorem read_integer_negative (pre : List Nat) (s : Nat) (ds rest : List Nat)
    (hds : ∀ d ∈ ds, 48 ≤ d ∧ d ≤ 57)
    (hr : ∀ c, rest.head? = some c → c < 128 ∧ (c < 48 ∨ 57 < c))
    (hv : decimal_value ds < 9223372036854775808) :
    read_integer ⟨pre ++ (List.replicate s 32 ++ 45 :: (ds ++ rest)), pre.length⟩ =
      (-(decimal_value ds : Int),
        ⟨pre ++ (List.replicate s 32 ++ 45 :: (ds ++ rest)), pre.length + s + 1 + ds.length⟩) := by
  unfold read_integer
  have hh : ∀ c, (45 :: (ds ++ rest)).head? = some c → c < 128 ∧ c ≠ 32 := by
    intro c hc
    have e : 45 = c := by simpa using hc
    omega
  rw [discard_space_spec s pre (45 :: (ds ++ rest)) hh]
  have e1 : pre ++ (List.replicate s 32 ++ 45 :: (ds ++ rest)) =
      (pre ++ List.replicate s 32) ++ 45 :: (ds ++ rest) := by simp
  have e2 : pre.length + s = (pre ++ List.replicate s 32).length := by simp
  rw [e1, e2, sgetc_at, snextc_at]
  have e3 : (pre ++ List.replicate s 32) ++ 45 :: (ds ++ rest) =
      (pre ++ List.replicate s 32 ++ [45]) ++ (ds ++ rest) := by simp
  have e4 : (pre ++ List.replicate s 32).length + 1 =
      (pre ++ List.replicate s 32 ++ [45]).length := by
    simp only [List.length_append, List.length_cons, List.length_nil]
  have hl := read_integer_loop_spec ds (pre ++ List.replicate s 32 ++ [45]) rest 0 hds hr hv
  rw [e3, e4]
  rw [show ((0 : Nat) : Int) = 0 from rfl] at hl
  rw [hl]
  have hm : ((45 : Nat) : Int) = minus := rfl
  rw [if_pos hm]
  have e5 : (pre ++ List.replicate s 32 ++ [45]).length + ds.length =
      (pre ++ List.replicate s 32).length + 1 + ds.length := by rw [e4]
  have e6 : int64 (((List.foldl (fun acc d => acc * 10 + (d - 48)) 0 ds : Nat) : Int) * -1) =
      -(decimal_value ds : Int) := by
    unfold int64
    unfold decimal_value at hv ⊢
    omega
  rw [e5, e6]

theorem read_integer_positive (pre : List Nat) (s : Nat) (ds rest : List Nat)
    (hds : ∀ d ∈ ds, 48 ≤ d ∧ d ≤ 57)
    (hr : ∀ c, rest.head? = some c → c < 128 ∧ (c < 48 ∨ 57 < c))
    (hs : ds = [] → ∀ c, rest.head? = some c → c ≠ 32 ∧ c ≠ 45)
    (hv : decimal_value ds < 9223372036854775808) :
    read_integer ⟨pre ++ (List.replicate s 32 ++ (ds ++ rest)), pre.length⟩ =
      ((decimal_value ds : Int),
        ⟨pre ++ (List.replicate s 32 ++ (ds ++ rest)), pre.length + s + ds.length⟩) := by
  unfold read_integer
  rw [discard_space_spec s pre (ds ++ rest)
    (decimal_head ds rest hds hr (fun h c hc => (hs h c hc).1))]
  have hg : filebuf.sgetc ⟨pre ++ (List.replicate s 32 ++ (ds ++ rest)), pre.length + s⟩ ≠
      minus := by
    have e1 : pre ++ (List.replicate s 32 ++ (ds ++ rest)) =
        (pre ++ List.replicate s 32) ++ (ds ++ rest) := by simp
    have e2 : pre.length + s = (pre ++ List.replicate s 32).length := by simp
    rw [e1, e2]
    cases ds with
    | nil =>
      cases rest with
      | nil =>
        rw [List.append_nil, List.append_nil, sgetc_end]
        decide
      | cons c t =>
        rw [List.nil_append, sgetc_at]
        have := (hs rfl c rfl).2
        unfold minus
        omega
    | cons d t =>
      rw [List.cons_append, sgetc_at]
      have := hds d (List.mem_cons_self _ _)
      unfold minus
      omega
  rw [if_neg hg]
  have e1 : pre ++ (List.replicate s 32 ++ (ds ++ rest)) =
      (pre ++ List.replicate s 32) ++ (ds ++ rest) := by simp
  have e2 : pre.length + s = (pre ++ List.replicate s 32).length := by simp
  have hl := read_integer_loop_spec ds (pre ++ List.replicate s 32) rest 0 hds hr hv
  rw [show ((0 : Nat) : Int) = 0 from rfl] at hl
  rw [e1, e2, hl]
  have e6 : int64 (((List.foldl (fun acc d => acc * 10 + (d - 48)) 0 ds : Nat) : Int) * 1) =
      (decimal_value ds : Int) := by
    unfold int64
    unfold decimal_value at hv ⊢
    omega
  rw [e6]

theorem drop_consumed (pre mid rest : List Nat) (k : Nat) (hk : k = pre.length + mid.length) :
    (pre ++ (mid ++ rest)).drop k = rest := by
  subst hk
  rw [← List.append_assoc, ← List.length_append]
  exact List.drop_left _ _

/-! ## The claims on the readers -/

/-- C22: on a stream that holds, from its position on, its run of `s` leading spaces, the
decimal digits `ds` and a `rest` that is empty or starts with an ASCII non-digit (the spaces
being the whole run, with no digit the `rest` does not start with a space), `read_natural`
returns the decimal value of the digits modulo 2^64, which is 0 for no digit, and leaves the
stream at the first character of `rest`: what remains to be read is `rest`. -/
theorem read_natural_decimal (pre : List Nat) (s : Nat) (ds rest : List Nat)
    (hds : ∀ d ∈ ds, 48 ≤ d ∧ d ≤ 57)
    (hr : ∀ c, rest.head? = some c → c < 128 ∧ (c < 48 ∨ 57 < c))
    (hs : ds = [] → ∀ c, rest.head? = some c → c ≠ 32) :
    read_natural ⟨pre ++ (List.replicate s 32 ++ (ds ++ rest)), pre.length⟩ =
      (decimal_value ds % 18446744073709551616,
        ⟨pre ++ (List.replicate s 32 ++ (ds ++ rest)), pre.length + s + ds.length⟩) ∧
    (ds = [] →
      (read_natural ⟨pre ++ (List.replicate s 32 ++ (ds ++ rest)), pre.length⟩).1 = 0) ∧
    (read_natural ⟨pre ++ (List.replicate s 32 ++ (ds ++ rest)), pre.length⟩).2.data.drop
      (read_natural ⟨pre ++ (List.replicate s 32 ++ (ds ++ rest)), pre.length⟩).2.pos = rest := by
  have h := read_natural_run pre s ds rest hds hr hs
  refine ⟨h, ?_, ?_⟩
  · intro hnil
    rw [h, hnil]
    rfl
  · rw [h]
    have e : pre ++ (List.replicate s 32 ++ (ds ++ rest)) =
        pre ++ ((List.replicate s 32 ++ ds) ++ rest) := by
      rw [List.append_assoc]
    show (pre ++ (List.replicate s 32 ++ (ds ++ rest))).drop (pre.length + s + ds.length) = rest
    rw [e]
    apply drop_consumed
    rw [List.length_append, List.length_replicate, Nat.add_assoc]

/-- Instance of C22 on the stream of two spaces, `123` and an `x`. -/
theorem read_natural_decimal_witness :
    read_natural ⟨[32, 32, 49, 50, 51, 120], 0⟩ = (123, ⟨[32, 32, 49, 50, 51, 120], 5⟩) :=
  (read_natural_decimal [] 2 [49, 50, 51] [120] (by decide) (by simp) (by simp)).1

/-- Counterexample to C23: on the stream of a minus sign, a space and `5`, which has the form
of the claim with no space before the sign, no digit and a rest that starts with the non-digit
space, `read_integer` returns 0 and stops at the space, while `read_natural` on the characters
after the sign skips the space and returns 5, whose negation is not 0. -/
theorem read_integer_minus_before_space :
    (∀ d ∈ ([] : List Nat), 48 ≤ d ∧ d ≤ 57) ∧
    (∀ c, [32, 53].head? = some c → c < 128 ∧ (c < 48 ∨ 57 < c)) ∧
    decimal_value [] < 9223372036854775808 ∧
    read_integer ⟨[] ++ (List.replicate 0 32 ++ 45 :: ([] ++ [32, 53])), 0⟩ =
      (0, ⟨[45, 32, 53], 1⟩) ∧
    read_natural ⟨[] ++ [32, 53], 0⟩ = (5, ⟨[32, 53], 2⟩) ∧
    (read_integer ⟨[] ++ (List.replicate 0 32 ++ 45 :: ([] ++ [32, 53])), 0⟩).1 ≠
      -((read_natural ⟨[] ++ [32, 53], 0⟩).1 : Int) := by
  have h : read_integer ⟨[] ++ (List.replicate 0 32 ++ 45 :: ([] ++ [32, 53])), 0⟩ =
      (0, ⟨[45, 32, 53], 1⟩) :=
    read_integer_negative [] 0 [] [32, 53] (by simp) (by simp) (by decide)
  have g2 : read_natural ⟨[] ++ [32, 53], 0⟩ = (5, ⟨[32, 53], 2⟩) :=
    read_natural_run [] 1 [53] [] (by simp) (by simp) (by simp)
  refine ⟨by simp, by simp, by decide, h, g2, ?_⟩
  rw [h, g2]
  decide

/-- C23, amended: on a stream that holds, from its position on, `s` spaces, a minus sign, the
decimal digits `ds` of value below 2^63 and a `rest` that is empty or starts with an ASCII
non-digit, `read_integer` returns the negation of the decimal value of the digits, which is the
negation of what `read_natural` returns on the digits and `rest` when there is a digit or
`rest` does not start with a space; on the stream without the sign, where with no digit the
`rest` starts with neither a space nor a minus sign, it returns the value `read_natural`
returns there; in both cases the stream is left at the first character of `rest`. -/
theorem read_integer_sign (pre : List Nat) (s : Nat) (ds rest : List Nat)
    (hds : ∀ d ∈ ds, 48 ≤ d ∧ d ≤ 57)
    (hr : ∀ c, rest.head? = some c → c < 128 ∧ (c < 48 ∨ 57 < c))
    (hv : decimal_value ds < 9223372036854775808) :
    read_integer ⟨pre ++ (List.replicate s 32 ++ 45 :: (ds ++ rest)), pre.length⟩ =
      (-(decimal_value ds : Int),
        ⟨pre ++ (List.replicate s 32 ++ 45 :: (ds ++ rest)), pre.length + s + 1 + ds.length⟩) ∧
    ((ds = [] → ∀ c, rest.head? = some c → c ≠ 32) →
      (read_integer ⟨pre ++ (List.replicate s 32 ++ 45 :: (ds ++ rest)), pre.length⟩).1 =
        -((read_natural ⟨ds ++ rest, 0⟩).1 : Int)) ∧
    ((ds = [] → ∀ c, rest.head? = some c → c ≠ 32 ∧ c ≠ 45) →
      read_integer ⟨pre ++ (List.replicate s 32 ++ (ds ++ rest)), pre.length⟩ =
        (((read_natural ⟨pre ++ (List.replicate s 32 ++ (ds ++ rest)), pre.length⟩).1 : Int),
          ⟨pre ++ (List.replicate s 32 ++ (ds ++ rest)), pre.length + s + ds.length⟩)) := by
  have hm : decimal_value ds % 18446744073709551616 = decimal_value ds :=
    Nat.mod_eq_of_lt (by omega)
  refine ⟨read_integer_negative pre s ds rest hds hr hv, ?_, ?_⟩
  · intro hs
    have g := read_natural_run [] 0 ds rest hds hr hs
    have g2 : read_natural ⟨ds ++ rest, 0⟩ =
        (decimal_value ds % 18446744073709551616, ⟨ds ++ rest, 0 + 0 + ds.length⟩) := g
    rw [read_integer_negative pre s ds rest hds hr hv, g2, hm]
  · intro hs
    rw [read_integer_positive pre s ds rest hds hr hs hv,
      read_natural_run pre s ds rest hds hr (fun h c hc => (hs h c hc).1), hm]

/-- Instance of C23, amended, on the stream of a space, a minus sign, `123` and an `x`. -/
theorem read_integer_sign_witness :
    decimal_value [49, 50, 51] < 9223372036854775808 ∧
    read_integer ⟨[32, 45, 49, 50, 51, 120], 0⟩ = (-123, ⟨[32, 45, 49, 50, 51, 120], 5⟩) :=
  ⟨by decide,
    (read_integer_sign [] 1 [49, 50, 51] [120] (by decide) (by simp) (by decide)).1⟩

end WarGrey.SCADA
